import Mathlib

/-!
# simplelist: a sorted singly linked list of integers (clist_impl.go)

Shallow embedding of `clist_impl.go`.

* Go pointers `*intNode` are addresses (`Nat`) into an explicit memory, the
  field `heap` of the state; `nil` is `none`.  `newIntNode` allocates at the
  first unused address, so a fresh node never aliases an existing one (the Go
  runtime never reuses the address of a node that is still referenced, and this
  model never frees).
* Go `int` values are only compared (`<`, `==`), never added, so they are `Int`.
* The counter `length` is an `int64` moved by `atomic.AddInt64` (`addInt64`
  below, wrapping around).  On a list built from `NewInt()` the counter is the
  number of linked nodes, and `2^63` nodes do not fit a 64-bit address space,
  so `incrLength` / `decrLength` add `1` / `-1` on `Int`; this is `addInt64`
  for every `int64` counter except the largest (smallest) one
  (`incrLength_exact`, `decrLength_exact`), and statements about arbitrary
  states speak of the counter only inside that range.
* A `sync.Mutex` is the boolean `mu` (`true` = held).
* The functions `Insert`, `Delete`, `Contains`, `Range`, `Len` are the
  operations as one thread runs them with no other thread taking steps in
  between; `Lock` on a held mutex can then never return and is the fault
  `deadlock`.  Loops take a `fuel : Nat`, the number of times the loop may
  jump back to its head; running out is the fault `outOfFuel`.
* Two threads inside `Insert` are modelled one atomic step at a time
  (`Thread.step`, one step per access to shared memory, `Lock` enabled only
  while the mutex is free), interleaved by a schedule (`exec`).
-/

namespace simplelist

/-! ## Definitions -/

/-! ### The program -/

/-- Ways an operation of the model can fail to return. -/
inductive Fault where
  | outOfFuel
  | badPointer
  | deadlock
deriving DecidableEq

/-- Go `type intNode struct { value int; marked uint32; mu sync.Mutex; next *intNode }`. -/
structure intNode where
  value : Int
  marked : Nat
  mu : Bool
  next : Option Nat
deriving DecidableEq

/-- Go `type IntList struct { head *intNode; length int64 }`, together with the
memory `heap` in which the nodes live (address `i` holds `heap[i]`). -/
structure IntList where
  heap : List intNode
  head : Nat
  length : Int
deriving DecidableEq

/-- Dereference of the node pointer `p`. -/
def load (l : IntList) (p : Nat) : Except Fault intNode :=
  match l.heap[p]? with
  | some n => .ok n
  | none => .error .badPointer

/-- Write of a whole node at address `p`. -/
def store (l : IntList) (p : Nat) (n : intNode) : IntList :=
  { l with heap := l.heap.set p n }

/-- Go `getLength`: `int(atomic.LoadInt64(&l.length))`. -/
def getLength (l : IntList) : Int := l.length

/-- Go `atomic.AddInt64(&x, d)` on `int64` values: the sum, wrapped around into
`-2^63 ≤ · < 2^63` (two's complement). -/
def addInt64 (x d : Int) : Int := (x + d + 2 ^ 63) % 2 ^ 64 - 2 ^ 63

/-- Go `incrLength`: `atomic.AddInt64(&l.length, 1)`, without the wrap-around at the
largest `int64` (which takes `2^63` linked nodes to reach). -/
def incrLength (l : IntList) : IntList := { l with length := l.length + 1 }

/-- Go `decrLength`: `atomic.AddInt64(&l.length, -1)`, without the wrap-around at the
smallest `int64`. -/
def decrLength (l : IntList) : IntList := { l with length := l.length + -1 }

/-- Go `isMarked`: `atomic.LoadUint32(&i.marked) == 1`. -/
def isMarked (l : IntList) (i : Nat) : Except Fault Bool := do
  let n ← load l i
  pure (n.marked == 1)

/-- Go `setMarked`: `atomic.StoreUint32(&i.marked, 1)`. -/
def setMarked (l : IntList) (i : Nat) : Except Fault IntList := do
  let n ← load l i
  pure (store l i { n with marked := 1 })

/-- Go `getNext`: atomic load of `i.next`. -/
def getNext (l : IntList) (i : Nat) : Except Fault (Option Nat) := do
  let n ← load l i
  pure n.next

/-- Go `setNext`: atomic store of `x` into `i.next`. -/
def setNext (l : IntList) (i : Nat) (x : Option Nat) : Except Fault IntList := do
  let n ← load l i
  pure (store l i { n with next := x })

/-- Go `i.mu.Lock()`: on a free mutex it returns with the mutex held.  On a held mutex
the call waits for an `Unlock`: for a thread that runs alone this is the fault
`deadlock`, in `Thread.step` it is a step that cannot be taken. -/
def lock (l : IntList) (i : Nat) : Except Fault IntList := do
  let n ← load l i
  if n.mu then throw .deadlock
  pure (store l i { n with mu := true })

/-- Go `i.mu.Unlock()`. -/
def unlock (l : IntList) (i : Nat) : Except Fault IntList := do
  let n ← load l i
  pure (store l i { n with mu := false })

/-- Go `newIntNode`: `&intNode{value: value}`, every other field zero. -/
def newIntNode (l : IntList) (value : Int) : IntList × Nat :=
  ({ l with heap := l.heap ++ [{ value := value, marked := 0, mu := false, next := none }] },
    l.heap.length)

/-- Go `NewInt`: `&IntList{head: newIntNode(0)}`, in an empty memory. -/
def NewInt : IntList :=
  let r := newIntNode { heap := [], head := 0, length := 0 } 0
  { r.1 with head := r.2 }

/-- The search loop of `Insert` and `Delete`:
`for b != nil && b.value < value { a = b; b = b.getNext() }`. -/
def searchLoop (l : IntList) (value : Int) :
    Nat → Nat → Option Nat → Except Fault (Nat × Option Nat)
  | _, a, none => pure (a, none)
  | 0, a, some b => do
    let nb ← load l b
    if nb.value < value then throw .outOfFuel
    pure (a, some b)
  | fuel + 1, a, some b => do
    let nb ← load l b
    if nb.value < value then
      let b' ← getNext l b
      searchLoop l value fuel b b'
    else
      pure (a, some b)

/-- Go `tryInsertNode`. -/
def tryInsertNode (l : IntList) (value : Int) (a : Nat) (b : Option Nat) :
    Except Fault (Bool × IntList) := do
  let l ← lock l a
  let na ← load l a
  let m ← isMarked l a
  if na.next != b || m then
    let l ← unlock l a
    pure (false, l)
  else
    let r := newIntNode l value
    let l := r.1
    let x := r.2
    let l ← setNext l x b
    let l ← setNext l a (some x)
    let l := incrLength l
    let l ← unlock l a
    pure (true, l)

/-- Go `Insert`. -/
def Insert : Nat → IntList → Int → Except Fault (Bool × IntList)
  | fuel, l, value => do
    let a := l.head
    let b ← getNext l a
    let w ← searchLoop l value fuel a b
    let dup ← (match w.2 with
      | none => pure false
      | some b => do
        let nb ← load l b
        pure (nb.value == value) : Except Fault Bool)
    if dup then
      pure (false, l)
    else
      let r ← tryInsertNode l value w.1 w.2
      if r.1 then
        pure (true, r.2)
      else
        match fuel with
        | 0 => throw .outOfFuel
        | fuel + 1 => Insert fuel r.2 value

/-- Go `tryDeleteNode`. -/
def tryDeleteNode (l : IntList) (a b : Nat) : Except Fault (Bool × IntList) := do
  let l ← lock l b
  let mb ← isMarked l b
  if mb then
    let l ← unlock l b
    pure (false, l)
  else
    let l ← lock l a
    let na ← load l a
    let ma ← isMarked l a
    if na.next != some b || ma then
      let l ← unlock l a
      let l ← unlock l b
      pure (false, l)
    else
      let l ← setMarked l b
      let nb ← load l b
      let l ← setNext l a nb.next
      let l := decrLength l
      let l ← unlock l a
      let l ← unlock l b
      pure (true, l)

/-- Go `Delete`.  The test `b == nil || b.value != value` is `miss`; the call
`tryDeleteNode(a, b)` dereferences `b`, which is not `nil` after that test. -/
def Delete : Nat → IntList → Int → Except Fault (Bool × IntList)
  | fuel, l, value => do
    let a := l.head
    let b ← getNext l a
    let w ← searchLoop l value fuel a b
    let miss ← (match w.2 with
      | none => pure true
      | some b => do
        let nb ← load l b
        pure (nb.value != value) : Except Fault Bool)
    if miss then
      pure (false, l)
    else
      let r ← (match w.2 with
        | none => throw .badPointer
        | some b => tryDeleteNode l w.1 b)
      if r.1 then
        pure (true, r.2)
      else
        match fuel with
        | 0 => throw .outOfFuel
        | fuel + 1 => Delete fuel r.2 value

/-- The loop of `Contains`: `for x != nil && x.value < value { x = x.getNext() }`. -/
def containsLoop (l : IntList) (value : Int) : Nat → Option Nat → Except Fault (Option Nat)
  | _, none => pure none
  | 0, some x => do
    let nx ← load l x
    if nx.value < value then throw .outOfFuel
    pure (some x)
  | fuel + 1, some x => do
    let nx ← load l x
    if nx.value < value then
      let x' ← getNext l x
      containsLoop l value fuel x'
    else
      pure (some x)

/-- Go `Contains`. -/
def Contains (fuel : Nat) (l : IntList) (value : Int) : Except Fault Bool := do
  let x ← getNext l l.head
  let x ← containsLoop l value fuel x
  match x with
  | none => pure false
  | some x =>
    let nx ← load l x
    if nx.value == value then
      let m ← isMarked l x
      pure (!m)
    else
      pure false

/-- A visitor passed to `Range`: a Go closure `func(value int) bool`.  It has a state of
its own (type `σ`) and may work on the list it is visiting (the closure can hold
`l` and call `l.Insert`, `l.Delete`, ...): it is given the list as it is when it is
called and returns its answer, its new state and the list as it leaves it; it
may also fail to return. -/
abbrev Visitor (σ : Type) : Type := σ → IntList → Int → Except Fault (Bool × σ × IntList)

/-- The loop of `Range`: `for x != nil { if !f(x.value) { break }; x = x.getNext() }`.
The pointer `x.getNext()` is read after `f` has returned, from the list as `f`
left it.  The result is the sequence of values `f` was called on, in call order,
the visitor's final state and the final list. -/
def rangeLoopAny {σ : Type} (f : Visitor σ) :
    Nat → IntList → Option Nat → σ → Except Fault (List Int × σ × IntList)
  | _, l, none, s => pure ([], s, l)
  | 0, l, some x, s => do
    let nx ← load l x
    let r ← f s l nx.value
    if !r.1 then pure ([nx.value], r.2.1, r.2.2)
    else throw .outOfFuel
  | fuel + 1, l, some x, s => do
    let nx ← load l x
    let r ← f s l nx.value
    if !r.1 then pure ([nx.value], r.2.1, r.2.2)
    else
      let x' ← getNext r.2.2 x
      let t ← rangeLoopAny f fuel r.2.2 x' r.2.1
      pure (nx.value :: t.1, t.2)

/-- Go `Range`, for any visitor. -/
def RangeAny {σ : Type} (fuel : Nat) (l : IntList) (f : Visitor σ) (s : σ) :
    Except Fault (List Int × σ × IntList) := do
  let x ← getNext l l.head
  rangeLoopAny f fuel l x s

/-- The visitor that computes its answer and its new state from its state and the
value alone and leaves the list as it is. -/
def listFree {σ : Type} (f : σ → Int → Bool × σ) : Visitor σ :=
  fun s l v => pure ((f s v).1, (f s v).2, l)

/-- The loop of `Range` for a visitor `f` that does not touch the list (`rangeLoopAny`
on `listFree f`, see `rangeLoopAny_listFree`): the list stays `l` throughout.  The
result is the sequence of values `f` was called on, in call order, and the
visitor's final state. -/
def rangeLoop {σ : Type} (l : IntList) (f : σ → Int → Bool × σ) :
    Nat → Option Nat → σ → Except Fault (List Int × σ)
  | _, none, s => pure ([], s)
  | 0, some x, s => do
    let nx ← load l x
    let r := f s nx.value
    if !r.1 then pure ([nx.value], r.2)
    else throw .outOfFuel
  | fuel + 1, some x, s => do
    let nx ← load l x
    let r := f s nx.value
    if !r.1 then pure ([nx.value], r.2)
    else
      let x' ← getNext l x
      let t ← rangeLoop l f fuel x' r.2
      pure (nx.value :: t.1, t.2)

/-- Go `Range` for a visitor that does not touch the list (`RangeAny` on `listFree f`,
see `RangeAny_listFree`). -/
def Range {σ : Type} (fuel : Nat) (l : IntList) (f : σ → Int → Bool × σ) (s : σ) :
    Except Fault (List Int × σ) := do
  let x ← getNext l l.head
  rangeLoop l f fuel x s

/-- Go `Len`. -/
def Len (l : IntList) : Int := getLength l

/-! ### Chains of nodes in memory -/

/-- A cell: an address and the node stored there. -/
abbrev Cell := Nat × intNode

/-- The expression `seg heap p cells q` says that following `next` from the pointer `p`
passes exactly through `cells`, in this order, and then arrives at the pointer `q`. -/
def seg (heap : List intNode) : Option Nat → List Cell → Option Nat → Prop
  | p, [], q => p = q
  | p, c :: rest, q => p = some c.1 ∧ heap[c.1]? = some c.2 ∧ seg heap c.2.next rest q

instance seg.decide (heap : List intNode) :
    (p : Option Nat) → (cells : List Cell) → (q : Option Nat) → Decidable (seg heap p cells q)
  | p, [], q => inferInstanceAs (Decidable (p = q))
  | p, c :: rest, q =>
    have := seg.decide heap c.2.next rest q
    inferInstanceAs (Decidable (p = some c.1 ∧ heap[c.1]? = some c.2 ∧ seg heap c.2.next rest q))

/-- The list `l` has head node `h`, and the nodes linked after the head are
exactly `cells` (the chain ends in `nil`). -/
def Chain (l : IntList) (h : intNode) (cells : List Cell) : Prop :=
  l.heap[l.head]? = some h ∧ seg l.heap h.next cells none

instance Chain.decide (l : IntList) (h : intNode) (cells : List Cell) :
    Decidable (Chain l h cells) :=
  inferInstanceAs (Decidable (_ ∧ _))

/-- The values of a sequence of cells. -/
def vals (cells : List Cell) : List Int := cells.map (fun c => c.2.value)

/-- The last cell of `c :: cells`. -/
def lastCell : Cell → List Cell → Cell
  | c, [] => c
  | _, c :: rest => lastCell c rest

/-- The loop test `b.value < value` on a cell. -/
def below (value : Int) (c : Cell) : Bool := decide (c.2.value < value)

/-- What `Range` does, told on the sequence of values of the chain: call the
visitor on each value in turn, stop after the first call that answers `false`. -/
def visit {σ : Type} (f : σ → Int → Bool × σ) : List Int → σ → List Int × σ
  | [], s => ([], s)
  | v :: rest, s =>
    if (f s v).1 then (v :: (visit f rest (f s v).2).1, (visit f rest (f s v).2).2)
    else ([v], (f s v).2)

/-- The number of times the loop of `Range` jumps back on a chain with these values. -/
def visitSteps {σ : Type} (f : σ → Int → Bool × σ) : List Int → σ → Nat
  | [], _ => 0
  | v :: rest, s => if (f s v).1 then visitSteps f rest (f s v).2 + 1 else 0

/-- The state after a successful `tryInsertNode(value, a, b)`; `na` is the node at `a` before. -/
def inserted (l : IntList) (value : Int) (a : Nat) (na : intNode) (b : Option Nat) : IntList :=
  { heap := l.heap.set a { na with next := some l.heap.length } ++
      [{ value := value, marked := 0, mu := false, next := b }]
    head := l.head
    length := l.length + 1 }

/-- The state after a successful `tryDeleteNode(a, b)`; `na` and `nb` are the nodes at
`a` and `b` before. -/
def deleted (l : IntList) (a : Nat) (na : intNode) (b : Nat) (nb : intNode) : IntList :=
  { heap := (l.heap.set b { nb with marked := 1 }).set a { na with next := nb.next }
    head := l.head
    length := l.length + -1 }

/-- The part of the chain the search loop walks over: the cells before the first
cell whose value is not below `v`. -/
def before (v : Int) (cells : List Cell) : List Cell := cells.takeWhile (below v)

/-- The rest of the chain, from the first cell whose value is not below `v`. -/
def fromOn (v : Int) (cells : List Cell) : List Cell := cells.dropWhile (below v)

/-- The cell the search loop ends with as `a`. -/
def window (l : IntList) (h : intNode) (v : Int) (cells : List Cell) : Cell :=
  lastCell (l.head, h) (before v cells)

/-- The state after `Delete` removed the cell `c` that follows the cell `w`. -/
def removed (l : IntList) (w c : Cell) : IntList := deleted l w.1 w.2 c.1 c.2

/-- The cell `c` after `setNext(x)` on the node at address `a`. -/
def reNext (a : Nat) (x : Option Nat) (c : Cell) : Cell :=
  if c.1 = a then (c.1, { c.2 with next := x }) else c

/-- The chain after a successful insertion of `v`. -/
def cellsInserted (l : IntList) (h : intNode) (v : Int) (cells : List Cell) : List Cell :=
  (before v cells).map (reNext (window l h v cells).1 (some l.heap.length)) ++
    (l.heap.length, { value := v, marked := 0, mu := false,
                      next := (fromOn v cells).head?.map Prod.fst }) :: fromOn v cells

/-- The chain after a successful deletion of the cell `c` that is followed by `post`. -/
def cellsRemoved (l : IntList) (h : intNode) (v : Int) (cells : List Cell) (c : Cell)
    (post : List Cell) : List Cell :=
  (before v cells).map (reNext (window l h v cells).1 c.2.next) ++ post

/-- The chain of `l` is `cells` after the head node `h`; no mutex is held and no
linked node is marked; the values ascend strictly; the counter is the number
of linked cells. -/
structure Inv (l : IntList) (h : intNode) (cells : List Cell) : Prop where
  /-- the pointer structure -/
  chain : Chain l h cells
  /-- the head's mutex is free -/
  head_free : h.mu = false
  /-- the head is not marked -/
  head_live : h.marked ≠ 1
  /-- no mutex of a linked node is held -/
  free : ∀ c ∈ cells, c.2.mu = false
  /-- no linked node is marked -/
  live : ∀ c ∈ cells, c.2.marked ≠ 1
  /-- strictly ascending values -/
  sorted : (vals cells).Pairwise (fun x y => x < y)
  /-- the counter -/
  len : l.length = cells.length
  /-- every linked cell and the head are allocated -/
  room : cells.length < l.heap.length

/-! ### Sequences of calls made by one thread -/

/-- A call of one of the five operations. -/
inductive Op : Type 1 where
  | insert (value : Int)
  | delete (value : Int)
  | contains (value : Int)
  | range (σ : Type) (f : σ → Int → Bool × σ) (s : σ)
  | len

/-- What a call returned; for `Range`, the values the visitor was called on. -/
inductive Ret where
  | bool (b : Bool)
  | int (n : Int)
  | visited (vs : List Int)
deriving DecidableEq

/-- One call on the list `l`. -/
def Op.run (fuel : Nat) (l : IntList) : Op → Except Fault (Ret × IntList)
  | .insert v => do
    let r ← Insert fuel l v
    pure (.bool r.1, r.2)
  | .delete v => do
    let r ← Delete fuel l v
    pure (.bool r.1, r.2)
  | .contains v => do
    let r ← Contains fuel l v
    pure (.bool r, l)
  | .range _ f s => do
    let r ← Range fuel l f s
    pure (.visited r.1, l)
  | .len => pure (.int (Len l), l)

/-- The calls `ops` one after another, starting on the list `l`. -/
def runOps (fuel : Nat) : IntList → List Op → Except Fault (List Ret × IntList)
  | l, [] => pure ([], l)
  | l, op :: ops => do
    let r ← op.run fuel l
    let rs ← runOps fuel r.2 ops
    pure (r.1 :: rs.1, rs.2)

/-- The list states a single thread can reach from `NewInt()`. -/
def Reachable (l : IntList) : Prop :=
  ∃ fuel ops rets, runOps fuel NewInt ops = .ok (rets, l)

/-- The call is `Delete(v)`. -/
def Op.isDelete (v : Int) : Op → Bool
  | .delete w => decide (w = v)
  | _ => false

/-- The call is `Insert(v)`. -/
def Op.isInsert (v : Int) : Op → Bool
  | .insert w => decide (w = v)
  | _ => false

/-- The number of `Insert` calls that returned true. -/
def okInserts : List Op → List Ret → Nat
  | .insert _ :: ops, .bool true :: rets => okInserts ops rets + 1
  | _ :: ops, _ :: rets => okInserts ops rets
  | _, _ => 0

/-- The number of `Delete` calls that returned true. -/
def okDeletes : List Op → List Ret → Nat
  | .delete _ :: ops, .bool true :: rets => okDeletes ops rets + 1
  | _ :: ops, _ :: rets => okDeletes ops rets
  | _, _ => 0

/-- The visitor that always answers true and keeps no state. -/
def always : Unit → Int → Bool × Unit := fun _ _ => (true, ())

/-- A visitor without state of its own, given by its answers. -/
def stateless (g : Int → Bool) : Unit → Int → Bool × Unit := fun _ x => (g x, ())

/-- The list `l` is in a state left behind by a single thread, holding the values `vs`. -/
def Rep (l : IntList) (vs : List Int) : Prop :=
  ∃ h cells, Inv l h cells ∧ vals cells = vs

/-! ### What a step may change -/

/-- Every node allocated in `l` is still allocated in `l'`, at the same address, with
the same value and the same marked flag. -/
def Untouched (l l' : IntList) : Prop :=
  ∀ (i : Nat) (n : intNode), l.heap[i]? = some n →
    ∃ n', l'.heap[i]? = some n' ∧ n'.value = n.value ∧ n'.marked = n.marked

/-- Every node allocated in `l` is still allocated in `l'`, at the same address, with
the same value; the marked flag of the node at `b` is 1, every other marked flag
is as before. -/
def MarkedAt (b : Nat) (l l' : IntList) : Prop :=
  ∀ (i : Nat) (n : intNode), l.heap[i]? = some n →
    ∃ n', l'.heap[i]? = some n' ∧ n'.value = n.value ∧
      n'.marked = (if i = b then 1 else n.marked)

/-! ### Two threads inside `Insert`, one atomic step at a time -/

/-- The statement of `Insert` / `tryInsertNode` that a thread executes next. -/
inductive Pc where
  /-- Go `a := l.head; b := a.getNext()` -/
  | start
  /-- Go `for b != nil && b.value < value { a = b; b = b.getNext() }`: one test, and one
  pass through the body if the test holds -/
  | search
  /-- Go `if b != nil && b.value == value { return false }` -/
  | check
  /-- Go `a.mu.Lock()` -/
  | lock
  /-- Go `a.next != b` -/
  | testNext
  /-- Go `a.isMarked()` -/
  | testMarked
  /-- Go `x := newIntNode(value)` -/
  | alloc
  /-- Go `x.setNext(b)` -/
  | linkNew
  /-- Go `a.setNext(x)` -/
  | publish
  /-- Go `l.incrLength()` -/
  | count
  /-- the deferred `a.mu.Unlock()` of `return true` -/
  | unlockTrue
  /-- the deferred `a.mu.Unlock()` of `return false`; `suc` is false and `Insert` loops -/
  | unlockFalse
  /-- The call of `Insert` has returned `r` -/
  | returned (r : Bool)
deriving DecidableEq

/-- A thread inside `Insert(value)`: where it is and its local variables `a`, `b`, `x`. -/
structure Thread where
  pc : Pc
  value : Int
  a : Nat
  b : Option Nat
  x : Nat
deriving DecidableEq

/-- One atomic step of the thread `t` on the shared list `l`: the statement at `t.pc`, which
makes at most one access to a shared field that can change (the `value` of a node
never changes after `newIntNode`; `next`, `marked` and the counter are read and
written with `sync/atomic`, and the plain read of `a.next` in `tryInsertNode` is
made under `a.mu`, which every writer of `a.next` holds).  The result is `none`
when the thread cannot move: it has returned, it waits in `Lock` for a held
mutex, or it dereferences a pointer that is not allocated.  A thread that takes
its steps with no other thread in between does what `Insert` does
(`solo_Insert`). -/
def Thread.step (l : IntList) (t : Thread) : Option (IntList × Thread) :=
  match t.pc with
  | .start => do
    let b ← (getNext l l.head).toOption
    pure (l, { t with pc := .search, a := l.head, b := b })
  | .search =>
    match t.b with
    | none => pure (l, { t with pc := .check })
    | some b => do
      let nb ← (load l b).toOption
      if nb.value < t.value then
        let b' ← (getNext l b).toOption
        pure (l, { t with a := b, b := b' })
      else
        pure (l, { t with pc := .check })
  | .check =>
    match t.b with
    | none => pure (l, { t with pc := .lock })
    | some b => do
      let nb ← (load l b).toOption
      if nb.value == t.value then pure (l, { t with pc := .returned false })
      else pure (l, { t with pc := .lock })
  | .lock => do
    let l ← (lock l t.a).toOption
    pure (l, { t with pc := .testNext })
  | .testNext => do
    let na ← (load l t.a).toOption
    if na.next != t.b then pure (l, { t with pc := .unlockFalse })
    else pure (l, { t with pc := .testMarked })
  | .testMarked => do
    let m ← (isMarked l t.a).toOption
    if m then pure (l, { t with pc := .unlockFalse })
    else pure (l, { t with pc := .alloc })
  | .alloc =>
    let r := newIntNode l t.value
    pure (r.1, { t with pc := .linkNew, x := r.2 })
  | .linkNew => do
    let l ← (setNext l t.x t.b).toOption
    pure (l, { t with pc := .publish })
  | .publish => do
    let l ← (setNext l t.a (some t.x)).toOption
    pure (l, { t with pc := .count })
  | .count => pure (incrLength l, { t with pc := .unlockTrue })
  | .unlockTrue => do
    let l ← (unlock l t.a).toOption
    pure (l, { t with pc := .returned true })
  | .unlockFalse => do
    let l ← (unlock l t.a).toOption
    pure (l, { t with pc := .start })
  | .returned _ => none

/-- What the thread's `Insert` has returned, if it has. -/
def Thread.result (t : Thread) : Option Bool :=
  match t.pc with
  | .returned r => some r
  | _ => none

/-- A thread at the call of `Insert(value)`. -/
def calling (value : Int) : Thread :=
  { pc := .start, value := value, a := 0, b := none, x := 0 }

/-- The thread `t` taking `n` steps in a row, no other thread in between. -/
def solo : Nat → IntList → Thread → Option (IntList × Thread)
  | 0, l, t => some (l, t)
  | n + 1, l, t => (t.step l).bind (fun r => solo n r.1 r.2)

/-- Two threads and the list they share. -/
structure Sys where
  list : IntList
  t1 : Thread
  t2 : Thread
deriving DecidableEq

/-- One step of the system: the first thread (`w = false`) or the second (`w = true`)
takes its next step; `none` when that thread cannot move. -/
def Sys.step (w : Bool) (s : Sys) : Option Sys :=
  if w then (s.t2.step s.list).map (fun r => { s with list := r.1, t2 := r.2 })
  else (s.t1.step s.list).map (fun r => { s with list := r.1, t1 := r.2 })

/-- An interleaving: the schedule `ws` names the thread that takes each step, in order.
The result is `none` when the schedule names a thread that cannot move at that
point. -/
def exec : List Bool → Sys → Option Sys
  | [], s => some s
  | w :: ws, s => (s.step w).bind (exec ws)

/-- Two threads at the calls `Insert(v1)` and `Insert(v2)` on the list `l`. -/
def twoInserts (l : IntList) (v1 v2 : Int) : Sys :=
  { list := l, t1 := calling v1, t2 := calling v2 }

/-- The states one step after `s`. -/
def succs (s : Sys) : List Sys := (s.step false).toList ++ (s.step true).toList

/-- The state `s` added to the states `S`, if it is not among them. -/
def addNew (s : Sys) (S : List Sys) : List Sys := if s ∈ S then S else s :: S

/-- The states one step after a state of `S`, each listed once. -/
def afterStep (S : List Sys) : List Sys := (S.flatMap succs).foldr addNew []

/-- The check that `P` holds of every state reached from a state of `S` by any schedule
and that no schedule from a state of `S` has `n` or more steps. -/
def verify (P : Sys → Bool) : Nat → List Sys → Bool
  | 0, S => S.isEmpty
  | n + 1, S => S.all P && verify P n (afterStep S)

/-! ### Concrete list states -/

/-- The list after `Insert(7)` on a new list. -/
def listWith7 : IntList :=
  { heap := [{ value := 0, marked := 0, mu := false, next := some 1 },
             { value := 7, marked := 0, mu := false, next := none }]
    head := 0
    length := 1 }

/-- A state of two racing `Insert(7)` is in order: if both calls have returned, one
returned true and the other false and the list is `listWith7`; if not, one of the
threads can move. -/
def settled (s : Sys) : Bool :=
  match s.t1.result, s.t2.result with
  | some r1, some r2 => (r1 != r2) && decide (s.list = listWith7)
  | _, _ => (s.step false).isSome || (s.step true).isSome

/-- The schedule that runs the first thread's `Insert(7)` to its end and then the second
thread's. -/
def firstThenSecond : List Bool :=
  [false, false, false, false, false, false, false, false, false, false, false,
   true, true, true]

/-- A schedule in which both threads find `head.next = nil` before either locks: the
second thread then makes its attempt, and the first thread's attempt fails its
validation and the first thread searches again. -/
def bothSeeEmpty : List Bool :=
  [false, true, false, true, false, true,
   true, true, true, true, true, true, true, true,
   false, false, false, false, false, false]

/-- The list after `Insert(5)` on a new list. -/
def listWith5 : IntList :=
  { heap := [{ value := 0, marked := 0, mu := false, next := some 1 },
             { value := 5, marked := 0, mu := false, next := none }]
    head := 0
    length := 1 }

/-- The list after `Insert(5)` and `Delete(5)` on a new list: the node of 5 is marked
and no longer linked. -/
def listWithout5 : IntList :=
  { heap := [{ value := 0, marked := 0, mu := false, next := none },
             { value := 5, marked := 1, mu := false, next := none }]
    head := 0
    length := 0 }

/-- The list after `Insert(5)` and `Insert(9)` on a new list. -/
def listWith59 : IntList :=
  { heap := [{ value := 0, marked := 0, mu := false, next := some 1 },
             { value := 5, marked := 0, mu := false, next := some 2 },
             { value := 9, marked := 0, mu := false, next := none }]
    head := 0
    length := 2 }

/-- The list after `Insert(5)`, `Insert(9)` and `Insert(7)` on a new list. -/
def listWith579 : IntList :=
  { heap := [{ value := 0, marked := 0, mu := false, next := some 1 },
             { value := 5, marked := 0, mu := false, next := some 3 },
             { value := 9, marked := 0, mu := false, next := none },
             { value := 7, marked := 0, mu := false, next := some 2 }]
    head := 0
    length := 3 }

/-- A list state in which a marked node (value 5) is still linked, before a node
with a smaller value. -/
def listMarked : IntList :=
  { heap := [{ value := 0, marked := 0, mu := false, next := some 1 },
             { value := 5, marked := 1, mu := false, next := some 2 },
             { value := 3, marked := 0, mu := false, next := none }]
    head := 0
    length := 1 }

/-- The list with 5 and 9 in the middle of `Delete(5)`: `tryDeleteNode` holds both
mutexes and has marked the node of 5, which is still linked. -/
def listMidDelete : IntList :=
  { heap := [{ value := 0, marked := 0, mu := true, next := some 1 },
             { value := 5, marked := 1, mu := true, next := some 2 },
             { value := 9, marked := 0, mu := false, next := none }]
    head := 0
    length := 2 }

/-- A list state with no mutex held in which the node of 5 is marked and still linked
(between the head and the node of 9). -/
def listStale5 : IntList :=
  { heap := [{ value := 0, marked := 0, mu := false, next := some 1 },
             { value := 5, marked := 1, mu := false, next := some 2 },
             { value := 9, marked := 0, mu := false, next := none }]
    head := 0
    length := 1 }

/-- The list with 5 and 9 while another thread is inside `tryInsertNode(3, head, ·)` or
`tryDeleteNode(head, ·)` and holds the head's mutex: the chain is strictly
ascending and no node is marked. -/
def listHeadHeld : IntList :=
  { heap := [{ value := 0, marked := 0, mu := true, next := some 1 },
             { value := 5, marked := 0, mu := false, next := some 2 },
             { value := 9, marked := 0, mu := false, next := none }]
    head := 0
    length := 2 }

/-- The list with 5 and 9 after the visitor `deleteNine` ran once: the node of 9 is
marked and no longer linked. -/
def listWith5Not9 : IntList :=
  { heap := [{ value := 0, marked := 0, mu := false, next := some 1 },
             { value := 5, marked := 0, mu := false, next := none },
             { value := 9, marked := 1, mu := false, next := none }]
    head := 0
    length := 1 }

/-- The Go visitor `func(int) bool { l.Delete(9); return true }`. -/
def deleteNine : Visitor Unit := fun s l _ => do
  let r ← Delete 2 l 9
  pure (true, s, r.2)

/-! ## Theorems -/

/-! ### Facts about chains -/

theorem load_of_get {l : IntList} {p : Nat} {n : intNode} (h : l.heap[p]? = some n) :
    load l p = .ok n := by
  simp [load, h]

theorem getNext_of_get {l : IntList} {p : Nat} {n : intNode} (h : l.heap[p]? = some n) :
    getNext l p = .ok n.next := by
  simp [getNext, load_of_get h, bind, Except.bind, pure, Except.pure]

theorem isMarked_of_get {l : IntList} {p : Nat} {n : intNode} (h : l.heap[p]? = some n) :
    isMarked l p = .ok (n.marked == 1) := by
  simp [isMarked, load_of_get h, bind, Except.bind, pure, Except.pure]

theorem seg_det {heap : List intNode} :
    ∀ {xs ys : List Cell} {p : Option Nat},
      seg heap p xs none → seg heap p ys none → xs = ys
  | [], [], _, _, _ => rfl
  | [], _ :: ys, p, h1, h2 => by
    simp only [seg] at h1 h2
    rw [h1] at h2
    exact absurd h2.1 (by simp)
  | _ :: xs, [], p, h1, h2 => by
    simp only [seg] at h1 h2
    rw [h2] at h1
    exact absurd h1.1 (by simp)
  | c :: xs, d :: ys, p, h1, h2 => by
    simp only [seg] at h1 h2
    obtain ⟨a1, b1, c1⟩ := h1
    obtain ⟨a2, b2, c2⟩ := h2
    have e1 : c.1 = d.1 := by
      rw [a1] at a2
      exact Option.some.inj a2
    have e2 : c.2 = d.2 := by
      rw [e1, b2] at b1
      exact (Option.some.inj b1).symm
    have e : c = d := Prod.ext e1 e2
    subst e
    rw [seg_det c1 c2]

theorem seg_append {heap : List intNode} :
    ∀ {xs ys : List Cell} {p q : Option Nat},
      seg heap p (xs ++ ys) q ↔ ∃ m, seg heap p xs m ∧ seg heap m ys q
  | [], ys, p, q => by
    simp [seg]
  | c :: xs, ys, p, q => by
    have ih := @seg_append heap xs ys c.2.next q
    show (p = some c.1 ∧ heap[c.1]? = some c.2 ∧ seg heap c.2.next (xs ++ ys) q) ↔
      ∃ m, (p = some c.1 ∧ heap[c.1]? = some c.2 ∧ seg heap c.2.next xs m) ∧ seg heap m ys q
    rw [ih]
    constructor
    · rintro ⟨a, b, m, c1, c2⟩
      exact ⟨m, ⟨a, b, c1⟩, c2⟩
    · rintro ⟨m, ⟨a, b, c1⟩, c2⟩
      exact ⟨a, b, m, c1, c2⟩

theorem seg_frame {heap heap' : List intNode} :
    ∀ {xs : List Cell} {p q : Option Nat},
      (∀ c ∈ xs, heap'[c.1]? = heap[c.1]?) → seg heap p xs q → seg heap' p xs q
  | [], _, _, _, h => h
  | c :: xs, p, q, hf, h => by
    simp only [seg] at h ⊢
    refine ⟨h.1, ?_, seg_frame (fun d hd => hf d (List.mem_cons_of_mem _ hd)) h.2.2⟩
    rw [hf c (List.mem_cons_self _ _)]
    exact h.2.1

theorem seg_get {heap : List intNode} :
    ∀ {xs : List Cell} {p q : Option Nat},
      seg heap p xs q → ∀ c ∈ xs, heap[c.1]? = some c.2
  | [], _, _, _, c, hc => absurd hc (List.not_mem_nil c)
  | d :: xs, p, q, h, c, hc => by
    simp only [seg] at h
    rcases List.mem_cons.1 hc with e | e
    · rw [e]
      exact h.2.1
    · exact seg_get h.2.2 c e

/-- A chain that ends in `nil` never passes through the address it starts after. -/
theorem seg_not_mem {heap : List intNode} {xs : List Cell} {n : intNode} {a : Nat}
    (ha : heap[a]? = some n) (h : seg heap n.next xs none) : ∀ c ∈ xs, c.1 ≠ a := by
  intro c hc e
  obtain ⟨s, t, rfl⟩ := List.append_of_mem hc
  obtain ⟨m, _, h2⟩ := seg_append.1 h
  simp only [seg] at h2
  have hc2 : c.2 = n := by
    have := h2.2.1
    rw [e, ha] at this
    exact (Option.some.inj this).symm
  have h3 := h2.2.2
  rw [hc2] at h3
  have := seg_det h h3
  have hl := congrArg List.length this
  simp at hl
  omega

theorem seg_nodup {heap : List intNode} :
    ∀ {xs : List Cell} {p : Option Nat}, seg heap p xs none → (xs.map Prod.fst).Nodup
  | [], _, _ => List.nodup_nil
  | c :: xs, p, h => by
    simp only [seg] at h
    rw [List.map_cons, List.nodup_cons]
    refine ⟨?_, seg_nodup h.2.2⟩
    intro hm
    obtain ⟨d, hd, e⟩ := List.mem_map.1 hm
    exact seg_not_mem h.2.1 h.2.2 d hd e

theorem lastCell_mem : ∀ (c : Cell) (xs : List Cell), lastCell c xs ∈ c :: xs
  | _, [] => List.mem_cons_self _ _
  | _, d :: xs => List.mem_cons_of_mem _ (lastCell_mem d xs)

theorem lastCell_split : ∀ (c : Cell) (xs : List Cell),
    ∃ ys, c :: xs = ys ++ [lastCell c xs]
  | _, [] => ⟨[], rfl⟩
  | c, d :: xs => by
    obtain ⟨ys, h⟩ := lastCell_split d xs
    exact ⟨c :: ys, by rw [lastCell, h]; rfl⟩

/-! ### The three loops, on a chain that ends in `nil` -/

theorem searchLoop_eq (l : IntList) (v : Int) :
    ∀ (cells : List Cell) (fuel : Nat) (c0 : Cell) (p : Option Nat),
      seg l.heap p cells none →
      searchLoop l v fuel c0.1 p =
        if fuel < (cells.takeWhile (below v)).length then .error .outOfFuel
        else .ok ((lastCell c0 (cells.takeWhile (below v))).1,
                  ((cells.dropWhile (below v)).head?).map Prod.fst)
  | [], fuel, c0, p, h => by
    simp only [seg] at h
    subst h
    cases fuel <;> simp [searchLoop, lastCell, pure, Except.pure]
  | c :: rest, fuel, c0, p, h => by
    simp only [seg] at h
    obtain ⟨hp, hc, hr⟩ := h
    subst hp
    by_cases hb : c.2.value < v
    · have hb' : below v c = true := by simp [below, hb]
      cases fuel with
      | zero =>
        simp [searchLoop, load_of_get hc, hb, hb', List.takeWhile_cons, bind, Except.bind,
          throw, throwThe, MonadExceptOf.throw]
      | succ k =>
        have ih := searchLoop_eq l v rest k c c.2.next hr
        simp [searchLoop, load_of_get hc, getNext_of_get hc, hb, hb', List.takeWhile_cons,
          List.dropWhile_cons, bind, Except.bind, ih, lastCell]
    · have hb' : below v c = false := by simp [below, hb]
      cases fuel <;>
        simp [searchLoop, load_of_get hc, hb, hb', List.takeWhile_cons, List.dropWhile_cons,
          bind, Except.bind, pure, Except.pure, lastCell]

theorem containsLoop_eq (l : IntList) (v : Int) :
    ∀ (cells : List Cell) (fuel : Nat) (p : Option Nat),
      seg l.heap p cells none →
      containsLoop l v fuel p =
        if fuel < (cells.takeWhile (below v)).length then .error .outOfFuel
        else .ok (((cells.dropWhile (below v)).head?).map Prod.fst)
  | [], fuel, p, h => by
    simp only [seg] at h
    subst h
    cases fuel <;> simp [containsLoop, pure, Except.pure]
  | c :: rest, fuel, p, h => by
    simp only [seg] at h
    obtain ⟨hp, hc, hr⟩ := h
    subst hp
    by_cases hb : c.2.value < v
    · have hb' : below v c = true := by simp [below, hb]
      cases fuel with
      | zero =>
        simp [containsLoop, load_of_get hc, hb, hb', List.takeWhile_cons, bind, Except.bind,
          throw, throwThe, MonadExceptOf.throw]
      | succ k =>
        have ih := containsLoop_eq l v rest k c.2.next hr
        simp [containsLoop, load_of_get hc, getNext_of_get hc, hb, hb', List.takeWhile_cons,
          List.dropWhile_cons, bind, Except.bind, ih]
    · have hb' : below v c = false := by simp [below, hb]
      cases fuel <;>
        simp [containsLoop, load_of_get hc, hb, hb', List.takeWhile_cons, List.dropWhile_cons,
          bind, Except.bind, pure, Except.pure]

theorem visitSteps_le {σ : Type} (f : σ → Int → Bool × σ) :
    ∀ (vs : List Int) (s : σ), visitSteps f vs s ≤ vs.length
  | [], _ => Nat.le_refl _
  | v :: rest, s => by
    simp only [visitSteps, List.length_cons]
    split
    · exact Nat.succ_le_succ (visitSteps_le f rest _)
    · exact Nat.zero_le _

theorem rangeLoop_eq {σ : Type} (l : IntList) (f : σ → Int → Bool × σ) :
    ∀ (cells : List Cell) (fuel : Nat) (p : Option Nat) (s : σ),
      seg l.heap p cells none →
      rangeLoop l f fuel p s =
        if fuel < visitSteps f (vals cells) s then .error .outOfFuel
        else .ok (visit f (vals cells) s)
  | [], fuel, p, s, h => by
    simp only [seg] at h
    subst h
    cases fuel <;> simp [rangeLoop, vals, visit, visitSteps, pure, Except.pure]
  | c :: rest, fuel, p, s, h => by
    simp only [seg] at h
    obtain ⟨hp, hc, hr⟩ := h
    subst hp
    by_cases hb : (f s c.2.value).1 = true
    · cases fuel with
      | zero =>
        simp [rangeLoop, load_of_get hc, hb, vals, visit, visitSteps, bind, Except.bind,
          throw, throwThe, MonadExceptOf.throw]
      | succ k =>
        have ih := rangeLoop_eq l f rest k c.2.next (f s c.2.value).2 hr
        by_cases hk : k < visitSteps f (vals rest) (f s c.2.value).2
        · rw [if_pos hk] at ih
          have hk' : k < visitSteps f (List.map (fun c => c.2.value) rest) (f s c.2.value).2 := hk
          simp [rangeLoop, load_of_get hc, getNext_of_get hc, hb, vals, visit, visitSteps,
            bind, Except.bind, ih, hk']
        · rw [if_neg hk] at ih
          have hk' : ¬ k < visitSteps f (List.map (fun c => c.2.value) rest) (f s c.2.value).2 :=
            hk
          simp [rangeLoop, load_of_get hc, getNext_of_get hc, hb, vals, visit, visitSteps,
            bind, Except.bind, ih, pure, Except.pure, hk']
    · have hb' : (f s c.2.value).1 = false := by simpa using hb
      cases fuel <;>
        simp [rangeLoop, load_of_get hc, hb', vals, visit, visitSteps, bind, Except.bind,
          pure, Except.pure]

/-! ### The counter -/

theorem addInt64_exact (x d : Int) (h1 : -2 ^ 63 ≤ x + d) (h2 : x + d < 2 ^ 63) :
    addInt64 x d = x + d := by
  unfold addInt64
  have e : (x + d + 2 ^ 63) % 2 ^ 64 = x + d + 2 ^ 63 :=
    Int.emod_eq_of_lt (by omega) (by omega)
  omega

theorem addInt64_range (x d : Int) : -2 ^ 63 ≤ addInt64 x d ∧ addInt64 x d < 2 ^ 63 := by
  unfold addInt64
  have h1 := Int.emod_nonneg (x + d + 2 ^ 63) (by norm_num : (2 ^ 64 : Int) ≠ 0)
  have h2 := Int.emod_lt_of_pos (x + d + 2 ^ 63) (by norm_num : (0 : Int) < 2 ^ 64)
  constructor <;> omega

theorem incrLength_exact (l : IntList) (h1 : -2 ^ 63 ≤ l.length) (h2 : l.length < 2 ^ 63 - 1) :
    (incrLength l).length = addInt64 l.length 1 := by
  rw [addInt64_exact _ _ (by omega) (by omega)]
  rfl

theorem decrLength_exact (l : IntList) (h1 : -2 ^ 63 < l.length) (h2 : l.length < 2 ^ 63) :
    (decrLength l).length = addInt64 l.length (-1) := by
  rw [addInt64_exact _ _ (by omega) (by omega)]
  rfl

/-! ### The two attempts -/

theorem get_lt {heap : List intNode} {a : Nat} {n : intNode} (h : heap[a]? = some n) :
    a < heap.length := by
  rcases Nat.lt_or_ge a heap.length with h1 | h1
  · exact h1
  · rw [List.getElem?_eq_none h1] at h
    exact absurd h (by simp)

theorem set_same {heap : List intNode} {a : Nat} {n : intNode} (h : heap[a]? = some n) :
    heap.set a n = heap := by
  apply List.ext_getElem?
  intro i
  by_cases e : a = i
  · subst e
    rw [List.getElem?_set_self (get_lt h), h]
  · rw [List.getElem?_set_ne e]

theorem heap_ins {α : Type} (heap : List α) (a : Nat) (n1 n2 n3 new new' : α)
    (h : a < heap.length) :
    (((heap.set a n1 ++ [new]).set heap.length new').set a n2).set a n3 =
      heap.set a n3 ++ [new'] := by
  apply List.ext_getElem?
  intro i
  simp only [List.getElem?_set, List.getElem?_append, List.length_set, List.length_append,
    List.length_singleton]
  by_cases h1 : a = i
  · subst h1
    simp [h]
    omega
  · by_cases h2 : heap.length = i
    · subst h2
      simp [h1]
    · simp only [h1, h2, if_false]
      split
      · rfl
      · have : i - heap.length = (i - heap.length - 1) + 1 := by omega
        rw [this]
        rfl

theorem ok_bind {α β : Type} (x : α) (f : α → Except Fault β) :
    (Except.ok x >>= f) = f x := rfl

theorem error_bind {α β : Type} (e : Fault) (f : α → Except Fault β) :
    (Except.error e >>= f) = Except.error e := rfl

theorem pure_eq_ok {α : Type} (x : α) : (pure x : Except Fault α) = Except.ok x := rfl

theorem throw_eq_error {α : Type} (e : Fault) : (throw e : Except Fault α) = Except.error e := rfl

theorem store_get_self {l : IntList} {a : Nat} {n : intNode} (n' : intNode)
    (h : l.heap[a]? = some n) : (store l a n').heap[a]? = some n' := by
  simp [store, List.getElem?_set_self (get_lt h)]

theorem store_get_ne {l : IntList} {a b : Nat} (n' : intNode) (h : a ≠ b) :
    (store l a n').heap[b]? = l.heap[b]? := by
  simp [store, List.getElem?_set_ne h]

theorem store_store {l : IntList} {a : Nat} (n n' : intNode) :
    store (store l a n) a n' = store l a n' := by
  simp [store, List.set_set]

theorem store_same {l : IntList} {a : Nat} {n : intNode} (h : l.heap[a]? = some n) :
    store l a n = l := by
  simp [store, set_same h]

theorem lock_of_get {l : IntList} {a : Nat} {n : intNode} (h : l.heap[a]? = some n) :
    lock l a = if n.mu = true then .error .deadlock else .ok (store l a { n with mu := true }) := by
  unfold lock
  rw [load_of_get h, ok_bind]
  cases n.mu <;> rfl

theorem unlock_of_get {l : IntList} {a : Nat} {n : intNode} (h : l.heap[a]? = some n) :
    unlock l a = .ok (store l a { n with mu := false }) := by
  unfold unlock
  rw [load_of_get h, ok_bind]
  rfl

theorem setNext_of_get {l : IntList} {a : Nat} {n : intNode} (x : Option Nat)
    (h : l.heap[a]? = some n) : setNext l a x = .ok (store l a { n with next := x }) := by
  unfold setNext
  rw [load_of_get h, ok_bind]
  rfl

theorem setMarked_of_get {l : IntList} {a : Nat} {n : intNode} (h : l.heap[a]? = some n) :
    setMarked l a = .ok (store l a { n with marked := 1 }) := by
  unfold setMarked
  rw [load_of_get h, ok_bind]
  rfl

theorem tryInsertNode_eq {l : IntList} {a : Nat} {na : intNode} (v : Int) (b : Option Nat)
    (ha : l.heap[a]? = some na) :
    tryInsertNode l v a b =
      if na.mu = true then .error .deadlock
      else if na.next ≠ b ∨ na.marked = 1 then .ok (false, l)
      else .ok (true, inserted l v a na b) := by
  have hlt := get_lt ha
  unfold tryInsertNode
  rw [lock_of_get ha]
  cases hmu : na.mu
  · have hna : { na with mu := false } = na := by
      cases na
      simp_all
    have h1 := store_get_self { na with mu := true } ha
    simp only [Bool.false_eq_true, if_false, ok_bind, load_of_get h1, isMarked_of_get h1]
    by_cases hc : na.next ≠ b ∨ na.marked = 1
    · have hc' : ((na.next != b) || (na.marked == 1)) = true := by
        rcases hc with hc | hc
        · simp [hc]
        · simp [hc]
      rw [if_pos hc', if_pos hc, unlock_of_get h1, ok_bind, store_store]
      simp only [hna, store_same ha, pure_eq_ok]
    · have hc' : ¬ (((na.next != b) || (na.marked == 1)) = true) := by
        simpa using hc
      rw [if_neg hc', if_neg hc]
      have hx : (newIntNode (store l a { na with mu := true }) v).1.heap[
          (newIntNode (store l a { na with mu := true }) v).2]? =
          some { value := v, marked := 0, mu := false, next := none } := by
        simp [newIntNode, store]
      rw [setNext_of_get b hx, ok_bind]
      have hne : (newIntNode (store l a { na with mu := true }) v).2 ≠ a := by
        simp only [newIntNode, store, List.length_set]
        omega
      have ha2 : (store (newIntNode (store l a { na with mu := true }) v).1
          (newIntNode (store l a { na with mu := true }) v).2
          { value := v, marked := 0, mu := false, next := b }).heap[a]? =
          some { na with mu := true } := by
        rw [store_get_ne _ hne]
        simp only [newIntNode, store]
        rw [List.getElem?_append_left (by simpa using hlt), List.getElem?_set_self hlt]
      rw [setNext_of_get _ ha2, ok_bind]
      have ha3 := store_get_self
        { value := na.value, marked := na.marked, mu := true,
          next := some (newIntNode (store l a { na with mu := true }) v).2 } ha2
      have ha4 : ∀ k : IntList, (incrLength k).heap = k.heap := fun _ => rfl
      rw [← ha4] at ha3
      rw [unlock_of_get ha3, ok_bind, pure_eq_ok]
      simp only [store, incrLength, inserted, newIntNode, List.length_set,
        heap_ins _ _ _ _ _ _ _ hlt, hmu]
  · simp [error_bind]

theorem heap_del {α : Type} (heap : List α) (a b : Nat) (n1 n2 n3 m1 m2 m3 : α) (hab : a ≠ b) :
    (((((heap.set b n1).set a m1).set b n2).set a m2).set a m3).set b n3 =
      (heap.set b n3).set a m3 := by
  apply List.ext_getElem?
  intro i
  simp only [List.getElem?_set, List.length_set]
  by_cases h1 : a = i
  · subst h1
    simp [Ne.symm hab]
  · by_cases h2 : b = i
    · subst h2
      simp [h1]
    · simp [h1, h2]

theorem tryDeleteNode_eq {l : IntList} {a b : Nat} {na nb : intNode}
    (ha : l.heap[a]? = some na) (hb : l.heap[b]? = some nb) (hab : a ≠ b) :
    tryDeleteNode l a b =
      if nb.mu = true then .error .deadlock
      else if nb.marked = 1 then .ok (false, l)
      else if na.mu = true then .error .deadlock
      else if na.next ≠ some b ∨ na.marked = 1 then .ok (false, l)
      else .ok (true, deleted l a na b nb) := by
  unfold tryDeleteNode
  rw [lock_of_get hb]
  cases hmub : nb.mu
  · have hnb : { nb with mu := false } = nb := by
      cases nb
      simp_all
    have hb1 := store_get_self { nb with mu := true } hb
    simp only [Bool.false_eq_true, if_false, ok_bind, isMarked_of_get hb1]
    by_cases hmb : nb.marked = 1
    · have hmb' : (nb.marked == 1) = true := by simp [hmb]
      rw [if_pos hmb', if_pos hmb, unlock_of_get hb1, ok_bind, store_store]
      simp only [hnb, store_same hb, pure_eq_ok]
    · have hmb' : ¬ ((nb.marked == 1) = true) := by simpa using hmb
      rw [if_neg hmb', if_neg hmb]
      have ha1 : (store l b { nb with mu := true }).heap[a]? = some na := by
        rw [store_get_ne _ (Ne.symm hab)]
        exact ha
      rw [lock_of_get ha1]
      cases hmua : na.mu
      · have hna : { na with mu := false } = na := by
          cases na
          simp_all
        have ha2 := store_get_self { na with mu := true } ha1
        simp only [Bool.false_eq_true, if_false, ok_bind, load_of_get ha2, isMarked_of_get ha2]
        by_cases hc : na.next ≠ some b ∨ na.marked = 1
        · have hc' : ((na.next != some b) || (na.marked == 1)) = true := by
            rcases hc with hc | hc
            · simp [hc]
            · simp [hc]
          rw [if_pos hc', if_pos hc, unlock_of_get ha2, ok_bind, store_store]
          simp only [hna, store_same ha1]
          rw [unlock_of_get hb1, ok_bind, store_store]
          simp only [hnb, store_same hb, pure_eq_ok]
        · have hc' : ¬ (((na.next != some b) || (na.marked == 1)) = true) := by
            simpa using hc
          rw [if_neg hc', if_neg hc]
          have hb2 : (store (store l b { nb with mu := true }) a { na with mu := true }).heap[b]? =
              some { nb with mu := true } := by
            rw [store_get_ne _ hab]
            exact hb1
          rw [setMarked_of_get hb2, ok_bind]
          have hb3 := store_get_self { value := nb.value, marked := 1, mu := true, next := nb.next } hb2
          rw [load_of_get hb3, ok_bind]
          have ha3 : (store (store (store l b { nb with mu := true }) a { na with mu := true }) b
              { value := nb.value, marked := 1, mu := true, next := nb.next }).heap[a]? =
              some { na with mu := true } := by
            rw [store_get_ne _ (Ne.symm hab)]
            exact ha2
          rw [setNext_of_get _ ha3, ok_bind]
          have ha4 := store_get_self
            { value := na.value, marked := na.marked, mu := true, next := nb.next } ha3
          have hd : ∀ k : IntList, (decrLength k).heap = k.heap := fun _ => rfl
          rw [← hd] at ha4
          rw [unlock_of_get ha4, ok_bind]
          have hb4 : (store (decrLength (store (store (store (store l b { nb with mu := true }) a
              { na with mu := true }) b
              { value := nb.value, marked := 1, mu := true, next := nb.next }) a
              { value := na.value, marked := na.marked, mu := true, next := nb.next })) a
              { value := na.value, marked := na.marked, mu := false, next := nb.next }).heap[b]? =
              some { value := nb.value, marked := 1, mu := true, next := nb.next } := by
            rw [store_get_ne _ hab]
            show (store _ a _).heap[b]? = _
            rw [store_get_ne _ hab]
            exact hb3
          rw [unlock_of_get hb4, ok_bind, pure_eq_ok]
          simp only [store, decrLength, deleted, heap_del _ _ _ _ _ _ _ _ _ hab, hmua, hmub]
      · simp [error_bind]
  · simp [error_bind]

/-! ### `Insert` and `Delete` on an arbitrary chain that ends in `nil` -/

theorem seg_last {heap : List intNode} :
    ∀ (pre : List Cell) (c0 : Cell) (post : List Cell) (q : Option Nat),
      seg heap c0.2.next (pre ++ post) q → seg heap (lastCell c0 pre).2.next post q
  | [], _, _, _, h => h
  | c :: pre, _, post, q, h => by
    simp only [List.cons_append, seg] at h
    exact seg_last pre c post q h.2.2

theorem seg_head {heap : List intNode} {p : Option Nat} {cells : List Cell}
    (h : seg heap p cells none) : p = cells.head?.map Prod.fst := by
  cases cells with
  | nil => simpa [seg] using h
  | cons c rest =>
    simp only [seg] at h
    simp [h.1]

theorem before_append_fromOn (v : Int) (cells : List Cell) :
    before v cells ++ fromOn v cells = cells :=
  List.takeWhile_append_dropWhile _ _

theorem window_get {l : IntList} {h : intNode} {cells : List Cell} (v : Int)
    (hc : Chain l h cells) : l.heap[(window l h v cells).1]? = some (window l h v cells).2 := by
  have hm := lastCell_mem (l.head, h) (before v cells)
  rcases List.mem_cons.1 hm with e | e
  · unfold window
    rw [e]
    exact hc.1
  · have hsub : window l h v cells ∈ before v cells ++ fromOn v cells :=
      List.mem_append_left _ e
    rw [before_append_fromOn] at hsub
    exact seg_get hc.2 _ hsub

theorem window_next {l : IntList} {h : intNode} {cells : List Cell} (v : Int)
    (hc : Chain l h cells) :
    seg l.heap (window l h v cells).2.next (fromOn v cells) none := by
  have h2 := hc.2
  rw [← before_append_fromOn v cells] at h2
  exact seg_last (before v cells) (l.head, h) (fromOn v cells) none h2

theorem Insert_step {l : IntList} {h : intNode} {cells : List Cell} (v : Int)
    (hc : Chain l h cells) (fuel : Nat) :
    Insert fuel l v =
      if fuel < (before v cells).length then .error .outOfFuel
      else if (vals (fromOn v cells)).head? = some v then .ok (false, l)
      else if (window l h v cells).2.mu = true then .error .deadlock
      else if (window l h v cells).2.marked = 1 then
        (match fuel with
          | 0 => .error .outOfFuel
          | k + 1 => Insert k l v)
      else .ok (true, inserted l v (window l h v cells).1 (window l h v cells).2
        ((fromOn v cells).head?.map Prod.fst)) := by
  rw [Insert]
  simp only [getNext_of_get hc.1, ok_bind]
  rw [searchLoop_eq l v cells fuel (l.head, h) h.next hc.2]
  by_cases hf : fuel < (before v cells).length
  · have hf' : fuel < (cells.takeWhile (below v)).length := hf
    rw [if_pos hf', if_pos hf, error_bind]
  · have hf' : ¬ fuel < (cells.takeWhile (below v)).length := hf
    rw [if_neg hf', if_neg hf, ok_bind]
    have e1 : lastCell (l.head, h) (List.takeWhile (below v) cells) = window l h v cells := rfl
    have e2 : List.dropWhile (below v) cells = fromOn v cells := rfl
    simp only [e1, e2]
    have hw := window_get v hc
    have hn := window_next v hc
    have hnext := seg_head hn
    rw [tryInsertNode_eq v _ hw]
    have hdup : (match Option.map Prod.fst (fromOn v cells).head? with
        | none => pure false
        | some b => do
          let nb ← load l b
          pure (nb.value == v) : Except Fault Bool) =
        .ok (decide ((vals (fromOn v cells)).head? = some v)) := by
      cases hpost : fromOn v cells with
      | nil => simp [vals, pure_eq_ok]
      | cons c post =>
        rw [hpost] at hn
        have hcg := seg_get hn c (List.mem_cons_self _ _)
        by_cases e : c.2.value = v <;> simp [vals, load_of_get hcg, ok_bind, pure_eq_ok, e]
    rw [hdup, ok_bind]
    by_cases hd : (vals (fromOn v cells)).head? = some v
    · simp [hd, pure_eq_ok]
    · simp only [hd, decide_False, Bool.false_eq_true, if_false]
      cases hmu : (window l h v cells).2.mu
      · simp only [Bool.false_eq_true, if_false]
        by_cases hm : (window l h v cells).2.marked = 1
        · simp only [hm, or_true, if_true, ok_bind, Bool.false_eq_true, if_false]
          cases fuel <;> rfl
        · simp only [hm, hnext, or_false, ne_eq, not_true_eq_false, if_false, ok_bind, if_true,
            pure_eq_ok]
      · simp [error_bind]

theorem Insert_eq {l : IntList} {h : intNode} {cells : List Cell} (v : Int)
    (hc : Chain l h cells) :
    ∀ fuel, Insert fuel l v =
      if fuel < (before v cells).length then .error .outOfFuel
      else if (vals (fromOn v cells)).head? = some v then .ok (false, l)
      else if (window l h v cells).2.mu = true then .error .deadlock
      else if (window l h v cells).2.marked = 1 then .error .outOfFuel
      else .ok (true, inserted l v (window l h v cells).1 (window l h v cells).2
        ((fromOn v cells).head?.map Prod.fst)) := by
  intro fuel
  induction fuel with
  | zero =>
    rw [Insert_step v hc]
  | succ k ih =>
    rw [Insert_step v hc]
    by_cases h1 : k + 1 < (before v cells).length
    · rw [if_pos h1, if_pos h1]
    · rw [if_neg h1, if_neg h1]
      by_cases h2 : (vals (fromOn v cells)).head? = some v
      · rw [if_pos h2, if_pos h2]
      · rw [if_neg h2, if_neg h2]
        by_cases h3 : (window l h v cells).2.mu = true
        · rw [if_pos h3, if_pos h3]
        · rw [if_neg h3, if_neg h3]
          by_cases h4 : (window l h v cells).2.marked = 1
          · rw [if_pos h4, if_pos h4]
            show Insert k l v = _
            rw [ih, if_neg h2, if_neg h3, if_pos h4]
            simp
          · rw [if_neg h4, if_neg h4]

theorem Delete_step {l : IntList} {h : intNode} {cells : List Cell} (v : Int)
    (hc : Chain l h cells) (fuel : Nat) :
    Delete fuel l v =
      if fuel < (before v cells).length then .error .outOfFuel
      else match fromOn v cells with
        | [] => .ok (false, l)
        | c :: _ =>
          if c.2.value ≠ v then .ok (false, l)
          else if c.2.mu = true then .error .deadlock
          else if c.2.marked = 1 then
            (match fuel with
              | 0 => .error .outOfFuel
              | k + 1 => Delete k l v)
          else if (window l h v cells).2.mu = true then .error .deadlock
          else if (window l h v cells).2.marked = 1 then
            (match fuel with
              | 0 => .error .outOfFuel
              | k + 1 => Delete k l v)
          else .ok (true, removed l (window l h v cells) c) := by
  rw [Delete]
  simp only [getNext_of_get hc.1, ok_bind]
  rw [searchLoop_eq l v cells fuel (l.head, h) h.next hc.2]
  by_cases hf : fuel < (before v cells).length
  · have hf' : fuel < (cells.takeWhile (below v)).length := hf
    rw [if_pos hf', if_pos hf, error_bind]
  · have hf' : ¬ fuel < (cells.takeWhile (below v)).length := hf
    rw [if_neg hf', if_neg hf, ok_bind]
    have e1 : lastCell (l.head, h) (List.takeWhile (below v) cells) = window l h v cells := rfl
    have e2 : List.dropWhile (below v) cells = fromOn v cells := rfl
    simp only [e1, e2]
    have hw := window_get v hc
    have hn := window_next v hc
    cases hpost : fromOn v cells with
    | nil => simp [pure_eq_ok, ok_bind]
    | cons c post =>
      rw [hpost] at hn
      have hcg := seg_get hn c (List.mem_cons_self _ _)
      have hne : (window l h v cells).1 ≠ c.1 :=
        fun e => seg_not_mem hw hn c (List.mem_cons_self _ _) e.symm
      have hnext : (window l h v cells).2.next = some c.1 := by
        simp only [seg] at hn
        exact hn.1
      simp only [List.head?_cons, Option.map_some', load_of_get hcg, ok_bind, pure_eq_ok]
      rw [tryDeleteNode_eq hw hcg hne]
      by_cases hv : c.2.value = v
      · simp only [hv, bne_self_eq_false, Bool.false_eq_true, if_false, ne_eq, not_true_eq_false]
        cases hmub : c.2.mu
        · simp only [Bool.false_eq_true, if_false]
          by_cases hmb : c.2.marked = 1
          · simp only [hmb, if_true, ok_bind, Bool.false_eq_true, if_false]
            cases fuel <;> rfl
          · simp only [hmb, if_false]
            cases hmua : (window l h v cells).2.mu
            · simp only [Bool.false_eq_true, if_false]
              by_cases hma : (window l h v cells).2.marked = 1
              · simp only [hma, or_true, if_true, ok_bind, Bool.false_eq_true, if_false]
                cases fuel <;> rfl
              · simp only [hma, hnext, or_false, ne_eq, not_true_eq_false, if_false, ok_bind,
                  if_true, removed]
            · simp [error_bind]
        · simp [error_bind]
      · have hv' : (c.2.value != v) = true := by simpa using hv
        simp [hv, hv']

theorem Delete_eq {l : IntList} {h : intNode} {cells : List Cell} (v : Int)
    (hc : Chain l h cells) :
    ∀ fuel, Delete fuel l v =
      if fuel < (before v cells).length then .error .outOfFuel
      else match fromOn v cells with
        | [] => .ok (false, l)
        | c :: _ =>
          if c.2.value ≠ v then .ok (false, l)
          else if c.2.mu = true then .error .deadlock
          else if c.2.marked = 1 then .error .outOfFuel
          else if (window l h v cells).2.mu = true then .error .deadlock
          else if (window l h v cells).2.marked = 1 then .error .outOfFuel
          else .ok (true, removed l (window l h v cells) c) := by
  intro fuel
  induction fuel with
  | zero =>
    rw [Delete_step v hc]
  | succ k ih =>
    rw [Delete_step v hc]
    by_cases h1 : k + 1 < (before v cells).length
    · rw [if_pos h1, if_pos h1]
    · rw [if_neg h1, if_neg h1]
      cases hpost : fromOn v cells with
      | nil => rfl
      | cons c post =>
        rw [hpost] at ih
        simp only at ih ⊢
        by_cases h2 : c.2.value ≠ v
        · rw [if_pos h2, if_pos h2]
        · rw [if_neg h2, if_neg h2]
          rw [if_neg h2] at ih
          by_cases h3 : c.2.mu = true
          · rw [if_pos h3, if_pos h3]
          · rw [if_neg h3, if_neg h3]
            rw [if_neg h3] at ih
            by_cases h4 : c.2.marked = 1
            · rw [if_pos h4, if_pos h4]
              rw [if_pos h4] at ih
              rw [ih]
              simp
            · rw [if_neg h4, if_neg h4]
              rw [if_neg h4] at ih
              by_cases h5 : (window l h v cells).2.mu = true
              · rw [if_pos h5, if_pos h5]
              · rw [if_neg h5, if_neg h5]
                rw [if_neg h5] at ih
                by_cases h6 : (window l h v cells).2.marked = 1
                · rw [if_pos h6, if_pos h6]
                  rw [if_pos h6] at ih
                  rw [ih]
                  simp
                · rw [if_neg h6, if_neg h6]

/-! ### The chain after a successful attempt -/

theorem seg_split_ne {heap : List intNode} {p : Option Nat} {ys : List Cell} {w : Cell}
    {post : List Cell} (h : seg heap p (ys ++ w :: post) none) :
    (∀ c ∈ ys, c.1 ≠ w.1) ∧ (∀ c ∈ post, c.1 ≠ w.1) := by
  have hn := seg_nodup h
  rw [List.map_append, List.map_cons, List.nodup_append] at hn
  obtain ⟨_, h2, h3⟩ := hn
  rw [List.nodup_cons] at h2
  constructor
  · intro c hc e
    exact h3 (List.mem_map_of_mem Prod.fst hc) (by rw [e]; exact List.mem_cons_self _ _)
  · intro c hc e
    exact h2.1 (by rw [← e]; exact List.mem_map_of_mem Prod.fst hc)

theorem ins_get_ne {heap : List intNode} {a b : Nat} (n new : intNode) (hab : b ≠ a)
    (hb : b < heap.length) : (heap.set a n ++ [new])[b]? = heap[b]? := by
  rw [List.getElem?_append_left (by simpa using hb), List.getElem?_set_ne (Ne.symm hab)]

theorem inserted_seg {heap : List intNode} {p : Option Nat} {ys : List Cell} {w : Cell}
    {post : List Cell} (v : Int) (h : seg heap p (ys ++ w :: post) none) :
    seg (heap.set w.1 { w.2 with next := some heap.length } ++
        [{ value := v, marked := 0, mu := false, next := post.head?.map Prod.fst }]) p
      (ys ++ (w.1, { w.2 with next := some heap.length }) ::
        (heap.length, { value := v, marked := 0, mu := false, next := post.head?.map Prod.fst }) ::
        post) none := by
  obtain ⟨hys, hpost⟩ := seg_split_ne h
  have hget := seg_get h
  obtain ⟨m, h1, h2⟩ := seg_append.1 h
  simp only [seg] at h2
  obtain ⟨hm, hw, hp⟩ := h2
  have hwlt := get_lt hw
  refine seg_append.2 ⟨m, seg_frame ?_ h1, ?_⟩
  · intro c hc
    exact ins_get_ne _ _ (hys c hc)
      (get_lt (hget c (List.mem_append_left _ hc)))
  · simp only [seg]
    refine ⟨hm, ?_, trivial, ?_, ?_⟩
    · rw [List.getElem?_append_left (by simpa using hwlt), List.getElem?_set_self hwlt]
    · rw [List.getElem?_append_right (by simp)]
      simp
    · rw [← seg_head hp]
      refine seg_frame ?_ hp
      intro c hc
      exact ins_get_ne _ _ (hpost c hc)
        (get_lt (hget c (List.mem_append_right _ (List.mem_cons_of_mem _ hc))))

theorem del_get_ne {heap : List intNode} {a b i : Nat} (n m : intNode) (hia : i ≠ a)
    (hib : i ≠ b) : ((heap.set b n).set a m)[i]? = heap[i]? := by
  rw [List.getElem?_set_ne (Ne.symm hia), List.getElem?_set_ne (Ne.symm hib)]

theorem deleted_seg {heap : List intNode} {p : Option Nat} {ys : List Cell} {w c : Cell}
    {post : List Cell} (h : seg heap p (ys ++ w :: c :: post) none) :
    seg ((heap.set c.1 { c.2 with marked := 1 }).set w.1 { w.2 with next := c.2.next }) p
      (ys ++ (w.1, { w.2 with next := c.2.next }) :: post) none := by
  obtain ⟨hys, hpost⟩ := seg_split_ne h
  have h' : seg heap p ((ys ++ [w]) ++ c :: post) none := by
    simpa using h
  obtain ⟨hys', hpost'⟩ := seg_split_ne h'
  obtain ⟨m, h1, h2⟩ := seg_append.1 h
  simp only [seg] at h2
  obtain ⟨hm, hw, _, hc, hp⟩ := h2
  have hwlt := get_lt hw
  refine seg_append.2 ⟨m, seg_frame ?_ h1, ?_⟩
  · intro d hd
    exact del_get_ne _ _ (hys d hd) (hys' d (List.mem_append_left _ hd))
  · simp only [seg]
    refine ⟨hm, ?_, ?_⟩
    · rw [List.getElem?_set_self (by simpa using hwlt)]
    · refine seg_frame ?_ hp
      intro d hd
      exact del_get_ne _ _ (hpost d (List.mem_cons_of_mem _ hd)) (hpost' d hd)

theorem reNext_fst (a : Nat) (x : Option Nat) (c : Cell) : (reNext a x c).1 = c.1 := by
  unfold reNext
  split <;> rfl

theorem reNext_value (a : Nat) (x : Option Nat) (c : Cell) :
    (reNext a x c).2.value = c.2.value := by
  unfold reNext
  split <;> rfl

theorem reNext_mu (a : Nat) (x : Option Nat) (c : Cell) : (reNext a x c).2.mu = c.2.mu := by
  unfold reNext
  split <;> rfl

theorem reNext_marked (a : Nat) (x : Option Nat) (c : Cell) :
    (reNext a x c).2.marked = c.2.marked := by
  unfold reNext
  split <;> rfl

theorem vals_map_reNext (a : Nat) (x : Option Nat) (cells : List Cell) :
    vals (cells.map (reNext a x)) = vals cells := by
  simp [vals, List.map_map, Function.comp_def, reNext_value]

theorem map_reNext_split {ys : List Cell} {w : Cell} (x : Option Nat)
    (hys : ∀ c ∈ ys, c.1 ≠ w.1) :
    (ys ++ [w]).map (reNext w.1 x) = ys ++ [(w.1, { w.2 with next := x })] := by
  rw [List.map_append]
  congr 1
  · conv_rhs => rw [← List.map_id ys]
    apply List.map_congr_left
    intro c hc
    simp [reNext, hys c hc]
  · simp [reNext]

theorem inserted_chain {l : IntList} {h : intNode} {cells : List Cell} (v : Int)
    (hc : Chain l h cells) :
    Chain (inserted l v (window l h v cells).1 (window l h v cells).2
        ((fromOn v cells).head?.map Prod.fst))
      (reNext (window l h v cells).1 (some l.heap.length) (l.head, h)).2
      (cellsInserted l h v cells) := by
  obtain ⟨ys, hys⟩ := lastCell_split (l.head, h) (before v cells)
  have hys' : (l.head, h) :: before v cells = ys ++ [window l h v cells] := hys
  have hfull : seg l.heap (some l.head) (ys ++ window l h v cells :: fromOn v cells) none := by
    have e : ys ++ window l h v cells :: fromOn v cells = (l.head, h) :: cells := by
      have : ys ++ window l h v cells :: fromOn v cells =
          (ys ++ [window l h v cells]) ++ fromOn v cells := by simp
      rw [this, ← hys', List.cons_append, before_append_fromOn]
    rw [e]
    exact ⟨rfl, hc.1, hc.2⟩
  have hne := (seg_split_ne hfull).1
  have hins := inserted_seg v hfull
  have hmap := map_reNext_split (some l.heap.length) hne
  have e2 : ∀ (w' nw : Cell) (post : List Cell),
      ys ++ w' :: nw :: post = (ys ++ [w']) ++ nw :: post := by
    intro w' nw post
    simp
  rw [e2, ← hmap, ← hys', List.map_cons, List.cons_append] at hins
  simp only [seg] at hins
  obtain ⟨_, h2, h3⟩ := hins
  rw [reNext_fst] at h2
  exact ⟨h2, h3⟩

theorem removed_chain {l : IntList} {h : intNode} {cells : List Cell} (v : Int)
    (hc : Chain l h cells) {c : Cell} {post : List Cell} (hpost : fromOn v cells = c :: post) :
    Chain (removed l (window l h v cells) c)
      (reNext (window l h v cells).1 c.2.next (l.head, h)).2
      (cellsRemoved l h v cells c post) := by
  obtain ⟨ys, hys⟩ := lastCell_split (l.head, h) (before v cells)
  have hys' : (l.head, h) :: before v cells = ys ++ [window l h v cells] := hys
  have hfull : seg l.heap (some l.head) (ys ++ window l h v cells :: c :: post) none := by
    have e : ys ++ window l h v cells :: c :: post = (l.head, h) :: cells := by
      have : ys ++ window l h v cells :: c :: post =
          (ys ++ [window l h v cells]) ++ c :: post := by simp
      rw [this, ← hys', ← hpost, List.cons_append, before_append_fromOn]
    rw [e]
    exact ⟨rfl, hc.1, hc.2⟩
  have hne := (seg_split_ne hfull).1
  have hdel := deleted_seg hfull
  have hmap := map_reNext_split c.2.next hne
  have e2 : ∀ (w' : Cell) (post : List Cell), ys ++ w' :: post = (ys ++ [w']) ++ post := by
    intro w' post
    simp
  rw [e2, ← hmap, ← hys', List.map_cons, List.cons_append] at hdel
  simp only [seg] at hdel
  obtain ⟨_, h2, h3⟩ := hdel
  rw [reNext_fst] at h2
  exact ⟨h2, h3⟩

/-! ### The states a single thread leaves behind -/

theorem before_lt (v : Int) (cells : List Cell) : ∀ c ∈ before v cells, c.2.value < v := by
  intro c hc
  have := List.mem_takeWhile_imp hc
  simpa [below] using this

theorem fromOn_head_ge (v : Int) (cells : List Cell) {c : Cell} {post : List Cell}
    (h : fromOn v cells = c :: post) : v ≤ c.2.value := by
  have h1 : (fromOn v cells).head? = some c := by rw [h]; rfl
  have := List.head?_dropWhile_not (below v) cells
  unfold fromOn at h1
  rw [h1] at this
  simpa [below] using this

theorem before_length_le (v : Int) (cells : List Cell) :
    (before v cells).length ≤ cells.length := by
  have := congrArg List.length (before_append_fromOn v cells)
  rw [List.length_append] at this
  omega

theorem vals_split (v : Int) (cells : List Cell) :
    vals cells = vals (before v cells) ++ vals (fromOn v cells) := by
  unfold vals
  rw [← List.map_append, before_append_fromOn]

/-- In an ascending chain the search decides membership. -/
theorem mem_vals_iff {cells : List Cell} (v : Int)
    (hs : (vals cells).Pairwise (fun x y => x < y)) :
    v ∈ vals cells ↔ (vals (fromOn v cells)).head? = some v := by
  rw [vals_split v cells] at hs ⊢
  constructor
  · intro hm
    rcases List.mem_append.1 hm with h1 | h1
    · obtain ⟨c, hc, e⟩ := List.mem_map.1 h1
      have := before_lt v cells c hc
      omega
    · cases hpost : fromOn v cells with
      | nil =>
        rw [hpost] at h1
        exact absurd h1 (List.not_mem_nil _)
      | cons c post =>
        have hge := fromOn_head_ge v cells hpost
        rw [hpost] at h1 hs
        simp only [vals, List.map_cons, List.mem_cons] at h1
        rcases h1 with e | e
        · simp [vals, e]
        · have h2 := (List.pairwise_append.1 hs).2.1
          simp only [vals, List.map_cons, List.pairwise_cons] at h2
          have := h2.1 v e
          omega
  · intro hh
    apply List.mem_append_right
    cases hpost : vals (fromOn v cells) with
    | nil =>
      rw [hpost] at hh
      exact absurd hh (by simp)
    | cons x xs =>
      rw [hpost] at hh
      simp only [List.head?_cons, Option.some.injEq] at hh
      rw [hh]
      exact List.mem_cons_self _ _

theorem before_mem {v : Int} {cells : List Cell} {c : Cell} (h : c ∈ before v cells) :
    c ∈ cells := by
  rw [← before_append_fromOn v cells]
  exact List.mem_append_left _ h

theorem fromOn_mem {v : Int} {cells : List Cell} {c : Cell} (h : c ∈ fromOn v cells) :
    c ∈ cells := by
  rw [← before_append_fromOn v cells]
  exact List.mem_append_right _ h

theorem Inv.window_free {l : IntList} {h : intNode} {cells : List Cell} (hi : Inv l h cells)
    (v : Int) : (window l h v cells).2.mu = false ∧ (window l h v cells).2.marked ≠ 1 := by
  have hm := lastCell_mem (l.head, h) (before v cells)
  rcases List.mem_cons.1 hm with e | e
  · unfold window
    rw [e]
    exact ⟨hi.head_free, hi.head_live⟩
  · exact ⟨hi.free _ (before_mem e), hi.live _ (before_mem e)⟩

theorem vals_cellsInserted (l : IntList) (h : intNode) (v : Int) (cells : List Cell) :
    vals (cellsInserted l h v cells) = vals (before v cells) ++ v :: vals (fromOn v cells) := by
  unfold cellsInserted
  simp only [vals, List.map_append, List.map_cons, List.map_map, Function.comp_def, reNext_value]

theorem length_cellsInserted (l : IntList) (h : intNode) (v : Int) (cells : List Cell) :
    (cellsInserted l h v cells).length = cells.length + 1 := by
  have := congrArg List.length (before_append_fromOn v cells)
  simp only [List.length_append] at this
  simp only [cellsInserted, List.length_append, List.length_map, List.length_cons]
  omega

/-- Inserting between the cells below `v` and the cells above `v` keeps the order. -/
theorem sorted_cellsInserted (l : IntList) (h : intNode) {v : Int} {cells : List Cell}
    (hs : (vals cells).Pairwise (fun x y => x < y))
    (hv : (vals (fromOn v cells)).head? ≠ some v) :
    (vals (cellsInserted l h v cells)).Pairwise (fun x y => x < y) := by
  rw [vals_cellsInserted]
  rw [vals_split v cells] at hs
  obtain ⟨s1, s2, s3⟩ := List.pairwise_append.1 hs
  have hlt : ∀ x ∈ vals (before v cells), x < v := by
    intro x hx
    obtain ⟨c, hc, e⟩ := List.mem_map.1 hx
    rw [← e]
    exact before_lt v cells c hc
  have hgt : ∀ y ∈ vals (fromOn v cells), v < y := by
    intro y hy
    cases hpost : fromOn v cells with
    | nil =>
      rw [hpost] at hy
      exact absurd hy (List.not_mem_nil _)
    | cons c post =>
      have hge := fromOn_head_ge v cells hpost
      have hne : c.2.value ≠ v := by
        intro e
        apply hv
        rw [hpost]
        simp [vals, e]
      have hcv : v < c.2.value := by omega
      rw [hpost] at hy s2
      simp only [vals, List.map_cons, List.mem_cons, List.pairwise_cons] at hy s2
      rcases hy with e | e
      · rw [e]
        exact hcv
      · have := s2.1 y e
        omega
  refine List.pairwise_append.2 ⟨s1, List.pairwise_cons.2 ⟨hgt, s2⟩, ?_⟩
  intro x hx y hy
  rcases List.mem_cons.1 hy with e | e
  · rw [e]
    exact hlt x hx
  · exact s3 x hx y e

/-- Unlinking one cell keeps the order. -/
theorem sorted_cellsRemoved (l : IntList) (h : intNode) {v : Int} {cells : List Cell}
    {c : Cell} {post : List Cell} (hs : (vals cells).Pairwise (fun x y => x < y))
    (hpost : fromOn v cells = c :: post) :
    (vals (cellsRemoved l h v cells c post)).Pairwise (fun x y => x < y) := by
  have e : vals (cellsRemoved l h v cells c post) = vals (before v cells) ++ vals post := by
    unfold cellsRemoved
    simp only [vals, List.map_append, List.map_map, Function.comp_def, reNext_value]
  rw [e]
  rw [vals_split v cells, hpost] at hs
  obtain ⟨s1, s2, s3⟩ := List.pairwise_append.1 hs
  simp only [vals, List.map_cons, List.pairwise_cons] at s2
  refine List.pairwise_append.2 ⟨s1, s2.2, ?_⟩
  intro x hx y hy
  exact s3 x hx y (List.mem_cons_of_mem _ hy)

/-- A successful insertion keeps the invariant. -/
theorem Inv.inserted {l : IntList} {h : intNode} {cells : List Cell} (hi : Inv l h cells)
    {v : Int} (hv : v ∉ vals cells) :
    Inv (inserted l v (window l h v cells).1 (window l h v cells).2
        ((fromOn v cells).head?.map Prod.fst))
      (reNext (window l h v cells).1 (some l.heap.length) (l.head, h)).2
      (cellsInserted l h v cells) where
  chain := inserted_chain v hi.chain
  head_free := by
    rw [reNext_mu]
    exact hi.head_free
  head_live := by
    rw [reNext_marked]
    exact hi.head_live
  free := by
    intro c hc
    unfold cellsInserted at hc
    rcases List.mem_append.1 hc with h1 | h1
    · obtain ⟨d, hd, e⟩ := List.mem_map.1 h1
      rw [← e, reNext_mu]
      exact hi.free d (before_mem hd)
    · rcases List.mem_cons.1 h1 with e | e
      · rw [e]
      · exact hi.free c (fromOn_mem e)
  live := by
    intro c hc
    unfold cellsInserted at hc
    rcases List.mem_append.1 hc with h1 | h1
    · obtain ⟨d, hd, e⟩ := List.mem_map.1 h1
      rw [← e, reNext_marked]
      exact hi.live d (before_mem hd)
    · rcases List.mem_cons.1 h1 with e | e
      · rw [e]
        exact Nat.zero_ne_one
      · exact hi.live c (fromOn_mem e)
  sorted := by
    refine sorted_cellsInserted l h hi.sorted ?_
    intro e
    exact hv ((mem_vals_iff v hi.sorted).2 e)
  len := by
    rw [length_cellsInserted]
    simp only [simplelist.inserted]
    rw [hi.len]
    push_cast
    rfl
  room := by
    rw [length_cellsInserted]
    simp only [simplelist.inserted, List.length_append, List.length_set, List.length_singleton]
    have := hi.room
    omega

theorem vals_cellsRemoved (l : IntList) (h : intNode) (v : Int) (cells : List Cell) (c : Cell)
    (post : List Cell) :
    vals (cellsRemoved l h v cells c post) = vals (before v cells) ++ vals post := by
  unfold cellsRemoved
  simp only [vals, List.map_append, List.map_map, Function.comp_def, reNext_value]

theorem length_cellsRemoved (l : IntList) (h : intNode) (v : Int) (cells : List Cell)
    {c : Cell} {post : List Cell} (hpost : fromOn v cells = c :: post) :
    (cellsRemoved l h v cells c post).length + 1 = cells.length := by
  have := congrArg List.length (before_append_fromOn v cells)
  simp only [List.length_append, hpost, List.length_cons] at this
  simp only [cellsRemoved, List.length_append, List.length_map]
  omega

/-- A successful deletion keeps the invariant. -/
theorem Inv.removed {l : IntList} {h : intNode} {cells : List Cell} (hi : Inv l h cells)
    {v : Int} {c : Cell} {post : List Cell} (hpost : fromOn v cells = c :: post) :
    Inv (removed l (window l h v cells) c)
      (reNext (window l h v cells).1 c.2.next (l.head, h)).2
      (cellsRemoved l h v cells c post) where
  chain := removed_chain v hi.chain hpost
  head_free := by
    rw [reNext_mu]
    exact hi.head_free
  head_live := by
    rw [reNext_marked]
    exact hi.head_live
  free := by
    intro d hd
    unfold cellsRemoved at hd
    rcases List.mem_append.1 hd with h1 | h1
    · obtain ⟨e, he, ee⟩ := List.mem_map.1 h1
      rw [← ee, reNext_mu]
      exact hi.free e (before_mem he)
    · exact hi.free d (fromOn_mem (by rw [hpost]; exact List.mem_cons_of_mem _ h1))
  live := by
    intro d hd
    unfold cellsRemoved at hd
    rcases List.mem_append.1 hd with h1 | h1
    · obtain ⟨e, he, ee⟩ := List.mem_map.1 h1
      rw [← ee, reNext_marked]
      exact hi.live e (before_mem he)
    · exact hi.live d (fromOn_mem (by rw [hpost]; exact List.mem_cons_of_mem _ h1))
  sorted := sorted_cellsRemoved l h hi.sorted hpost
  len := by
    have := length_cellsRemoved l h v cells hpost
    simp only [simplelist.removed, deleted]
    rw [hi.len, ← this]
    push_cast
    omega
  room := by
    have := length_cellsRemoved l h v cells hpost
    simp only [simplelist.removed, deleted, List.length_set]
    have := hi.room
    omega

theorem Insert_Inv {l : IntList} {h : intNode} {cells : List Cell} (hi : Inv l h cells)
    (v : Int) (fuel : Nat) :
    Insert fuel l v =
      if fuel < (before v cells).length then .error .outOfFuel
      else if v ∈ vals cells then .ok (false, l)
      else .ok (true, inserted l v (window l h v cells).1 (window l h v cells).2
        ((fromOn v cells).head?.map Prod.fst)) := by
  rw [Insert_eq v hi.chain]
  obtain ⟨h1, h2⟩ := hi.window_free v
  simp only [h1, h2, Bool.false_eq_true, if_false, mem_vals_iff v hi.sorted]

theorem Delete_Inv {l : IntList} {h : intNode} {cells : List Cell} (hi : Inv l h cells)
    (v : Int) (fuel : Nat) :
    Delete fuel l v =
      if fuel < (before v cells).length then .error .outOfFuel
      else match fromOn v cells with
        | [] => .ok (false, l)
        | c :: _ =>
          if c.2.value ≠ v then .ok (false, l)
          else .ok (true, removed l (window l h v cells) c) := by
  rw [Delete_eq v hi.chain]
  obtain ⟨h1, h2⟩ := hi.window_free v
  cases hpost : fromOn v cells with
  | nil => rfl
  | cons c post =>
    have hc : c ∈ cells := fromOn_mem (by rw [hpost]; exact List.mem_cons_self _ _)
    simp only [h1, h2, hi.free c hc, hi.live c hc, Bool.false_eq_true, if_false]

theorem Contains_eq {l : IntList} {h : intNode} {cells : List Cell} (hc : Chain l h cells)
    (v : Int) (fuel : Nat) :
    Contains fuel l v =
      if fuel < (before v cells).length then .error .outOfFuel
      else match fromOn v cells with
        | [] => .ok false
        | c :: _ => .ok (c.2.value == v && !(c.2.marked == 1)) := by
  unfold Contains
  rw [getNext_of_get hc.1, ok_bind, containsLoop_eq l v cells fuel h.next hc.2]
  by_cases hf : fuel < (before v cells).length
  · have hf' : fuel < (cells.takeWhile (below v)).length := hf
    rw [if_pos hf', if_pos hf, error_bind]
  · have hf' : ¬ fuel < (cells.takeWhile (below v)).length := hf
    rw [if_neg hf', if_neg hf, ok_bind]
    have e2 : List.dropWhile (below v) cells = fromOn v cells := rfl
    rw [e2]
    have hn := window_next v hc
    cases hpost : fromOn v cells with
    | nil => rfl
    | cons c post =>
      rw [hpost] at hn
      have hcg := seg_get hn c (List.mem_cons_self _ _)
      simp only [List.head?_cons, Option.map_some', load_of_get hcg, ok_bind,
        isMarked_of_get hcg]
      by_cases e : c.2.value = v
      · simp [e, pure_eq_ok]
      · simp [e, pure_eq_ok]

theorem Contains_Inv {l : IntList} {h : intNode} {cells : List Cell} (hi : Inv l h cells)
    (v : Int) (fuel : Nat) :
    Contains fuel l v =
      if fuel < (before v cells).length then .error .outOfFuel
      else .ok (decide (v ∈ vals cells)) := by
  rw [Contains_eq hi.chain]
  by_cases hf : fuel < (before v cells).length
  · rw [if_pos hf, if_pos hf]
  · rw [if_neg hf, if_neg hf]
    have hm := mem_vals_iff v hi.sorted
    cases hpost : fromOn v cells with
    | nil =>
      have hn : v ∉ vals cells := by
        rw [hm, hpost]
        simp [vals]
      simp [hn]
    | cons c post =>
      have hc : c ∈ cells := fromOn_mem (by rw [hpost]; exact List.mem_cons_self _ _)
      have hl := hi.live c hc
      rw [hpost] at hm
      simp only [vals, List.map_cons, List.head?_cons, Option.some.injEq] at hm
      by_cases e : c.2.value = v
      · have hv : v ∈ List.map (fun c => c.2.value) cells := hm.2 e
        simp [vals, e, hv, hl]
      · have hv : v ∉ List.map (fun c => c.2.value) cells := fun x => e (hm.1 x)
        simp [vals, e, hv]

theorem Range_eq {σ : Type} {l : IntList} {h : intNode} {cells : List Cell}
    (hc : Chain l h cells) (f : σ → Int → Bool × σ) (s : σ) (fuel : Nat) :
    Range fuel l f s =
      if fuel < visitSteps f (vals cells) s then .error .outOfFuel
      else .ok (visit f (vals cells) s) := by
  unfold Range
  rw [getNext_of_get hc.1, ok_bind, rangeLoop_eq l f cells fuel h.next s hc.2]

theorem rangeLoopAny_keeps {σ : Type} {l : IntList} {g : Visitor σ} {f : σ → Int → Bool × σ}
    (hg : ∀ s v, g s l v = .ok ((f s v).1, (f s v).2, l)) :
    ∀ (fuel : Nat) (x : Option Nat) (s : σ),
      rangeLoopAny g fuel l x s = (rangeLoop l f fuel x s).map (fun r => (r.1, r.2, l))
  | 0, none, s => rfl
  | _ + 1, none, s => rfl
  | 0, some x, s => by
    unfold rangeLoopAny rangeLoop
    cases hx : load l x with
    | error e => rfl
    | ok nx =>
      rw [ok_bind, ok_bind, hg, ok_bind]
      cases hb : (f s nx.value).1 <;>
        simp [hb, Except.map, pure, Except.pure, throw, throwThe, MonadExceptOf.throw]
  | fuel + 1, some x, s => by
    unfold rangeLoopAny rangeLoop
    cases hx : load l x with
    | error e => rfl
    | ok nx =>
      rw [ok_bind, ok_bind, hg, ok_bind]
      have ih := rangeLoopAny_keeps hg fuel
      cases hb : (f s nx.value).1
      · simp [hb, Except.map, pure, Except.pure]
      · simp only [hb, Bool.not_true, Bool.false_eq_true, if_false]
        cases hn : getNext l x with
        | error e => rfl
        | ok x' =>
          rw [ok_bind, ok_bind, ih x' (f s nx.value).2]
          cases rangeLoop l f fuel x' (f s nx.value).2 <;> rfl

theorem RangeAny_keeps {σ : Type} {l : IntList} {g : Visitor σ} {f : σ → Int → Bool × σ}
    (hg : ∀ s v, g s l v = .ok ((f s v).1, (f s v).2, l)) (fuel : Nat) (s : σ) :
    RangeAny fuel l g s = (Range fuel l f s).map (fun r => (r.1, r.2, l)) := by
  unfold RangeAny Range
  cases getNext l l.head with
  | error e => rfl
  | ok x =>
    rw [ok_bind, ok_bind]
    exact rangeLoopAny_keeps hg fuel x s

theorem rangeLoopAny_listFree {σ : Type} (l : IntList) (f : σ → Int → Bool × σ) (fuel : Nat)
    (x : Option Nat) (s : σ) :
    rangeLoopAny (listFree f) fuel l x s =
      (rangeLoop l f fuel x s).map (fun r => (r.1, r.2, l)) :=
  rangeLoopAny_keeps (fun _ _ => rfl) fuel x s

theorem RangeAny_listFree {σ : Type} (l : IntList) (f : σ → Int → Bool × σ) (fuel : Nat) (s : σ) :
    RangeAny fuel l (listFree f) s = (Range fuel l f s).map (fun r => (r.1, r.2, l)) :=
  RangeAny_keeps (fun _ _ => rfl) fuel s

/-! ### Sequences of calls made by one thread -/

theorem Inv_NewInt : Inv NewInt { value := 0, marked := 0, mu := false, next := none } [] where
  chain := by decide
  head_free := rfl
  head_live := by decide
  free := by simp
  live := by simp
  sorted := List.Pairwise.nil
  len := rfl
  room := by decide

theorem Rep_NewInt : Rep NewInt [] := ⟨_, _, Inv_NewInt, rfl⟩

theorem Rep.bound {l : IntList} {vs : List Int} (h : Rep l vs) : vs.length < l.heap.length := by
  obtain ⟨_, cells, hi, e⟩ := h
  rw [← e]
  simpa [vals] using hi.room

theorem Rep.sorted {l : IntList} {vs : List Int} (h : Rep l vs) :
    vs.Pairwise (fun x y => x < y) := by
  obtain ⟨_, cells, hi, e⟩ := h
  rw [← e]
  exact hi.sorted

theorem Rep.len {l : IntList} {vs : List Int} (h : Rep l vs) : Len l = vs.length := by
  obtain ⟨_, cells, hi, e⟩ := h
  rw [← e]
  simpa [vals, Len, getLength] using hi.len

/-! ### The operations on the values held -/

theorem Insert_Rep {l : IntList} {vs : List Int} (hr : Rep l vs) (v : Int) :
    ∃ n l' vs', n ≤ vs.length ∧ Rep l' vs' ∧ (∀ x, x ∈ vs' ↔ x = v ∨ x ∈ vs) ∧
      (v ∈ vs → l' = l) ∧ vs'.length = vs.length + (if v ∈ vs then 0 else 1) ∧
      l'.heap.length ≤ l.heap.length + 1 ∧
      ∀ fuel, Insert fuel l v =
        if fuel < n then .error .outOfFuel else .ok (decide (v ∉ vs), l') := by
  obtain ⟨h, cells, hi, e⟩ := hr
  subst e
  have hn : (before v cells).length ≤ (vals cells).length := by
    simpa [vals] using before_length_le v cells
  by_cases hv : v ∈ vals cells
  · refine ⟨(before v cells).length, l, vals cells, hn, ⟨h, cells, hi, rfl⟩, ?_, fun _ => rfl, ?_,
      Nat.le_succ _, ?_⟩
    · intro x
      constructor
      · exact fun hx => Or.inr hx
      · rintro (hx | hx)
        · rw [hx]
          exact hv
        · exact hx
    · simp [hv]
    · intro fuel
      rw [Insert_Inv hi]
      simp [hv]
  · refine ⟨(before v cells).length, _, vals (cellsInserted l h v cells), hn,
      ⟨_, _, hi.inserted hv, rfl⟩, ?_, fun hx => absurd hx hv, ?_, ?_, ?_⟩
    · intro x
      rw [vals_cellsInserted]
      conv_rhs => rw [vals_split v cells]
      simp only [List.mem_append, List.mem_cons]
      tauto
    · rw [if_neg hv]
      simp [vals, length_cellsInserted]
    · simp [inserted]
    · intro fuel
      rw [Insert_Inv hi]
      simp [hv]

theorem Delete_Rep {l : IntList} {vs : List Int} (hr : Rep l vs) (v : Int) :
    ∃ n l' vs', n ≤ vs.length ∧ Rep l' vs' ∧ (∀ x, x ∈ vs' ↔ x ≠ v ∧ x ∈ vs) ∧
      (v ∉ vs → l' = l) ∧ vs'.length + (if v ∈ vs then 1 else 0) = vs.length ∧
      l'.heap.length = l.heap.length ∧
      ∀ fuel, Delete fuel l v =
        if fuel < n then .error .outOfFuel else .ok (decide (v ∈ vs), l') := by
  obtain ⟨h, cells, hi, e⟩ := hr
  subst e
  have hn : (before v cells).length ≤ (vals cells).length := by
    simpa [vals] using before_length_le v cells
  have hm := mem_vals_iff v hi.sorted
  by_cases hv : v ∈ vals cells
  · cases hpost : fromOn v cells with
    | nil =>
      rw [hm, hpost] at hv
      exact absurd hv (by simp [vals])
    | cons c post =>
      have hcv : c.2.value = v := by
        rw [hm, hpost] at hv
        simpa [vals] using hv
      refine ⟨(before v cells).length, _, vals (cellsRemoved l h v cells c post), hn,
        ⟨_, _, hi.removed hpost, rfl⟩, ?_, fun hx => absurd hv hx, ?_, ?_, ?_⟩
      · intro x
        have hs := hi.sorted
        rw [vals_split v cells, hpost] at hs
        obtain ⟨_, s2, _⟩ := List.pairwise_append.1 hs
        simp only [vals, List.map_cons, List.pairwise_cons] at s2
        have h1 : ∀ y ∈ vals (before v cells), y < v := by
          intro y hy
          obtain ⟨d, hd, e⟩ := List.mem_map.1 hy
          rw [← e]
          exact before_lt v cells d hd
        have h2 : ∀ y ∈ vals post, v < y := by
          intro y hy
          have := s2.1 y hy
          omega
        rw [vals_cellsRemoved]
        conv_rhs => rw [vals_split v cells, hpost]
        simp only [vals, List.map_cons, List.mem_append, List.mem_cons, hcv]
        constructor
        · rintro (hx | hx)
          · exact ⟨fun e => by have := h1 x hx; omega, Or.inl hx⟩
          · exact ⟨fun e => by have := h2 x hx; omega, Or.inr (Or.inr hx)⟩
        · rintro ⟨hne, hx | hx | hx⟩
          · exact Or.inl hx
          · exact absurd hx hne
          · exact Or.inr hx
      · have := length_cellsRemoved l h v cells hpost
        rw [if_pos hv]
        simp [vals, this]
      · simp [removed, deleted]
      · intro fuel
        rw [Delete_Inv hi, hpost]
        simp [hv, hcv]
  · refine ⟨(before v cells).length, l, vals cells, hn, ⟨h, cells, hi, rfl⟩, ?_, fun _ => rfl, ?_,
      rfl, ?_⟩
    · intro x
      constructor
      · intro hx
        exact ⟨fun e => hv (e ▸ hx), hx⟩
      · exact fun hx => hx.2
    · simp [hv]
    · intro fuel
      rw [Delete_Inv hi]
      cases hpost : fromOn v cells with
      | nil => simp [hv]
      | cons c post =>
        have hcv : c.2.value ≠ v := by
          intro e
          apply hv
          rw [hm, hpost]
          simp [vals, e]
        simp [hv, hcv]

theorem Contains_Rep {l : IntList} {vs : List Int} (hr : Rep l vs) (v : Int) :
    ∃ n, n ≤ vs.length ∧
      ∀ fuel, Contains fuel l v =
        if fuel < n then .error .outOfFuel else .ok (decide (v ∈ vs)) := by
  obtain ⟨h, cells, hi, e⟩ := hr
  subst e
  refine ⟨(before v cells).length, ?_, fun fuel => Contains_Inv hi v fuel⟩
  simpa [vals] using before_length_le v cells

theorem Range_Rep {σ : Type} {l : IntList} {vs : List Int} (hr : Rep l vs)
    (f : σ → Int → Bool × σ) (s : σ) (fuel : Nat) :
    Range fuel l f s =
      if fuel < visitSteps f vs s then .error .outOfFuel else .ok (visit f vs s) := by
  obtain ⟨h, cells, hi, e⟩ := hr
  subst e
  exact Range_eq hi.chain f s fuel

theorem ite_ok_inv {α : Type} {c : Prop} [Decidable c] {e : Fault} {x y : α}
    (h : (if c then (Except.error e : Except Fault α) else .ok x) = .ok y) : ¬ c ∧ x = y := by
  by_cases hc : c
  · rw [if_pos hc] at h
    exact absurd h (by simp)
  · rw [if_neg hc] at h
    exact ⟨hc, Except.ok.inj h⟩

/-- One call, started in a state left behind by a single thread: what it returns
and what it leaves behind. -/
theorem run_Rep {l : IntList} {vs : List Int} (hr : Rep l vs) {op : Op} {fuel : Nat}
    {r : Ret} {l' : IntList} (h : op.run fuel l = .ok (r, l')) :
    ∃ vs', Rep l' vs' ∧
      (∀ x, x ∈ vs' ↔ (op.isInsert x = true ∨ (x ∈ vs ∧ op.isDelete x = false))) ∧
      ((vs'.length : Int) = vs.length + okInserts [op] [r] - okDeletes [op] [r]) := by
  cases op with
  | insert v =>
    obtain ⟨n, l1, vs1, _, hr1, hmem, _, hlen, _, hI⟩ := Insert_Rep hr v
    simp only [Op.run] at h
    rw [hI fuel] at h
    by_cases hf : fuel < n
    · rw [if_pos hf, error_bind] at h
      exact absurd h (by simp)
    · rw [if_neg hf, ok_bind, pure_eq_ok] at h
      have h' := Except.ok.inj h
      simp only [Prod.mk.injEq] at h'
      obtain ⟨e1, e2⟩ := h'
      subst e1 e2
      refine ⟨vs1, hr1, ?_, ?_⟩
      · intro x
        rw [hmem x]
        simp only [Op.isInsert, Op.isDelete, decide_eq_true_eq, and_true]
        constructor
        · rintro (e | e)
          · exact Or.inl e.symm
          · exact Or.inr e
        · rintro (e | e)
          · exact Or.inl e.symm
          · exact Or.inr e
      · rw [hlen]
        by_cases hv : v ∈ vs
        · simp [hv, okInserts, okDeletes]
        · simp [hv, okInserts, okDeletes]
  | delete v =>
    obtain ⟨n, l1, vs1, _, hr1, hmem, _, hlen, _, hD⟩ := Delete_Rep hr v
    simp only [Op.run] at h
    rw [hD fuel] at h
    by_cases hf : fuel < n
    · rw [if_pos hf, error_bind] at h
      exact absurd h (by simp)
    · rw [if_neg hf, ok_bind, pure_eq_ok] at h
      have h' := Except.ok.inj h
      simp only [Prod.mk.injEq] at h'
      obtain ⟨e1, e2⟩ := h'
      subst e1 e2
      refine ⟨vs1, hr1, ?_, ?_⟩
      · intro x
        rw [hmem x]
        simp only [Op.isInsert, Op.isDelete, decide_eq_false_iff_not, Bool.false_eq_true,
          false_or]
        constructor
        · rintro ⟨e1, e2⟩
          exact ⟨e2, fun e => e1 e.symm⟩
        · rintro ⟨e1, e2⟩
          exact ⟨fun e => e2 e.symm, e1⟩
      · by_cases hv : v ∈ vs
        · rw [if_pos hv] at hlen
          simp [hv, okInserts, okDeletes, ← hlen]
        · rw [if_neg hv] at hlen
          simp [hv, okInserts, okDeletes, ← hlen]
  | contains v =>
    simp only [Op.run] at h
    cases hc : Contains fuel l v with
    | error e =>
      rw [hc, error_bind] at h
      exact absurd h (by simp)
    | ok b =>
      rw [hc, ok_bind, pure_eq_ok] at h
      have h' := Except.ok.inj h
      simp only [Prod.mk.injEq] at h'
      obtain ⟨e1, e2⟩ := h'
      subst e1 e2
      exact ⟨vs, hr, by simp [Op.isInsert, Op.isDelete], by simp [okInserts, okDeletes]⟩
  | range σ f s =>
    simp only [Op.run] at h
    cases hc : Range fuel l f s with
    | error e =>
      rw [hc, error_bind] at h
      exact absurd h (by simp)
    | ok b =>
      rw [hc, ok_bind, pure_eq_ok] at h
      have h' := Except.ok.inj h
      simp only [Prod.mk.injEq] at h'
      obtain ⟨e1, e2⟩ := h'
      subst e1 e2
      exact ⟨vs, hr, by simp [Op.isInsert, Op.isDelete], by simp [okInserts, okDeletes]⟩
  | len =>
    simp only [Op.run, pure_eq_ok] at h
    have h' := Except.ok.inj h
    simp only [Prod.mk.injEq] at h'
    obtain ⟨e1, e2⟩ := h'
    subst e1 e2
    exact ⟨vs, hr, by simp [Op.isInsert, Op.isDelete], by simp [okInserts, okDeletes]⟩

/-- With fuel for a walk over all allocated nodes, every call returns. -/
theorem run_total {l : IntList} {vs : List Int} (hr : Rep l vs) (op : Op) (fuel : Nat)
    (hf : l.heap.length ≤ fuel) :
    ∃ r l', op.run fuel l = .ok (r, l') ∧ l'.heap.length ≤ l.heap.length + 1 := by
  have hb := hr.bound
  cases op with
  | insert v =>
    obtain ⟨n, l1, vs1, hn, _, _, _, _, hh, hI⟩ := Insert_Rep hr v
    refine ⟨.bool (decide (v ∉ vs)), l1, ?_, hh⟩
    simp only [Op.run]
    rw [hI fuel, if_neg (by omega), ok_bind, pure_eq_ok]
  | delete v =>
    obtain ⟨n, l1, vs1, hn, _, _, _, _, hh, hD⟩ := Delete_Rep hr v
    refine ⟨.bool (decide (v ∈ vs)), l1, ?_, by omega⟩
    simp only [Op.run]
    rw [hD fuel, if_neg (by omega), ok_bind, pure_eq_ok]
  | contains v =>
    obtain ⟨n, hn, hC⟩ := Contains_Rep hr v
    refine ⟨.bool (decide (v ∈ vs)), l, ?_, Nat.le_succ _⟩
    simp only [Op.run]
    rw [hC fuel, if_neg (by omega), ok_bind, pure_eq_ok]
  | range σ f s =>
    have hv := visitSteps_le f vs s
    refine ⟨.visited (visit f vs s).1, l, ?_, Nat.le_succ _⟩
    simp only [Op.run]
    rw [Range_Rep hr, if_neg (by omega), ok_bind, pure_eq_ok]
  | len => exact ⟨.int (Len l), l, rfl, Nat.le_succ _⟩

theorem runOps_cons_inv {fuel : Nat} {l l' : IntList} {op : Op} {ops : List Op}
    {rets : List Ret} (h : runOps fuel l (op :: ops) = .ok (rets, l')) :
    ∃ r l1 rs, op.run fuel l = .ok (r, l1) ∧ runOps fuel l1 ops = .ok (rs, l') ∧
      rets = r :: rs := by
  simp only [runOps] at h
  cases h1 : op.run fuel l with
  | error e =>
    rw [h1, error_bind] at h
    exact absurd h (by simp)
  | ok x =>
    rw [h1, ok_bind] at h
    cases h2 : runOps fuel x.2 ops with
    | error e =>
      rw [h2, error_bind] at h
      exact absurd h (by simp)
    | ok y =>
      rw [h2, ok_bind, pure_eq_ok] at h
      have h' := Except.ok.inj h
      simp only [Prod.mk.injEq] at h'
      refine ⟨x.1, x.2, y.1, rfl, ?_, h'.1.symm⟩
      rw [h2, ← h'.2]

theorem okInserts_cons (op : Op) (ops : List Op) (r : Ret) (rs : List Ret) :
    okInserts (op :: ops) (r :: rs) = okInserts [op] [r] + okInserts ops rs := by
  cases op <;> cases r <;> try simp [okInserts]
  case insert.bool v b => cases b <;> simp [okInserts, Nat.add_comm]

theorem okDeletes_cons (op : Op) (ops : List Op) (r : Ret) (rs : List Ret) :
    okDeletes (op :: ops) (r :: rs) = okDeletes [op] [r] + okDeletes ops rs := by
  cases op <;> cases r <;> try simp [okDeletes]
  case delete.bool v b => cases b <;> simp [okDeletes, Nat.add_comm]

/-- A sequence of calls, started in a state left behind by a single thread. -/
theorem runOps_Rep {fuel : Nat} :
    ∀ {ops : List Op} {l : IntList} {vs : List Int} {rets : List Ret} {l' : IntList},
      Rep l vs → runOps fuel l ops = .ok (rets, l') →
      ∃ vs', Rep l' vs' ∧
        ((vs'.length : Int) = vs.length + okInserts ops rets - okDeletes ops rets) ∧
        (∀ x, (∀ op ∈ ops, op.isDelete x = false) → x ∈ vs → x ∈ vs') ∧
        (∀ x, (∀ op ∈ ops, op.isInsert x = false) → x ∉ vs → x ∉ vs')
  | [], l, vs, rets, l', hr, h => by
    simp only [runOps, pure_eq_ok] at h
    have h' := Except.ok.inj h
    simp only [Prod.mk.injEq] at h'
    obtain ⟨e1, e2⟩ := h'
    subst e1 e2
    exact ⟨vs, hr, by simp [okInserts, okDeletes], fun _ _ hx => hx, fun _ _ hx => hx⟩
  | op :: ops, l, vs, rets, l', hr, h => by
    obtain ⟨r, l1, rs, h1, h2, e⟩ := runOps_cons_inv h
    subst e
    obtain ⟨vs1, hr1, hmem, hlen⟩ := run_Rep hr h1
    obtain ⟨vs2, hr2, hlen2, hkeep, hout⟩ := runOps_Rep hr1 h2
    refine ⟨vs2, hr2, ?_, ?_, ?_⟩
    · rw [okInserts_cons, okDeletes_cons, hlen2, hlen]
      push_cast
      ring
    · intro x hx hin
      apply hkeep x (fun op' ho => hx op' (List.mem_cons_of_mem _ ho))
      rw [hmem x]
      exact Or.inr ⟨hin, hx op (List.mem_cons_self _ _)⟩
    · intro x hx hin
      apply hout x (fun op' ho => hx op' (List.mem_cons_of_mem _ ho))
      rw [hmem x]
      rintro (e | e)
      · rw [hx op (List.mem_cons_self _ _)] at e
        exact absurd e (by simp)
      · exact hin e.1

/-- With fuel for a walk over all nodes that are or will be allocated, a sequence of
calls returns. -/
theorem runOps_total (fuel : Nat) :
    ∀ (ops : List Op) {l : IntList} {vs : List Int},
      Rep l vs → l.heap.length + ops.length ≤ fuel →
      ∃ rets l', runOps fuel l ops = .ok (rets, l')
  | [], l, _, _, _ => ⟨[], l, rfl⟩
  | op :: ops, l, vs, hr, hf => by
    simp only [List.length_cons] at hf
    obtain ⟨r, l1, h1, hh⟩ := run_total hr op fuel (by omega)
    obtain ⟨vs1, hr1, _, _⟩ := run_Rep hr h1
    obtain ⟨rs, l2, h2⟩ := runOps_total fuel ops hr1 (by omega)
    refine ⟨r :: rs, l2, ?_⟩
    simp only [runOps]
    rw [h1, ok_bind, h2, ok_bind, pure_eq_ok]

theorem Reachable.rep {l : IntList} (h : Reachable l) : ∃ vs, Rep l vs := by
  obtain ⟨fuel, ops, rets, hrun⟩ := h
  obtain ⟨vs, hr, _⟩ := runOps_Rep Rep_NewInt hrun
  exact ⟨vs, hr⟩

/-! ### What a returned call tells, and the visits of `Range` -/

theorem Insert_ok_Rep {l : IntList} {vs : List Int} (hr : Rep l vs) {v : Int} {fuel : Nat}
    {r : Bool} {l' : IntList} (h : Insert fuel l v = .ok (r, l')) :
    r = decide (v ∉ vs) ∧ (r = false → l' = l) ∧
      ∃ vs', Rep l' vs' ∧ ∀ x, x ∈ vs' ↔ x = v ∨ x ∈ vs := by
  obtain ⟨n, l1, vs1, _, hr1, hmem, hsame, _, _, hI⟩ := Insert_Rep hr v
  rw [hI fuel] at h
  obtain ⟨_, e⟩ := ite_ok_inv h
  simp only [Prod.mk.injEq] at e
  obtain ⟨e1, e2⟩ := e
  subst e2
  refine ⟨e1.symm, ?_, vs1, hr1, hmem⟩
  intro hf
  rw [hf] at e1
  exact hsame (by simpa using e1)

theorem Delete_ok_Rep {l : IntList} {vs : List Int} (hr : Rep l vs) {v : Int} {fuel : Nat}
    {r : Bool} {l' : IntList} (h : Delete fuel l v = .ok (r, l')) :
    r = decide (v ∈ vs) ∧ (r = false → l' = l) ∧
      ∃ vs', Rep l' vs' ∧ ∀ x, x ∈ vs' ↔ x ≠ v ∧ x ∈ vs := by
  obtain ⟨n, l1, vs1, _, hr1, hmem, hsame, _, _, hD⟩ := Delete_Rep hr v
  rw [hD fuel] at h
  obtain ⟨_, e⟩ := ite_ok_inv h
  simp only [Prod.mk.injEq] at e
  obtain ⟨e1, e2⟩ := e
  subst e2
  refine ⟨e1.symm, ?_, vs1, hr1, hmem⟩
  intro hf
  rw [hf] at e1
  exact hsame (by simpa using e1)

theorem Contains_total {l : IntList} {vs : List Int} (hr : Rep l vs) (v : Int) {fuel : Nat}
    (hf : l.heap.length ≤ fuel) : Contains fuel l v = .ok (decide (v ∈ vs)) := by
  have hb := hr.bound
  obtain ⟨n, hn, hC⟩ := Contains_Rep hr v
  rw [hC fuel, if_neg (by omega)]

theorem Delete_total {l : IntList} {vs : List Int} (hr : Rep l vs) (v : Int) {fuel : Nat}
    (hf : l.heap.length ≤ fuel) : ∃ l', Delete fuel l v = .ok (decide (v ∈ vs), l') := by
  have hb := hr.bound
  obtain ⟨n, l1, _, hn, _, _, _, _, _, hD⟩ := Delete_Rep hr v
  exact ⟨l1, by rw [hD fuel, if_neg (by omega)]⟩

theorem visit_always : ∀ (vs : List Int), visit always vs () = (vs, ())
  | [] => rfl
  | v :: rest => by
    simp only [visit, always, if_true]
    have := visit_always rest
    simp only [always] at this
    rw [this]

theorem Insert_ok_cases {l : IntList} {h : intNode} {cells : List Cell} (hc : Chain l h cells)
    {v : Int} {fuel : Nat} {r : Bool} {l' : IntList} (hI : Insert fuel l v = .ok (r, l')) :
    (r = false ∧ l' = l) ∨
    (r = true ∧ (vals (fromOn v cells)).head? ≠ some v ∧
      l' = inserted l v (window l h v cells).1 (window l h v cells).2
        ((fromOn v cells).head?.map Prod.fst)) := by
  rw [Insert_eq v hc] at hI
  split_ifs at hI with h1 h2 h3 h4
  · have e := Except.ok.inj hI
    simp only [Prod.mk.injEq] at e
    exact Or.inl ⟨e.1.symm, e.2.symm⟩
  · have e := Except.ok.inj hI
    simp only [Prod.mk.injEq] at e
    exact Or.inr ⟨e.1.symm, h2, e.2.symm⟩

theorem Delete_ok_cases {l : IntList} {h : intNode} {cells : List Cell} (hc : Chain l h cells)
    {v : Int} {fuel : Nat} {r : Bool} {l' : IntList} (hD : Delete fuel l v = .ok (r, l')) :
    (r = false ∧ l' = l) ∨
    (∃ c post, fromOn v cells = c :: post ∧ c.2.value = v ∧ r = true ∧
      l' = removed l (window l h v cells) c) := by
  rw [Delete_eq v hc] at hD
  by_cases h1 : fuel < (before v cells).length
  · rw [if_pos h1] at hD
    exact absurd hD (by simp)
  rw [if_neg h1] at hD
  cases hpost : fromOn v cells with
  | nil =>
    rw [hpost] at hD
    have e := Except.ok.inj hD
    simp only [Prod.mk.injEq] at e
    exact Or.inl ⟨e.1.symm, e.2.symm⟩
  | cons c post =>
    rw [hpost] at hD
    simp only at hD
    split_ifs at hD with h2
    · have e := Except.ok.inj hD
      simp only [Prod.mk.injEq] at e
      exact Or.inl ⟨e.1.symm, e.2.symm⟩
    · have e := Except.ok.inj hD
      simp only [Prod.mk.injEq] at e
      exact Or.inr ⟨c, post, rfl, not_not.1 h2, e.1.symm, e.2.symm⟩

theorem okInserts_one_le (op : Op) (r : Ret) : okInserts [op] [r] ≤ 1 := by
  cases op <;> cases r <;> try simp [okInserts]
  case insert.bool v b => cases b <;> simp [okInserts]

theorem okInserts_le : ∀ (ops : List Op) (rets : List Ret), okInserts ops rets ≤ ops.length
  | [], _ => by simp [okInserts]
  | op :: ops, [] => by cases op <;> simp [okInserts]
  | op :: ops, r :: rs => by
    rw [okInserts_cons, List.length_cons]
    have h1 := okInserts_one_le op r
    have h2 := okInserts_le ops rs
    omega

theorem runOps_inserts {fuel : Nat} :
    ∀ (vs : List Int) {l : IntList} {ws : List Int} {rets : List Ret} {l' : IntList},
      Rep l ws → runOps fuel l (vs.map Op.insert) = .ok (rets, l') →
      ∃ ws', Rep l' ws' ∧ ∀ x, x ∈ ws' ↔ x ∈ ws ∨ x ∈ vs
  | [], l, ws, rets, l', hr, h => by
    simp only [List.map_nil, runOps, pure_eq_ok] at h
    have h' := Except.ok.inj h
    simp only [Prod.mk.injEq] at h'
    rw [← h'.2]
    exact ⟨ws, hr, by simp⟩
  | v :: vs, l, ws, rets, l', hr, h => by
    rw [List.map_cons] at h
    obtain ⟨r, l1, rs, h1, h2, _⟩ := runOps_cons_inv h
    obtain ⟨ws1, hr1, hmem, _⟩ := run_Rep hr h1
    obtain ⟨ws2, hr2, hmem2⟩ := runOps_inserts vs hr1 h2
    refine ⟨ws2, hr2, ?_⟩
    intro x
    rw [hmem2 x, hmem x]
    simp only [Op.isInsert, Op.isDelete, decide_eq_true_eq, and_true, List.mem_cons]
    constructor
    · rintro ((e | e) | e)
      · exact Or.inr (Or.inl e.symm)
      · exact Or.inl e
      · exact Or.inr (Or.inr e)
    · rintro (e | e | e)
      · exact Or.inl (Or.inr e)
      · exact Or.inl (Or.inl e.symm)
      · exact Or.inr e

theorem visit_initial {σ : Type} (f : σ → Int → Bool × σ) :
    ∀ (vs : List Int) (s : σ), (visit f vs s).1 <+: vs
  | [], _ => List.prefix_refl _
  | v :: rest, s => by
    simp only [visit]
    split
    · exact (List.prefix_cons_inj v).2 (visit_initial f rest _)
    · exact ⟨rest, rfl⟩

theorem visit_stateless (g : Int → Bool) :
    ∀ (vs : List Int), (visit (stateless g) vs ()).1 = vs.takeWhile g ++ (vs.dropWhile g).take 1
  | [] => rfl
  | v :: rest => by
    have ih := visit_stateless g rest
    cases hg : g v
    · simp [visit, stateless, hg, List.takeWhile_cons, List.dropWhile_cons]
    · simp only [visit, stateless, hg, if_true, List.takeWhile_cons, List.dropWhile_cons,
        List.cons_append, List.cons.injEq, true_and]
      exact ih

theorem visit_all {σ : Type} (f : σ → Int → Bool × σ) (hall : ∀ s x, (f s x).1 = true) :
    ∀ (vs : List Int) (s : σ), (visit f vs s).1 = vs
  | [], _ => rfl
  | v :: rest, s => by
    simp only [visit, hall s v, if_true]
    rw [visit_all f hall rest]

/-! ### The window of the search, and the memory after an attempt -/

theorem fromOn_ge {cells : List Cell} (v : Int)
    (hs : (vals cells).Pairwise (fun x y => x < y)) : ∀ c ∈ fromOn v cells, v ≤ c.2.value := by
  intro c hc
  rw [vals_split v cells] at hs
  obtain ⟨_, s2, _⟩ := List.pairwise_append.1 hs
  cases hpost : fromOn v cells with
  | nil =>
    rw [hpost] at hc
    exact absurd hc (List.not_mem_nil _)
  | cons d post =>
    have hge := fromOn_head_ge v cells hpost
    rw [hpost] at hc s2
    simp only [vals, List.map_cons, List.pairwise_cons] at s2
    rcases List.mem_cons.1 hc with e | e
    · rw [e]
      exact hge
    · have := s2.1 c.2.value (List.mem_map_of_mem (fun c => c.2.value) e)
      omega

theorem lastCell_cases (c0 : Cell) (pre : List Cell) :
    (pre = [] ∧ lastCell c0 pre = c0) ∨ ∃ ys, pre = ys ++ [lastCell c0 pre] := by
  obtain ⟨ys, h⟩ := lastCell_split c0 pre
  cases ys with
  | nil =>
    simp only [List.nil_append, List.cons.injEq] at h
    exact Or.inl ⟨h.2, h.1.symm⟩
  | cons y ys =>
    simp only [List.cons_append, List.cons.injEq] at h
    exact Or.inr ⟨ys, h.2⟩

theorem inserted_get_self {l : IntList} {a : Nat} {na : intNode} (v : Int) (b : Option Nat)
    (ha : l.heap[a]? = some na) :
    (inserted l v a na b).heap[a]? = some { na with next := some l.heap.length } := by
  have hlt := get_lt ha
  simp only [inserted]
  rw [List.getElem?_append_left (by simpa using hlt), List.getElem?_set_self hlt]

theorem inserted_get_other (l : IntList) (a : Nat) (na : intNode) (v : Int) (b : Option Nat)
    {i : Nat} (hia : i ≠ a) (hix : i ≠ l.heap.length) :
    (inserted l v a na b).heap[i]? = l.heap[i]? := by
  simp only [inserted]
  rcases Nat.lt_or_ge i l.heap.length with h1 | h1
  · exact ins_get_ne _ _ hia h1
  · rw [List.getElem?_eq_none h1, List.getElem?_eq_none]
    simp only [List.length_append, List.length_set, List.length_singleton]
    omega

/-- The attempt `tryDeleteNode(a, a)` on one and the same node: after `b.mu.Lock()` the
call `a.mu.Lock()` can never return, unless the node is marked and the attempt has
returned before. -/
theorem tryDeleteNode_same {l : IntList} {a : Nat} {na : intNode} (ha : l.heap[a]? = some na) :
    tryDeleteNode l a a =
      if na.mu = true then .error .deadlock
      else if na.marked = 1 then .ok (false, l)
      else .error .deadlock := by
  unfold tryDeleteNode
  rw [lock_of_get ha]
  cases hmu : na.mu
  · have hna : { na with mu := false } = na := by
      cases na
      simp_all
    have h1 := store_get_self { na with mu := true } ha
    simp only [Bool.false_eq_true, if_false, ok_bind, isMarked_of_get h1]
    by_cases hm : na.marked = 1
    · have hm' : (na.marked == 1) = true := by simp [hm]
      rw [if_pos hm', if_pos hm, unlock_of_get h1, ok_bind, store_store]
      simp only [hna, store_same ha, pure_eq_ok]
    · have hm' : ¬ ((na.marked == 1) = true) := by simpa using hm
      rw [if_neg hm', if_neg hm, lock_of_get h1]
      simp [error_bind]
  · simp [error_bind]

theorem fromOn_of_split (v : Int) :
    ∀ (pre : List Cell) (c : Cell) (post : List Cell),
      (∀ d ∈ pre, d.2.value < v) → ¬ c.2.value < v → fromOn v (pre ++ c :: post) = c :: post
  | [], c, post, _, hc => by
    simp [fromOn, List.dropWhile_cons, below, hc]
  | d :: pre, c, post, hpre, hc => by
    have hd : d.2.value < v := hpre d (List.mem_cons_self _ _)
    have ih := fromOn_of_split v pre c post (fun e he => hpre e (List.mem_cons_of_mem _ he)) hc
    simp only [fromOn] at ih
    simp [fromOn, List.dropWhile_cons, below, hd, ih]

theorem fromOn_head_not_below (v : Int) (cells : List Cell) {c : Cell} {post : List Cell}
    (h : fromOn v cells = c :: post) : ¬ c.2.value < v := by
  have := fromOn_head_ge v cells h
  omega

/-- Writing the head node's `value` and `marked` fields does not change the chain. -/
theorem Chain_head_fields {l : IntList} {h : intNode} {cells : List Cell} (hc : Chain l h cells)
    (x : Int) (m : Nat) :
    Chain (store l l.head { h with value := x, marked := m })
      { h with value := x, marked := m } cells := by
  refine ⟨store_get_self _ hc.1, ?_⟩
  refine seg_frame ?_ hc.2
  intro c hcm
  exact store_get_ne _ (Ne.symm (seg_not_mem hc.1 hc.2 c hcm))

/-! ### What a step may change -/

theorem bind_ok_inv {α β : Type} {x : Except Fault α} {f : α → Except Fault β} {y : β}
    (h : (x >>= f) = .ok y) : ∃ a, x = .ok a ∧ f a = .ok y := by
  cases x with
  | error e =>
    rw [error_bind] at h
    exact absurd h (by simp)
  | ok a => exact ⟨a, rfl, h⟩

theorem load_ok_inv {l : IntList} {i : Nat} {n : intNode} (h : load l i = .ok n) :
    l.heap[i]? = some n := by
  unfold load at h
  cases hg : l.heap[i]? with
  | none =>
    rw [hg] at h
    exact absurd h (by simp)
  | some m =>
    rw [hg] at h
    rw [Except.ok.inj h]

theorem Untouched.refl (l : IntList) : Untouched l l := by
  intro _ n h
  exact ⟨n, h, rfl, rfl⟩

theorem Untouched.of_store {l : IntList} {i : Nat} {n n' : intNode} (h : l.heap[i]? = some n)
    (hv : n'.value = n.value) (hm : n'.marked = n.marked) : Untouched l (store l i n') := by
  intro j m hj
  by_cases e : i = j
  · subst e
    rw [h] at hj
    have := Option.some.inj hj
    subst this
    exact ⟨n', store_get_self n' h, hv, hm⟩
  · exact ⟨m, by rw [store_get_ne n' e]; exact hj, rfl, rfl⟩

theorem setNext_untouched {l l' : IntList} {i : Nat} {x : Option Nat}
    (h : setNext l i x = .ok l') : Untouched l l' := by
  unfold setNext at h
  obtain ⟨n, h1, h2⟩ := bind_ok_inv h
  have hg := load_ok_inv h1
  rw [pure_eq_ok] at h2
  rw [← Except.ok.inj h2]
  exact Untouched.of_store hg rfl rfl

theorem unlock_untouched {l l' : IntList} {i : Nat} (h : unlock l i = .ok l') :
    Untouched l l' := by
  unfold unlock at h
  obtain ⟨n, h1, h2⟩ := bind_ok_inv h
  have hg := load_ok_inv h1
  rw [pure_eq_ok] at h2
  rw [← Except.ok.inj h2]
  exact Untouched.of_store hg rfl rfl

theorem lock_untouched {l l' : IntList} {i : Nat} (h : lock l i = .ok l') :
    Untouched l l' := by
  have h0 := h
  unfold lock at h0
  obtain ⟨n, h1, _⟩ := bind_ok_inv h0
  have hg := load_ok_inv h1
  rw [lock_of_get hg] at h
  cases hmu : n.mu
  · rw [hmu] at h
    simp only [Bool.false_eq_true, if_false] at h
    rw [← Except.ok.inj h]
    exact Untouched.of_store hg rfl rfl
  · rw [hmu] at h
    simp only [if_true] at h
    exact absurd h (by simp)

theorem newIntNode_untouched (l : IntList) (v : Int) : Untouched l (newIntNode l v).1 := by
  intro i n h
  refine ⟨n, ?_, rfl, rfl⟩
  simp only [newIntNode]
  rw [List.getElem?_append_left (get_lt h)]
  exact h

theorem setMarked_markedAt {l l' : IntList} {i : Nat} (h : setMarked l i = .ok l') :
    MarkedAt i l l' := by
  unfold setMarked at h
  obtain ⟨n, h1, h2⟩ := bind_ok_inv h
  have hg := load_ok_inv h1
  rw [pure_eq_ok] at h2
  rw [← Except.ok.inj h2]
  intro j m hj
  by_cases e : i = j
  · subst e
    rw [hg] at hj
    have := Option.some.inj hj
    subst this
    exact ⟨_, store_get_self _ hg, rfl, by simp⟩
  · refine ⟨m, by rw [store_get_ne _ e]; exact hj, rfl, ?_⟩
    rw [if_neg (Ne.symm e)]

theorem lock_none {l : IntList} {a : Nat} (h : l.heap[a]? = none) :
    lock l a = .error .badPointer := by
  simp [lock, load, h, bind, Except.bind]

theorem tryInsertNode_ok_inv {l l' : IntList} {v : Int} {a : Nat} {b : Option Nat} {r : Bool}
    (h : tryInsertNode l v a b = .ok (r, l')) :
    ∃ na, l.heap[a]? = some na ∧ na.mu = false ∧
      ((r = false ∧ l' = l ∧ (na.next ≠ b ∨ na.marked = 1)) ∨
       (r = true ∧ l' = inserted l v a na b ∧ na.next = b ∧ na.marked ≠ 1)) := by
  cases hg : l.heap[a]? with
  | none =>
    unfold tryInsertNode at h
    rw [lock_none hg, error_bind] at h
    exact absurd h (by simp)
  | some na =>
    rw [tryInsertNode_eq v b hg] at h
    refine ⟨na, rfl, ?_⟩
    cases hmu : na.mu
    · rw [hmu] at h
      simp only [Bool.false_eq_true, if_false] at h
      refine ⟨rfl, ?_⟩
      by_cases hc : na.next ≠ b ∨ na.marked = 1
      · rw [if_pos hc] at h
        have e := Except.ok.inj h
        simp only [Prod.mk.injEq] at e
        exact Or.inl ⟨e.1.symm, e.2.symm, hc⟩
      · rw [if_neg hc] at h
        have e := Except.ok.inj h
        simp only [Prod.mk.injEq] at e
        refine Or.inr ⟨e.1.symm, e.2.symm, ?_, ?_⟩
        · exact not_not.1 (fun h3 => hc (Or.inl h3))
        · exact fun h3 => hc (Or.inr h3)
    · rw [hmu] at h
      simp only [if_true] at h
      exact absurd h (by simp)

theorem inserted_untouched {l : IntList} {a : Nat} {na : intNode} (v : Int) (b : Option Nat)
    (ha : l.heap[a]? = some na) : Untouched l (inserted l v a na b) := by
  intro i n hi
  by_cases e : i = a
  · subst e
    rw [ha] at hi
    have := Option.some.inj hi
    subst this
    exact ⟨_, inserted_get_self v b ha, rfl, rfl⟩
  · have hlt := get_lt hi
    refine ⟨n, ?_, rfl, rfl⟩
    rw [inserted_get_other l a na v b e (by omega)]
    exact hi

theorem tryInsertNode_untouched {l l' : IntList} {v : Int} {a : Nat} {b : Option Nat} {r : Bool}
    (h : tryInsertNode l v a b = .ok (r, l')) : Untouched l l' := by
  obtain ⟨na, ha, _, h1 | h1⟩ := tryInsertNode_ok_inv h
  · rw [h1.2.1]
    exact Untouched.refl l
  · rw [h1.2.1]
    exact inserted_untouched v b ha

/-- Whatever the state, an `Insert` that returns has either changed nothing or made
exactly one successful attempt, on the state it was called in. -/
theorem Insert_ok_inv {l : IntList} {v : Int} :
    ∀ (fuel : Nat) {r : Bool} {l' : IntList}, Insert fuel l v = .ok (r, l') →
      (r = false ∧ l' = l) ∨
      (r = true ∧ ∃ a b, tryInsertNode l v a b = .ok (true, l')) := by
  intro fuel
  induction fuel with
  | zero =>
    intro r l' h
    rw [Insert] at h
    obtain ⟨b, _, h⟩ := bind_ok_inv h
    obtain ⟨w, _, h⟩ := bind_ok_inv h
    obtain ⟨dup, _, h⟩ := bind_ok_inv h
    cases dup with
    | true =>
      simp only [if_true, pure_eq_ok] at h
      have e := Except.ok.inj h
      simp only [Prod.mk.injEq] at e
      exact Or.inl ⟨e.1.symm, e.2.symm⟩
    | false =>
      simp only [Bool.false_eq_true, if_false] at h
      obtain ⟨t, ht, h⟩ := bind_ok_inv h
      obtain ⟨t1, t2⟩ := t
      cases t1 with
      | true =>
        simp only [if_true, pure_eq_ok] at h
        have e := Except.ok.inj h
        simp only [Prod.mk.injEq] at e
        refine Or.inr ⟨e.1.symm, w.1, w.2, ?_⟩
        rw [ht, e.2]
      | false =>
        simp only [Bool.false_eq_true, if_false] at h
        exact absurd h (by simp [throw_eq_error])
  | succ k ih =>
    intro r l' h
    rw [Insert] at h
    obtain ⟨b, _, h⟩ := bind_ok_inv h
    obtain ⟨w, _, h⟩ := bind_ok_inv h
    obtain ⟨dup, _, h⟩ := bind_ok_inv h
    cases dup with
    | true =>
      simp only [if_true, pure_eq_ok] at h
      have e := Except.ok.inj h
      simp only [Prod.mk.injEq] at e
      exact Or.inl ⟨e.1.symm, e.2.symm⟩
    | false =>
      simp only [Bool.false_eq_true, if_false] at h
      obtain ⟨t, ht, h⟩ := bind_ok_inv h
      obtain ⟨t1, t2⟩ := t
      cases t1 with
      | true =>
        simp only [if_true, pure_eq_ok] at h
        have e := Except.ok.inj h
        simp only [Prod.mk.injEq] at e
        refine Or.inr ⟨e.1.symm, w.1, w.2, ?_⟩
        rw [ht, e.2]
      | false =>
        simp only [Bool.false_eq_true, if_false] at h
        obtain ⟨_, _, _, h1 | h1⟩ := tryInsertNode_ok_inv ht
        · rw [h1.2.1] at h
          exact ih h
        · exact absurd h1.1 (by simp)

theorem tryDeleteNode_no_a {l : IntList} {a b : Nat} {nb : intNode} (ha : l.heap[a]? = none)
    (hb : l.heap[b]? = some nb) (hab : a ≠ b) :
    tryDeleteNode l a b =
      if nb.mu = true then .error .deadlock
      else if nb.marked = 1 then .ok (false, l)
      else .error .badPointer := by
  unfold tryDeleteNode
  rw [lock_of_get hb]
  cases hmu : nb.mu
  · have hnb : { nb with mu := false } = nb := by
      cases nb
      simp_all
    have h1 := store_get_self { nb with mu := true } hb
    simp only [Bool.false_eq_true, if_false, ok_bind, isMarked_of_get h1]
    by_cases hm : nb.marked = 1
    · have hm' : (nb.marked == 1) = true := by simp [hm]
      rw [if_pos hm', if_pos hm, unlock_of_get h1, ok_bind, store_store]
      simp only [hnb, store_same hb, pure_eq_ok]
    · have hm' : ¬ ((nb.marked == 1) = true) := by simpa using hm
      have ha1 : (store l b { nb with mu := true }).heap[a]? = none := by
        rw [store_get_ne _ (Ne.symm hab)]
        exact ha
      rw [if_neg hm', if_neg hm, lock_none ha1, error_bind]
  · simp [error_bind]

theorem tryDeleteNode_ok_inv {l l' : IntList} {a b : Nat} {r : Bool}
    (h : tryDeleteNode l a b = .ok (r, l')) :
    (r = false ∧ l' = l) ∨
    (r = true ∧ a ≠ b ∧ ∃ na nb, l.heap[a]? = some na ∧ l.heap[b]? = some nb ∧
      nb.marked ≠ 1 ∧ na.next = some b ∧ na.marked ≠ 1 ∧ l' = deleted l a na b nb) := by
  cases hb : l.heap[b]? with
  | none =>
    unfold tryDeleteNode at h
    rw [lock_none hb, error_bind] at h
    exact absurd h (by simp)
  | some nb =>
    have hfalse : ∀ {x : IntList}, (Except.ok (false, x) : Except Fault (Bool × IntList)) =
        .ok (r, l') → (r = false ∧ l' = x) := by
      intro x hx
      have e := Except.ok.inj hx
      simp only [Prod.mk.injEq] at e
      exact ⟨e.1.symm, e.2.symm⟩
    by_cases hab : a = b
    · subst hab
      rw [tryDeleteNode_same hb] at h
      split_ifs at h
      exact Or.inl (hfalse h)
    · cases ha : l.heap[a]? with
      | none =>
        rw [tryDeleteNode_no_a ha hb hab] at h
        split_ifs at h
        exact Or.inl (hfalse h)
      | some na =>
        rw [tryDeleteNode_eq ha hb hab] at h
        split_ifs at h with h1 h2 h3 h4
        · exact Or.inl (hfalse h)
        · exact Or.inl (hfalse h)
        · have e := Except.ok.inj h
          simp only [Prod.mk.injEq] at e
          refine Or.inr ⟨e.1.symm, hab, na, nb, rfl, rfl, h2, ?_, ?_, e.2.symm⟩
          · exact not_not.1 (fun h5 => h4 (Or.inl h5))
          · exact fun h5 => h4 (Or.inr h5)

theorem deleted_markedAt {l : IntList} {a b : Nat} {na nb : intNode}
    (ha : l.heap[a]? = some na) (hb : l.heap[b]? = some nb) (hab : a ≠ b) :
    MarkedAt b l (deleted l a na b nb) := by
  intro i n hi
  have halt := get_lt ha
  have hblt := get_lt hb
  by_cases e1 : i = a
  · subst e1
    rw [ha] at hi
    have := Option.some.inj hi
    subst this
    refine ⟨{ na with next := nb.next }, ?_, rfl, ?_⟩
    · simp only [deleted]
      rw [List.getElem?_set_self (by simpa using halt)]
    · rw [if_neg hab]
  · by_cases e2 : i = b
    · subst e2
      rw [hb] at hi
      have := Option.some.inj hi
      subst this
      refine ⟨{ nb with marked := 1 }, ?_, rfl, ?_⟩
      · simp only [deleted]
        rw [List.getElem?_set_ne (Ne.symm e1), List.getElem?_set_self hblt]
      · rw [if_pos rfl]
    · refine ⟨n, ?_, rfl, ?_⟩
      · simp only [deleted]
        rw [del_get_ne _ _ e1 e2]
        exact hi
      · rw [if_neg e2]

/-- Whatever the state, a `Delete` that returns has either changed nothing or made
exactly one successful attempt, on the state it was called in. -/
theorem Delete_ok_inv {l : IntList} {v : Int} :
    ∀ (fuel : Nat) {r : Bool} {l' : IntList}, Delete fuel l v = .ok (r, l') →
      (r = false ∧ l' = l) ∨
      (r = true ∧ ∃ a b, tryDeleteNode l a b = .ok (true, l')) := by
  intro fuel
  induction fuel with
  | zero =>
    intro r l' h
    rw [Delete] at h
    obtain ⟨b, _, h⟩ := bind_ok_inv h
    obtain ⟨w, _, h⟩ := bind_ok_inv h
    obtain ⟨miss, _, h⟩ := bind_ok_inv h
    cases miss with
    | true =>
      simp only [if_true, pure_eq_ok] at h
      have e := Except.ok.inj h
      simp only [Prod.mk.injEq] at e
      exact Or.inl ⟨e.1.symm, e.2.symm⟩
    | false =>
      simp only [Bool.false_eq_true, if_false] at h
      obtain ⟨t, ht, h⟩ := bind_ok_inv h
      obtain ⟨t1, t2⟩ := t
      cases hw : w.2 with
      | none =>
        rw [hw] at ht
        exact absurd ht (by simp [throw_eq_error])
      | some b' =>
        rw [hw] at ht
        simp only at ht
        cases t1 with
        | true =>
          simp only [if_true, pure_eq_ok] at h
          have e := Except.ok.inj h
          simp only [Prod.mk.injEq] at e
          refine Or.inr ⟨e.1.symm, w.1, b', ?_⟩
          rw [ht, e.2]
        | false =>
          simp only [Bool.false_eq_true, if_false] at h
          exact absurd h (by simp [throw_eq_error])
  | succ k ih =>
    intro r l' h
    rw [Delete] at h
    obtain ⟨b, _, h⟩ := bind_ok_inv h
    obtain ⟨w, _, h⟩ := bind_ok_inv h
    obtain ⟨miss, _, h⟩ := bind_ok_inv h
    cases miss with
    | true =>
      simp only [if_true, pure_eq_ok] at h
      have e := Except.ok.inj h
      simp only [Prod.mk.injEq] at e
      exact Or.inl ⟨e.1.symm, e.2.symm⟩
    | false =>
      simp only [Bool.false_eq_true, if_false] at h
      obtain ⟨t, ht, h⟩ := bind_ok_inv h
      obtain ⟨t1, t2⟩ := t
      cases hw : w.2 with
      | none =>
        rw [hw] at ht
        exact absurd ht (by simp [throw_eq_error])
      | some b' =>
        rw [hw] at ht
        simp only at ht
        cases t1 with
        | true =>
          simp only [if_true, pure_eq_ok] at h
          have e := Except.ok.inj h
          simp only [Prod.mk.injEq] at e
          refine Or.inr ⟨e.1.symm, w.1, b', ?_⟩
          rw [ht, e.2]
        | false =>
          simp only [Bool.false_eq_true, if_false] at h
          rcases tryDeleteNode_ok_inv ht with h1 | h1
          · rw [h1.2] at h
            exact ih h
          · exact absurd h1.1 (by simp)

theorem run_reader {l l' : IntList} {fuel : Nat} {op : Op} {ret : Ret}
    (hop : ∀ v, Op.isInsert v op = false) (hod : ∀ v, Op.isDelete v op = false)
    (h : op.run fuel l = .ok (ret, l')) : l' = l := by
  cases op with
  | insert v =>
    have := hop v
    simp [Op.isInsert] at this
  | delete v =>
    have := hod v
    simp [Op.isDelete] at this
  | contains v =>
    simp only [Op.run] at h
    obtain ⟨_, _, h⟩ := bind_ok_inv h
    rw [pure_eq_ok] at h
    exact (Prod.mk.inj (Except.ok.inj h)).2.symm
  | range σ f s =>
    simp only [Op.run] at h
    obtain ⟨_, _, h⟩ := bind_ok_inv h
    rw [pure_eq_ok] at h
    exact (Prod.mk.inj (Except.ok.inj h)).2.symm
  | len =>
    simp only [Op.run, pure_eq_ok] at h
    exact (Prod.mk.inj (Except.ok.inj h)).2.symm

theorem run_head {l l' : IntList} {fuel : Nat} {op : Op} {ret : Ret}
    (h : op.run fuel l = .ok (ret, l')) : l'.head = l.head := by
  cases op with
  | insert v =>
    simp only [Op.run] at h
    obtain ⟨t, ht, h⟩ := bind_ok_inv h
    rw [pure_eq_ok] at h
    have e := (Prod.mk.inj (Except.ok.inj h)).2
    have ht' : Insert fuel l v = .ok (t.1, t.2) := ht
    rcases Insert_ok_inv fuel ht' with ⟨_, e1⟩ | ⟨_, a, b, e1⟩
    · rw [← e, e1]
    · obtain ⟨na, _, _, h1 | h1⟩ := tryInsertNode_ok_inv e1
      · exact absurd h1.1 (by simp)
      · rw [← e, h1.2.1]
        rfl
  | delete v =>
    simp only [Op.run] at h
    obtain ⟨t, ht, h⟩ := bind_ok_inv h
    rw [pure_eq_ok] at h
    have e := (Prod.mk.inj (Except.ok.inj h)).2
    have ht' : Delete fuel l v = .ok (t.1, t.2) := ht
    rcases Delete_ok_inv fuel ht' with ⟨_, e1⟩ | ⟨_, a, b, e1⟩
    · rw [← e, e1]
    · rcases tryDeleteNode_ok_inv e1 with h1 | ⟨_, _, na, nb, _, _, _, _, _, h1⟩
      · exact absurd h1.1 (by simp)
      · rw [← e, h1]
        rfl
  | contains v =>
    rw [@run_reader l l' fuel (Op.contains v) ret (fun _ => rfl) (fun _ => rfl) h]
  | range σ f s =>
    rw [@run_reader l l' fuel (Op.range σ f s) ret (fun _ => rfl) (fun _ => rfl) h]
  | len =>
    rw [@run_reader l l' fuel Op.len ret (fun _ => rfl) (fun _ => rfl) h]

theorem runOps_head {fuel : Nat} :
    ∀ {ops : List Op} {l : IntList} {rets : List Ret} {l' : IntList},
      runOps fuel l ops = .ok (rets, l') → l'.head = l.head
  | [], l, rets, l', h => by
    simp only [runOps, pure_eq_ok] at h
    rw [(Prod.mk.inj (Except.ok.inj h)).2]
  | op :: ops, l, rets, l', h => by
    obtain ⟨r, l1, rs, h1, h2, _⟩ := runOps_cons_inv h
    rw [runOps_head h2, run_head h1]

/-! ### Two threads inside `Insert` -/

theorem mem_foldr_addNew (x : Sys) : ∀ L : List Sys, x ∈ L.foldr addNew [] ↔ x ∈ L
  | [] => Iff.rfl
  | y :: L => by
    have ih := mem_foldr_addNew x L
    simp only [List.foldr_cons, addNew, List.mem_cons]
    split
    · constructor
      · intro h
        exact Or.inr (ih.1 h)
      · rintro (e | h)
        · rw [e]
          assumption
        · exact ih.2 h
    · simp only [List.mem_cons, ih]

theorem step_mem_afterStep {S : List Sys} {s s' : Sys} {w : Bool} (hs : s ∈ S)
    (h : s.step w = some s') : s' ∈ afterStep S := by
  unfold afterStep
  rw [mem_foldr_addNew, List.mem_flatMap]
  refine ⟨s, hs, ?_⟩
  unfold succs
  cases w
  · simp [h]
  · simp [h]

theorem verify_sound (P : Sys → Bool) :
    ∀ (ws : List Bool) (n : Nat) (S : List Sys) (s0 s : Sys),
      verify P n S = true → s0 ∈ S → exec ws s0 = some s → ws.length < n ∧ P s = true
  | [], n, S, s0, s, hv, hm, he => by
    cases n with
    | zero =>
      simp only [verify, List.isEmpty_iff] at hv
      rw [hv] at hm
      exact absurd hm (List.not_mem_nil _)
    | succ k =>
      simp only [verify, Bool.and_eq_true, List.all_eq_true] at hv
      simp only [exec, Option.some.injEq] at he
      subst he
      exact ⟨Nat.succ_pos _, hv.1 _ hm⟩
  | w :: ws, n, S, s0, s, hv, hm, he => by
    cases n with
    | zero =>
      simp only [verify, List.isEmpty_iff] at hv
      rw [hv] at hm
      exact absurd hm (List.not_mem_nil _)
    | succ k =>
      simp only [verify, Bool.and_eq_true] at hv
      simp only [exec] at he
      cases hs : s0.step w with
      | none =>
        rw [hs] at he
        exact absurd he (by simp)
      | some s1 =>
        rw [hs] at he
        have ih := verify_sound P ws k (afterStep S) s1 s hv.2 (step_mem_afterStep hm hs) he
        exact ⟨Nat.succ_lt_succ ih.1, ih.2⟩

theorem result_of_pc {t : Thread} {r : Bool} (h : t.pc = .returned r) : t.result = some r := by
  unfold Thread.result
  rw [h]

theorem pc_of_result {t : Thread} {r : Bool} (h : t.result = some r) : t.pc = .returned r := by
  unfold Thread.result at h
  cases hp : t.pc <;> rw [hp] at h <;> simp at h
  rw [h]

theorem twoInserts_verified : verify settled 21 [twoInserts NewInt 7 7] = true := by decide

theorem twoInserts_settled {ws : List Bool} {s : Sys}
    (h : exec ws (twoInserts NewInt 7 7) = some s) : ws.length < 21 ∧ settled s = true :=
  verify_sound settled ws 21 [twoInserts NewInt 7 7] _ s twoInserts_verified
    (List.mem_singleton.2 rfl) h

theorem settled_stuck {s : Sys} (hs : settled s = true) (h1 : s.step false = none)
    (h2 : s.step true = none) :
    ∃ r1 r2, s.t1.pc = .returned r1 ∧ s.t2.pc = .returned r2 := by
  unfold settled at hs
  cases e1 : s.t1.result with
  | none =>
    rw [e1, h1, h2] at hs
    exact absurd hs (by simp)
  | some r1 =>
    cases e2 : s.t2.result with
    | none =>
      rw [e1, e2, h1, h2] at hs
      exact absurd hs (by simp)
    | some r2 => exact ⟨r1, r2, pc_of_result e1, pc_of_result e2⟩

theorem exec_append : ∀ (ws ws' : List Bool) (s : Sys),
    exec (ws ++ ws') s = (exec ws s).bind (exec ws')
  | [], _, _ => rfl
  | w :: ws, ws', s => by
    simp only [List.cons_append, exec]
    cases s.step w with
    | none => rfl
    | some s1 =>
      simp only [Option.some_bind]
      exact exec_append ws ws' s1

theorem twoInserts_complete :
    ∀ (k : Nat) (ws : List Bool) (s : Sys), exec ws (twoInserts NewInt 7 7) = some s →
      21 ≤ ws.length + k →
      ∃ ws' s', exec ws' s = some s' ∧ s'.step false = none ∧ s'.step true = none
  | 0, ws, s, h, hk => by
    have := (twoInserts_settled h).1
    omega
  | k + 1, ws, s, h, hk => by
    cases h1 : s.step false with
    | some s1 =>
      have e : exec (ws ++ [false]) (twoInserts NewInt 7 7) = some s1 := by
        rw [exec_append, h]
        simp [exec, h1]
      obtain ⟨ws', s', h3, h4⟩ := twoInserts_complete k (ws ++ [false]) s1 e
        (by simp only [List.length_append, List.length_singleton]; omega)
      refine ⟨false :: ws', s', ?_, h4⟩
      simp only [exec, h1, Option.some_bind]
      exact h3
    | none =>
      cases h2 : s.step true with
      | some s1 =>
        have e : exec (ws ++ [true]) (twoInserts NewInt 7 7) = some s1 := by
          rw [exec_append, h]
          simp [exec, h2]
        obtain ⟨ws', s', h3, h4⟩ := twoInserts_complete k (ws ++ [true]) s1 e
          (by simp only [List.length_append, List.length_singleton]; omega)
        refine ⟨true :: ws', s', ?_, h4⟩
        simp only [exec, h2, Option.some_bind]
        exact h3
      | none => exact ⟨[], s, rfl, h1, h2⟩

theorem solo_step {l l1 : IntList} {t t1 : Thread} {n : Nat} {r : IntList × Thread}
    (h : t.step l = some (l1, t1)) (hr : solo n l1 t1 = some r) : solo (n + 1) l t = some r := by
  simp only [solo, h, Option.some_bind]
  exact hr

theorem search_solo (l : IntList) (v : Int) (x : Nat) :
    ∀ (fuel a0 : Nat) (b0 : Option Nat) (w : Nat × Option Nat),
      searchLoop l v fuel a0 b0 = .ok w →
      ∃ n, solo n l ⟨.search, v, a0, b0, x⟩ = some (l, ⟨.check, v, w.1, w.2, x⟩) := by
  intro fuel
  induction fuel with
  | zero =>
    intro a0 b0 w h
    cases b0 with
    | none =>
      rw [searchLoop, pure_eq_ok] at h
      rw [← Except.ok.inj h]
      exact ⟨1, rfl⟩
    | some b =>
      rw [searchLoop] at h
      obtain ⟨nb, h1, h⟩ := bind_ok_inv h
      by_cases hlt : nb.value < v
      · rw [if_pos hlt] at h
        exact absurd h (by simp [throw_eq_error, error_bind])
      · rw [if_neg hlt] at h
        have e := Except.ok.inj h
        rw [← e]
        refine ⟨1, solo_step ?_ rfl⟩
        simp [Thread.step, h1, Except.toOption, hlt]
  | succ k ih =>
    intro a0 b0 w h
    cases b0 with
    | none =>
      rw [searchLoop, pure_eq_ok] at h
      rw [← Except.ok.inj h]
      exact ⟨1, rfl⟩
    | some b =>
      rw [searchLoop] at h
      obtain ⟨nb, h1, h⟩ := bind_ok_inv h
      by_cases hlt : nb.value < v
      · rw [if_pos hlt] at h
        obtain ⟨b', h2, h⟩ := bind_ok_inv h
        obtain ⟨n, hn⟩ := ih b b' w h
        refine ⟨n + 1, solo_step ?_ hn⟩
        simp [Thread.step, h1, h2, Except.toOption, hlt]
      · rw [if_neg hlt, pure_eq_ok] at h
        have e := Except.ok.inj h
        rw [← e]
        refine ⟨1, solo_step ?_ rfl⟩
        simp [Thread.step, h1, Except.toOption, hlt]

theorem attempt_solo {l l' : IntList} {v : Int} {a : Nat} {b : Option Nat} {r : Bool} (x : Nat)
    (h : tryInsertNode l v a b = .ok (r, l')) :
    ∃ n x', solo n l ⟨.lock, v, a, b, x⟩ =
      some (l', ⟨if r then .returned true else .start, v, a, b, x'⟩) := by
  unfold tryInsertNode at h
  obtain ⟨l1, h1, h⟩ := bind_ok_inv h
  obtain ⟨na, h2, h⟩ := bind_ok_inv h
  obtain ⟨m, h3, h⟩ := bind_ok_inv h
  have s1 : Thread.step l ⟨.lock, v, a, b, x⟩ = some (l1, ⟨.testNext, v, a, b, x⟩) := by
    simp [Thread.step, h1, Except.toOption]
  by_cases hn : (na.next != b) = true
  · rw [if_pos (by simp [hn])] at h
    obtain ⟨l2, h4, h⟩ := bind_ok_inv h
    have e := Except.ok.inj h
    simp only [Prod.mk.injEq] at e
    rw [← e.1, ← e.2]
    have hn' : na.next ≠ b := by simpa using hn
    have s2 : Thread.step l1 ⟨.testNext, v, a, b, x⟩ = some (l1, ⟨.unlockFalse, v, a, b, x⟩) := by
      simp [Thread.step, h2, Except.toOption, hn']
    have s3 : Thread.step l1 ⟨.unlockFalse, v, a, b, x⟩ = some (l2, ⟨.start, v, a, b, x⟩) := by
      simp [Thread.step, h4, Except.toOption]
    exact ⟨3, x, solo_step s1 (solo_step s2 (solo_step s3 rfl))⟩
  · have hn' : na.next = b := by simpa using hn
    have s2 : Thread.step l1 ⟨.testNext, v, a, b, x⟩ = some (l1, ⟨.testMarked, v, a, b, x⟩) := by
      simp [Thread.step, h2, Except.toOption, hn']
    cases m with
    | true =>
      rw [if_pos (by simp)] at h
      obtain ⟨l2, h4, h⟩ := bind_ok_inv h
      have e := Except.ok.inj h
      simp only [Prod.mk.injEq] at e
      rw [← e.1, ← e.2]
      have s3 : Thread.step l1 ⟨.testMarked, v, a, b, x⟩ =
          some (l1, ⟨.unlockFalse, v, a, b, x⟩) := by
        simp [Thread.step, h3, Except.toOption]
      have s4 : Thread.step l1 ⟨.unlockFalse, v, a, b, x⟩ = some (l2, ⟨.start, v, a, b, x⟩) := by
        simp [Thread.step, h4, Except.toOption]
      exact ⟨4, x, solo_step s1 (solo_step s2 (solo_step s3 (solo_step s4 rfl)))⟩
    | false =>
      rw [if_neg (by simpa using hn)] at h
      obtain ⟨l3, h4, h⟩ := bind_ok_inv h
      obtain ⟨l4, h5, h⟩ := bind_ok_inv h
      obtain ⟨l5, h6, h⟩ := bind_ok_inv h
      have e := Except.ok.inj h
      simp only [Prod.mk.injEq] at e
      rw [← e.1, ← e.2]
      have s3 : Thread.step l1 ⟨.testMarked, v, a, b, x⟩ = some (l1, ⟨.alloc, v, a, b, x⟩) := by
        simp [Thread.step, h3, Except.toOption]
      have s4 : Thread.step l1 ⟨.alloc, v, a, b, x⟩ =
          some ((newIntNode l1 v).1, ⟨.linkNew, v, a, b, (newIntNode l1 v).2⟩) := by
        simp [Thread.step]
      have s5 : Thread.step (newIntNode l1 v).1 ⟨.linkNew, v, a, b, (newIntNode l1 v).2⟩ =
          some (l3, ⟨.publish, v, a, b, (newIntNode l1 v).2⟩) := by
        simp [Thread.step, h4, Except.toOption]
      have s6 : Thread.step l3 ⟨.publish, v, a, b, (newIntNode l1 v).2⟩ =
          some (l4, ⟨.count, v, a, b, (newIntNode l1 v).2⟩) := by
        simp [Thread.step, h5, Except.toOption]
      have s7 : Thread.step l4 ⟨.count, v, a, b, (newIntNode l1 v).2⟩ =
          some (incrLength l4, ⟨.unlockTrue, v, a, b, (newIntNode l1 v).2⟩) := by
        simp [Thread.step]
      have s8 : Thread.step (incrLength l4) ⟨.unlockTrue, v, a, b, (newIntNode l1 v).2⟩ =
          some (l5, ⟨.returned true, v, a, b, (newIntNode l1 v).2⟩) := by
        simp [Thread.step, h6, Except.toOption]
      exact ⟨8, _, solo_step s1 (solo_step s2 (solo_step s3 (solo_step s4 (solo_step s5
        (solo_step s6 (solo_step s7 (solo_step s8 rfl)))))))⟩

theorem solo_trans {l1 l2 : IntList} {t1 t2 : Thread} :
    ∀ (m : Nat) {n : Nat} (l : IntList) (t : Thread), solo m l t = some (l1, t1) →
      solo n l1 t1 = some (l2, t2) → solo (m + n) l t = some (l2, t2)
  | 0, n, l, t, h1, h2 => by
    simp only [solo, Option.some.injEq, Prod.mk.injEq] at h1
    rw [h1.1, h1.2, Nat.zero_add]
    exact h2
  | m + 1, n, l, t, h1, h2 => by
    have e : m + 1 + n = (m + n) + 1 := by omega
    rw [e]
    simp only [solo] at h1 ⊢
    cases hs : t.step l with
    | none =>
      rw [hs] at h1
      exact absurd h1 (by simp)
    | some r =>
      rw [hs, Option.some_bind] at h1
      rw [Option.some_bind]
      exact solo_trans m r.1 r.2 h1 h2

theorem solo_Insert (v : Int) :
    ∀ (fuel : Nat) (l : IntList) (r : Bool) (l' : IntList) (a : Nat) (b : Option Nat) (x : Nat),
      Insert fuel l v = .ok (r, l') →
      ∃ n a' b' x', solo n l ⟨.start, v, a, b, x⟩ = some (l', ⟨.returned r, v, a', b', x'⟩) := by
  have front : ∀ (fuel : Nat) (l : IntList) (a : Nat) (b : Option Nat) (x : Nat) (b0 : Option Nat)
      (w : Nat × Option Nat) (dup : Bool), getNext l l.head = .ok b0 →
      searchLoop l v fuel l.head b0 = .ok w →
      (match w.2 with
        | none => pure false
        | some b => do
          let nb ← load l b
          pure (nb.value == v) : Except Fault Bool) = .ok dup →
      ∃ n, solo n l ⟨.start, v, a, b, x⟩ =
        some (l, ⟨if dup then .returned false else .lock, v, w.1, w.2, x⟩) := by
    intro fuel l a b x b0 w dup h1 h2 h3
    have s1 : Thread.step l ⟨.start, v, a, b, x⟩ = some (l, ⟨.search, v, l.head, b0, x⟩) := by
      simp [Thread.step, h1, Except.toOption]
    obtain ⟨n, hn⟩ := search_solo l v x fuel l.head b0 w h2
    have s3 : Thread.step l ⟨.check, v, w.1, w.2, x⟩ =
        some (l, ⟨if dup then .returned false else .lock, v, w.1, w.2, x⟩) := by
      cases hw : w.2 with
      | none =>
        rw [hw] at h3
        simp only [pure_eq_ok] at h3
        rw [← Except.ok.inj h3]
        simp [Thread.step]
      | some c =>
        rw [hw] at h3
        simp only at h3
        obtain ⟨nc, h4, h3⟩ := bind_ok_inv h3
        rw [pure_eq_ok] at h3
        rw [← Except.ok.inj h3]
        simp only [Thread.step, h4, Except.toOption]
        by_cases hd : nc.value = v
        · simp [hd]
        · simp [hd]
    have h12 := solo_trans n l _ hn (solo_step s3 (rfl : solo 0 _ _ = _))
    exact ⟨n + (0 + 1) + 1, solo_step s1 h12⟩
  intro fuel
  induction fuel with
  | zero =>
    intro l r l' a b x h
    rw [Insert] at h
    obtain ⟨b0, h1, h⟩ := bind_ok_inv h
    obtain ⟨w, h2, h⟩ := bind_ok_inv h
    obtain ⟨dup, h3, h⟩ := bind_ok_inv h
    obtain ⟨n, hn⟩ := front 0 l a b x b0 w dup h1 h2 h3
    cases dup with
    | true =>
      simp only [if_true, pure_eq_ok] at h
      have e := Except.ok.inj h
      simp only [Prod.mk.injEq] at e
      rw [← e.1, ← e.2]
      exact ⟨n, _, _, _, hn⟩
    | false =>
      simp only [Bool.false_eq_true, if_false] at h hn
      obtain ⟨t, ht, h⟩ := bind_ok_inv h
      obtain ⟨t1, t2⟩ := t
      cases t1 with
      | true =>
        simp only [if_true, pure_eq_ok] at h
        have e := Except.ok.inj h
        simp only [Prod.mk.injEq] at e
        rw [← e.1, ← e.2]
        obtain ⟨m, x', hm⟩ := attempt_solo x ht
        exact ⟨n + m, _, _, _, solo_trans n l _ hn hm⟩
      | false =>
        simp only [Bool.false_eq_true, if_false] at h
        exact absurd h (by simp [throw_eq_error])
  | succ k ih =>
    intro l r l' a b x h
    rw [Insert] at h
    obtain ⟨b0, h1, h⟩ := bind_ok_inv h
    obtain ⟨w, h2, h⟩ := bind_ok_inv h
    obtain ⟨dup, h3, h⟩ := bind_ok_inv h
    obtain ⟨n, hn⟩ := front (k + 1) l a b x b0 w dup h1 h2 h3
    cases dup with
    | true =>
      simp only [if_true, pure_eq_ok] at h
      have e := Except.ok.inj h
      simp only [Prod.mk.injEq] at e
      rw [← e.1, ← e.2]
      exact ⟨n, _, _, _, hn⟩
    | false =>
      simp only [Bool.false_eq_true, if_false] at h hn
      obtain ⟨t, ht, h⟩ := bind_ok_inv h
      obtain ⟨t1, t2⟩ := t
      obtain ⟨m, x', hm⟩ := attempt_solo x ht
      cases t1 with
      | true =>
        simp only [if_true, pure_eq_ok] at h
        have e := Except.ok.inj h
        simp only [Prod.mk.injEq] at e
        rw [← e.1, ← e.2]
        exact ⟨n + m, _, _, _, solo_trans n l _ hn hm⟩
      | false =>
        simp only [Bool.false_eq_true, if_false] at h hm
        obtain ⟨j, a', b', x'', hj⟩ := ih t2 r l' w.1 w.2 x' h
        exact ⟨n + m + j, a', b', x'', solo_trans (n + m) l _ (solo_trans n l _ hn hm) hj⟩

/-! ### The claims -/

/-- C1: in every list state a single thread can reach from `NewInt()`, and for every
integer `v`, `Contains(v)` and `Insert(v)` both return (given fuel for a walk over
the allocated nodes), and `Insert(v)` returns true exactly when `Contains(v)`
was false before the call, false exactly when `v` was present. -/
theorem C1_insert_true_iff_absent (l : IntList) (hl : Reachable l) (v : Int) (fuel : Nat)
    (hf : l.heap.length ≤ fuel) :
    ∃ c r l', Contains fuel l v = .ok c ∧ Insert fuel l v = .ok (r, l') ∧
      (r = true ↔ c = false) ∧ (r = false ↔ c = true) := by
  obtain ⟨vs, hr⟩ := hl.rep
  have hb := hr.bound
  obtain ⟨n, hn, hC⟩ := Contains_Rep hr v
  obtain ⟨m, l1, vs1, hm, _, _, _, _, _, hI⟩ := Insert_Rep hr v
  refine ⟨decide (v ∈ vs), decide (v ∉ vs), l1, ?_, ?_, ?_, ?_⟩
  · rw [hC fuel, if_neg (by omega)]
  · rw [hI fuel, if_neg (by omega)]
  · simp
  · simp

theorem C1_insert_true_iff_absent_witness :
    Reachable listWith5 ∧ listWith5.heap.length ≤ 2 ∧
      ∃ c r l', Contains 2 listWith5 (-3) = .ok c ∧ Insert 2 listWith5 (-3) = .ok (r, l') ∧
        (r = true ↔ c = false) ∧ (r = false ↔ c = true) :=
  ⟨⟨0, [.insert 5], [.bool true], rfl⟩, by decide,
    C1_insert_true_iff_absent listWith5 ⟨0, [.insert 5], [.bool true], rfl⟩ (-3) 2 (by decide)⟩

/-- C2: in every list state a single thread can reach from `NewInt()`, and for every
integer `v`, `Contains(v)` and `Delete(v)` both return, and `Delete(v)` returns true
exactly when `Contains(v)` was true before the call, false exactly when `v` was
absent.  Consequently: after an `Insert(v)` that returned true, and any further
calls none of which is `Delete(v)`, `Delete(v)` returns true; after that, and any
further calls none of which is `Insert(v)`, `Delete(v)` returns false. -/
theorem C2_delete_true_iff_present (l : IntList) (hl : Reachable l) (v : Int) :
    (∀ fuel, l.heap.length ≤ fuel →
      ∃ c r l', Contains fuel l v = .ok c ∧ Delete fuel l v = .ok (r, l') ∧
        (r = true ↔ c = true) ∧ (r = false ↔ c = false)) ∧
    (∀ f1 l1, Insert f1 l v = .ok (true, l1) →
      ∀ f2 ops1 rets1 l2, (∀ op ∈ ops1, Op.isDelete v op = false) →
        runOps f2 l1 ops1 = .ok (rets1, l2) →
      ∀ f3, l2.heap.length ≤ f3 →
      ∃ l3, Delete f3 l2 v = .ok (true, l3) ∧
        ∀ f4 ops2 rets2 l4, (∀ op ∈ ops2, Op.isInsert v op = false) →
          runOps f4 l3 ops2 = .ok (rets2, l4) →
        ∀ f5, l4.heap.length ≤ f5 → ∃ l5, Delete f5 l4 v = .ok (false, l5)) := by
  obtain ⟨vs, hr⟩ := hl.rep
  constructor
  · intro fuel hf
    obtain ⟨l1, hD⟩ := Delete_total hr v hf
    exact ⟨decide (v ∈ vs), decide (v ∈ vs), l1, Contains_total hr v hf, hD, Iff.rfl, Iff.rfl⟩
  · intro f1 l1 hins f2 ops1 rets1 l2 hno1 hrun1 f3 hf3
    obtain ⟨_, _, vs1, hr1, hmem1⟩ := Insert_ok_Rep hr hins
    obtain ⟨vs2, hr2, _, hkeep, _⟩ := runOps_Rep hr1 hrun1
    have hv2 : v ∈ vs2 := hkeep v hno1 ((hmem1 v).2 (Or.inl rfl))
    obtain ⟨l3, hD⟩ := Delete_total hr2 v hf3
    rw [decide_eq_true hv2] at hD
    refine ⟨l3, hD, ?_⟩
    intro f4 ops2 rets2 l4 hno2 hrun2 f5 hf5
    obtain ⟨_, _, vs3, hr3, hmem3⟩ := Delete_ok_Rep hr2 hD
    have hv3 : v ∉ vs3 := fun hx => ((hmem3 v).1 hx).1 rfl
    obtain ⟨vs4, hr4, _, _, hout⟩ := runOps_Rep hr3 hrun2
    have hv4 : v ∉ vs4 := hout v hno2 hv3
    obtain ⟨l5, hD5⟩ := Delete_total hr4 v hf5
    rw [decide_eq_false hv4] at hD5
    exact ⟨l5, hD5⟩

theorem C2_delete_true_iff_present_witness :
    Reachable NewInt ∧
      (∃ c r l', Contains 1 NewInt 5 = .ok c ∧ Delete 1 NewInt 5 = .ok (r, l') ∧
        (r = true ↔ c = true) ∧ (r = false ↔ c = false)) ∧
      ∃ l3, Delete 3 listWith5 5 = .ok (true, l3) ∧ ∃ l5, Delete 3 l3 5 = .ok (false, l5) := by
  have hN : Reachable NewInt := ⟨0, [], [], rfl⟩
  have h := C2_delete_true_iff_present NewInt hN 5
  refine ⟨hN, h.1 1 (by decide), ?_⟩
  obtain ⟨l3, h3, h4⟩ :=
    h.2 0 listWith5 rfl 3 [.contains 5, .insert 5] [.bool true, .bool false] listWith5
      (by decide) rfl 3 (by decide)
  refine ⟨l3, h3, ?_⟩
  have h3' : Delete 3 listWith5 5 = .ok (true, listWithout5) := rfl
  have e : l3 = listWithout5 := by
    rw [h3'] at h3
    exact (Prod.mk.inj (Except.ok.inj h3)).2.symm
  subst e
  exact h4 1 [.len, .delete 5] [.int 0, .bool false] listWithout5 (by decide) rfl 3 (by decide)

/-- C3: in every list state a single thread can reach from `NewInt()`, if `Insert(v)`
returns true then `Contains(v)` on the resulting list returns true, and it still
returns true after any further sequence of `Insert` / `Delete` / `Contains` /
`Range` / `Len` calls none of which is `Delete(v)`. -/
theorem C3_contains_after_insert (l : IntList) (hl : Reachable l) (v : Int) (f1 : Nat)
    (l1 : IntList) (hins : Insert f1 l v = .ok (true, l1)) :
    (∀ fuel, l1.heap.length ≤ fuel → Contains fuel l1 v = .ok true) ∧
    (∀ f2 ops rets l2, (∀ op ∈ ops, Op.isDelete v op = false) →
      runOps f2 l1 ops = .ok (rets, l2) →
      ∀ fuel, l2.heap.length ≤ fuel → Contains fuel l2 v = .ok true) := by
  obtain ⟨vs, hr⟩ := hl.rep
  obtain ⟨_, _, vs1, hr1, hmem1⟩ := Insert_ok_Rep hr hins
  have hv1 : v ∈ vs1 := (hmem1 v).2 (Or.inl rfl)
  constructor
  · intro fuel hf
    rw [Contains_total hr1 v hf, decide_eq_true hv1]
  · intro f2 ops rets l2 hno hrun fuel hf
    obtain ⟨vs2, hr2, _, hkeep, _⟩ := runOps_Rep hr1 hrun
    rw [Contains_total hr2 v hf, decide_eq_true (hkeep v hno hv1)]

theorem C3_contains_after_insert_witness :
    Reachable NewInt ∧ Insert 0 NewInt 5 = .ok (true, listWith5) ∧
      Contains 2 listWith5 5 = .ok true ∧ Contains 4 listWith59 5 = .ok true := by
  have hN : Reachable NewInt := ⟨0, [], [], rfl⟩
  have h := C3_contains_after_insert NewInt hN 5 0 listWith5 rfl
  refine ⟨hN, rfl, h.1 2 (by decide), ?_⟩
  exact h.2 2 [.insert 9, .delete 7, .range Unit always ()]
    [.bool true, .bool false, .visited [5, 9]] listWith59 (by decide) rfl 4 (by decide)

/-- C4: in every list state a single thread can reach from `NewInt()`, if `Delete(v)`
returns true then `Contains(v)` on the resulting list returns false, and an
immediately repeated `Delete(v)` returns false (and changes nothing). -/
theorem C4_absent_after_delete (l : IntList) (hl : Reachable l) (v : Int) (f1 : Nat)
    (l1 : IntList) (hdel : Delete f1 l v = .ok (true, l1)) (fuel : Nat)
    (hf : l1.heap.length ≤ fuel) :
    Contains fuel l1 v = .ok false ∧ Delete fuel l1 v = .ok (false, l1) := by
  obtain ⟨vs, hr⟩ := hl.rep
  obtain ⟨_, _, vs1, hr1, hmem1⟩ := Delete_ok_Rep hr hdel
  have hv1 : v ∉ vs1 := fun hx => ((hmem1 v).1 hx).1 rfl
  refine ⟨by rw [Contains_total hr1 v hf, decide_eq_false hv1], ?_⟩
  obtain ⟨l2, hD⟩ := Delete_total hr1 v hf
  rw [decide_eq_false hv1] at hD
  have e := (Delete_ok_Rep hr1 hD).2.1 rfl
  rw [e] at hD
  exact hD

theorem C4_absent_after_delete_witness :
    Reachable listWith5 ∧ Delete 1 listWith5 5 = .ok (true, listWithout5) ∧
      listWithout5.heap.length ≤ 2 ∧
      Contains 2 listWithout5 5 = .ok false ∧
      Delete 2 listWithout5 5 = .ok (false, listWithout5) :=
  ⟨⟨0, [.insert 5], [.bool true], rfl⟩, rfl, by decide,
    C4_absent_after_delete listWith5 ⟨0, [.insert 5], [.bool true], rfl⟩ 5 1 listWithout5 rfl 2
      (by decide)⟩

/-- C5: the chain of the new list is empty, hence ascending; on a list whose chain
(the nodes linked after the head) has strictly ascending values, whenever
`Insert` or `Delete` returns, the chain of the resulting list again has strictly
ascending values; and `Range` with the always-true visitor, given fuel for a walk
over the chain, visits a strictly ascending sequence without a repeated value
(the values of the chain). -/
theorem C5_sorted_invariant (l : IntList) (h : intNode) (cells : List Cell)
    (hc : Chain l h cells) (hs : (vals cells).Pairwise (fun x y => x < y)) :
    (∃ h0, Chain NewInt h0 [] ∧ (vals []).Pairwise (fun x y => x < y)) ∧
    (∀ fuel v r l', Insert fuel l v = .ok (r, l') →
      ∃ h' cells', Chain l' h' cells' ∧ (vals cells').Pairwise (fun x y => x < y)) ∧
    (∀ fuel v r l', Delete fuel l v = .ok (r, l') →
      ∃ h' cells', Chain l' h' cells' ∧ (vals cells').Pairwise (fun x y => x < y)) ∧
    (∀ fuel, cells.length ≤ fuel →
      ∃ t, Range fuel l always () = .ok (t, ()) ∧ t = vals cells ∧
        t.Pairwise (fun x y => x < y) ∧ t.Nodup) := by
  refine ⟨⟨_, Inv_NewInt.chain, List.Pairwise.nil⟩, ?_, ?_, ?_⟩
  · intro fuel v r l' hI
    rcases Insert_ok_cases hc hI with ⟨_, e⟩ | ⟨_, hv, e⟩
    · rw [e]
      exact ⟨h, cells, hc, hs⟩
    · rw [e]
      exact ⟨_, _, inserted_chain v hc, sorted_cellsInserted l h hs hv⟩
  · intro fuel v r l' hD
    rcases Delete_ok_cases hc hD with ⟨_, e⟩ | ⟨c, post, hpost, _, _, e⟩
    · rw [e]
      exact ⟨h, cells, hc, hs⟩
    · rw [e]
      exact ⟨_, _, removed_chain v hc hpost, sorted_cellsRemoved l h hs hpost⟩
  · intro fuel hf
    refine ⟨vals cells, ?_, rfl, hs, hs.imp (fun hxy => ne_of_lt hxy)⟩
    rw [Range_eq hc]
    have hle := visitSteps_le always (vals cells) ()
    have hlen : (vals cells).length = cells.length := by simp [vals]
    rw [if_neg (by omega), visit_always]

theorem C5_sorted_invariant_witness :
    Chain listWith59 { value := 0, marked := 0, mu := false, next := some 1 }
        [(1, { value := 5, marked := 0, mu := false, next := some 2 }),
         (2, { value := 9, marked := 0, mu := false, next := none })] ∧
      (vals [(1, { value := 5, marked := 0, mu := false, next := some 2 }),
             (2, { value := 9, marked := 0, mu := false, next := none })]).Pairwise
        (fun x y => x < y) ∧
      Insert 2 listWith59 7 = .ok (true, listWith579) ∧
      (∃ h' cells', Chain listWith579 h' cells' ∧ (vals cells').Pairwise (fun x y => x < y)) ∧
      (∃ t, Range 2 listWith59 always () = .ok (t, ()) ∧
        t = vals [(1, { value := 5, marked := 0, mu := false, next := some 2 }),
                  (2, { value := 9, marked := 0, mu := false, next := none })] ∧
        t.Pairwise (fun x y => x < y) ∧ t.Nodup) := by
  have hc : Chain listWith59 { value := 0, marked := 0, mu := false, next := some 1 }
      [(1, { value := 5, marked := 0, mu := false, next := some 2 }),
       (2, { value := 9, marked := 0, mu := false, next := none })] := by decide
  have hs : (vals [(1, { value := 5, marked := 0, mu := false, next := some 2 }),
      (2, { value := 9, marked := 0, mu := false, next := none })]).Pairwise
      (fun x y => x < y) := by simp [vals]
  have h := C5_sorted_invariant listWith59 _ _ hc hs
  exact ⟨hc, hs, rfl, h.2.1 2 7 true listWith579 rfl, h.2.2.2 2 (by decide)⟩

/-- C6: for every finite sequence of calls (in particular of `Insert` and `Delete`
calls) made by one thread on a new list, the sequence returns (given fuel for a
walk over all nodes allocated by then), and afterwards `Len()` is the number of
`Insert` calls that returned true minus the number of `Delete` calls that
returned true, and is not negative. -/
theorem C6_len_counts (ops : List Op) :
    (∀ fuel, 1 + ops.length ≤ fuel → ∃ rets l, runOps fuel NewInt ops = .ok (rets, l)) ∧
    (∀ fuel rets l, runOps fuel NewInt ops = .ok (rets, l) →
      Len l = (okInserts ops rets : Int) - (okDeletes ops rets : Int) ∧ 0 ≤ Len l) := by
  constructor
  · intro fuel hf
    exact runOps_total fuel ops Rep_NewInt (by simpa [NewInt, newIntNode] using hf)
  · intro fuel rets l hrun
    obtain ⟨vs, hr, hlen, _⟩ := runOps_Rep Rep_NewInt hrun
    rw [hr.len]
    constructor
    · rw [hlen]
      simp
    · exact Int.natCast_nonneg _

/-- C7: for every finite sequence `vs` of integers, inserting them in this order
into a new list returns, and `Range` with the always-true visitor then visits a
strictly ascending sequence (so no value twice) whose members are exactly the
members of `vs`. -/
theorem C7_range_sorted_distinct (vs : List Int) (fuel : Nat) (hf : vs.length + 1 ≤ fuel) :
    ∃ rets l t, runOps fuel NewInt (vs.map Op.insert) = .ok (rets, l) ∧
      Range fuel l always () = .ok (t, ()) ∧
      t.Pairwise (fun x y => x < y) ∧ t.Nodup ∧ ∀ x, x ∈ t ↔ x ∈ vs := by
  obtain ⟨rets, l, hrun⟩ := runOps_total fuel (vs.map Op.insert) Rep_NewInt
    (by simp only [List.length_map]
        have : NewInt.heap.length = 1 := rfl
        omega)
  obtain ⟨ws, hr, hmem⟩ := runOps_inserts vs Rep_NewInt hrun
  have hb : ws.length ≤ fuel := by
    obtain ⟨ws1, hr1, hlen1, _⟩ := runOps_Rep Rep_NewInt hrun
    have e1 := hr.len
    have e2 := hr1.len
    have hk : okInserts (vs.map Op.insert) rets ≤ vs.length := by
      have := okInserts_le (vs.map Op.insert) rets
      simpa using this
    have : (ws.length : Int) = ws1.length := by rw [← e1, ← e2]
    simp only [List.length_nil, Nat.cast_zero, zero_add] at hlen1
    omega
  refine ⟨rets, l, ws, hrun, ?_, hr.sorted, hr.sorted.imp (fun hxy => ne_of_lt hxy), ?_⟩
  · rw [Range_Rep hr]
    have hle := visitSteps_le always ws ()
    rw [if_neg (by omega), visit_always]
  · intro x
    rw [hmem x]
    simp

theorem C7_range_sorted_distinct_witness :
    ([3, 1, 2] : List Int).length + 1 ≤ 4 ∧
      ∃ rets l t, runOps 4 NewInt ([3, 1, 2].map Op.insert) = .ok (rets, l) ∧
        Range 4 l always () = .ok (t, ()) ∧
        t.Pairwise (fun x y => x < y) ∧ t.Nodup ∧ (∀ x, x ∈ t ↔ x ∈ [3, 1, 2]) ∧
        t = [1, 2, 3] := by
  refine ⟨by decide, ?_⟩
  obtain ⟨rets, l, t, h1, h2, h3, h4, h5⟩ := C7_range_sorted_distinct [3, 1, 2] 4 (by decide)
  refine ⟨rets, l, t, h1, h2, h3, h4, h5, ?_⟩
  clear h1 h2
  have hp : t.Perm [1, 2, 3] := by
    refine (List.perm_ext_iff_of_nodup h4 (by decide)).2 ?_
    intro x
    rw [h5 x]
    simp only [List.mem_cons, List.mem_singleton, List.not_mem_nil, or_false]
    tauto
  have hs : ([1, 2, 3] : List Int).Pairwise (fun x y => x < y) := by decide
  exact List.eq_of_perm_of_sorted hp h3 hs

/-- C8 (as amended): for every list whose chain after the head is `cells` (ending in `nil`;
marked nodes and any order of values allowed) and every visitor `g` that does not
change the list (called on this list it returns, with the answer and the new state
that `f` computes from its state and the value, and leaves the list as it is),
`Range(g)`, given fuel for a walk over the chain, returns after calling the visitor
on the values of the chain in chain order, up to and including the first call that
answers false and on no value after it: the calls are `visit f (vals cells) s`, a
prefix of the chain's values; for a visitor without state, the values before the
first one it rejects followed by that one; for a visitor that never answers false,
all values, each once.  The list after the call is the list before it. -/
theorem C8_range_visits (l : IntList) (h : intNode) (cells : List Cell)
    (hc : Chain l h cells) (σ : Type) (g : Visitor σ) (f : σ → Int → Bool × σ)
    (hg : ∀ s v, g s l v = .ok ((f s v).1, (f s v).2, l)) (s : σ) (fuel : Nat)
    (hf : cells.length ≤ fuel) :
    RangeAny fuel l g s = .ok ((visit f (vals cells) s).1, (visit f (vals cells) s).2, l) ∧
    (visit f (vals cells) s).1 <+: vals cells ∧
    (∀ p : Int → Bool,
      RangeAny fuel l (listFree (stateless p)) () =
        .ok ((vals cells).takeWhile p ++ ((vals cells).dropWhile p).take 1, (), l)) ∧
    ((∀ s' x, (f s' x).1 = true) → (visit f (vals cells) s).1 = vals cells) := by
  have hlen : (vals cells).length = cells.length := by simp [vals]
  have hR : ∀ (τ : Type) (k : τ → Int → Bool × τ) (t : τ),
      Range fuel l k t = .ok (visit k (vals cells) t) := by
    intro τ k t
    have hle := visitSteps_le k (vals cells) t
    rw [Range_eq hc, if_neg (by omega)]
  refine ⟨?_, visit_initial f _ s, ?_, fun hall => visit_all f hall _ s⟩
  · rw [RangeAny_keeps hg, hR]
    rfl
  · intro p
    rw [RangeAny_listFree, hR, ← visit_stateless p (vals cells)]
    rfl

theorem C8_range_visits_witness :
    Chain listMarked { value := 0, marked := 0, mu := false, next := some 1 }
        [(1, { value := 5, marked := 1, mu := false, next := some 2 }),
         (2, { value := 3, marked := 0, mu := false, next := none })] ∧
      RangeAny 2 listMarked (listFree (stateless (fun x => decide (x < 4)))) () =
        .ok ([5], (), listMarked) ∧
      RangeAny 2 listMarked (listFree (stateless (fun x => decide (4 < x)))) () =
        .ok ([5, 3], (), listMarked) ∧
      RangeAny 2 listMarked (listFree always) () = .ok ([5, 3], (), listMarked) := by
  have hc : Chain listMarked { value := 0, marked := 0, mu := false, next := some 1 }
      [(1, { value := 5, marked := 1, mu := false, next := some 2 }),
       (2, { value := 3, marked := 0, mu := false, next := none })] := by decide
  exact ⟨hc,
    (C8_range_visits listMarked _ _ hc Unit _ (stateless (fun x => decide (x < 4)))
      (fun _ _ => rfl) () 2 (by decide)).1,
    (C8_range_visits listMarked _ _ hc Unit _ (stateless (fun x => decide (4 < x)))
      (fun _ _ => rfl) () 2 (by decide)).1,
    (C8_range_visits listMarked _ _ hc Unit _ always (fun _ _ => rfl) () 2 (by decide)).1⟩

/-- C8 (as stated) fails for a visitor that works on the list: on the list with 5 and 9 the
visitor `func(int) bool { l.Delete(9); return true }` never answers false, and
`Range` calls it on 5 only, not on every value of the chain 5, 9: the call on 5
unlinks the node of 9 before `Range` reads the next pointer of the node of 5. -/
theorem C8_visitor_changes_list_counterexample :
    Chain listWith59 { value := 0, marked := 0, mu := false, next := some 1 }
        [(1, { value := 5, marked := 0, mu := false, next := some 2 }),
         (2, { value := 9, marked := 0, mu := false, next := none })] ∧
      (∀ s l v r, deleteNine s l v = .ok r → r.1 = true) ∧
      RangeAny 2 listWith59 deleteNine () = .ok ([5], (), listWith5Not9) ∧
      ¬ ∃ s l', RangeAny 2 listWith59 deleteNine () = .ok ([5, 9], s, l') := by
  have e : RangeAny 2 listWith59 deleteNine () = .ok ([5], (), listWith5Not9) := rfl
  refine ⟨by decide, ?_, e, ?_⟩
  · intro s l v r hr
    unfold deleteNine at hr
    cases hd : Delete 2 l 9 with
    | error x =>
      rw [hd] at hr
      exact absurd hr (by simp [error_bind])
    | ok d =>
      rw [hd, ok_bind, pure_eq_ok] at hr
      rw [← Except.ok.inj hr]
  · rintro ⟨s, l', h⟩
    rw [e] at h
    exact absurd h (by simp)

/-- C9: in every list state a single thread can reach from `NewInt()`, a `Delete(v)` or
`Insert(v)` that returns false leaves the whole state (the memory with every
node's value, marked flag, mutex and next pointer, the head, the counter) exactly
as it was, hence also `Len()` and the result of every later `Contains` and `Range`.
And these failures happen: when `Contains(v)` is false, `Delete(v)` returns false,
when `Contains(v)` is true, `Insert(v)` returns false. -/
theorem C9_failed_mutation_is_noop (l : IntList) (hl : Reachable l) (v : Int) :
    (∀ fuel l', Delete fuel l v = .ok (false, l') → l' = l) ∧
    (∀ fuel l', Insert fuel l v = .ok (false, l') → l' = l) ∧
    (∀ fuel, l.heap.length ≤ fuel → Contains fuel l v = .ok false →
      Delete fuel l v = .ok (false, l)) ∧
    (∀ fuel, l.heap.length ≤ fuel → Contains fuel l v = .ok true →
      Insert fuel l v = .ok (false, l)) := by
  obtain ⟨vs, hr⟩ := hl.rep
  have hb := hr.bound
  refine ⟨?_, ?_, ?_, ?_⟩
  · intro fuel l' hD
    exact (Delete_ok_Rep hr hD).2.1 rfl
  · intro fuel l' hI
    exact (Insert_ok_Rep hr hI).2.1 rfl
  · intro fuel hf hC
    rw [Contains_total hr v hf] at hC
    have hv : decide (v ∈ vs) = false := Except.ok.inj hC
    obtain ⟨l', hD⟩ := Delete_total hr v hf
    rw [hv] at hD
    have e := (Delete_ok_Rep hr hD).2.1 rfl
    rw [e] at hD
    exact hD
  · intro fuel hf hC
    rw [Contains_total hr v hf] at hC
    have hv : decide (v ∈ vs) = true := Except.ok.inj hC
    have hv' : v ∈ vs := of_decide_eq_true hv
    obtain ⟨n, l1, _, hn, _, _, hsame, _, _, hI⟩ := Insert_Rep hr v
    rw [hI fuel, if_neg (by omega), hsame hv']
    simp [hv']

theorem C9_failed_mutation_is_noop_witness :
    Reachable listWith59 ∧
      Delete 3 listWith59 7 = .ok (false, listWith59) ∧
      Insert 3 listWith59 9 = .ok (false, listWith59) := by
  have hR : Reachable listWith59 :=
    ⟨1, [.insert 5, .insert 9], [.bool true, .bool true], rfl⟩
  have h := C9_failed_mutation_is_noop listWith59 hR
  exact ⟨hR, (h 7).2.2.1 3 (by decide) rfl, (h 9).2.2.2 3 (by decide) rfl⟩

/-- C10: the list returned by `NewInt()` is the empty set: for every integer `v` (0, the
value stored in the sentinel head, and the negative ones included) and whatever
the fuel, `Contains(v)` returns false and `Delete(v)` returns false leaving the
list as it is; `Len()` is 0; and `Range` returns without calling its visitor. -/
theorem C10_new_list_is_empty (v : Int) (fuel : Nat) :
    Contains fuel NewInt v = .ok false ∧
    Delete fuel NewInt v = .ok (false, NewInt) ∧
    Len NewInt = 0 ∧
    (∀ (σ : Type) (f : σ → Int → Bool × σ) (s : σ), Range fuel NewInt f s = .ok ([], s)) := by
  refine ⟨?_, ?_, rfl, ?_⟩
  · rw [Contains_eq Inv_NewInt.chain]
    simp [before, fromOn]
  · rw [Delete_eq v Inv_NewInt.chain]
    simp [before, fromOn]
  · intro σ f s
    rw [Range_eq Inv_NewInt.chain]
    simp [vals, visit, visitSteps]

/-- C11: in every list state a single thread can reach from `NewInt()`, and for all
integers `v` and `w` with `w` different from `v`, `Contains(w)` returns the same
result after `Insert(v)` as before it, and the same result after `Delete(v)` as
before it, whatever `Insert(v)` and `Delete(v)` return (all these calls return,
given fuel for a walk over the allocated nodes and the one `Insert` may add). -/
theorem C11_other_values_untouched (l : IntList) (hl : Reachable l) (v w : Int) (hw : w ≠ v)
    (fuel : Nat) (hf : l.heap.length + 1 ≤ fuel) :
    ∃ c, Contains fuel l w = .ok c ∧
      (∃ r l', Insert fuel l v = .ok (r, l') ∧ Contains fuel l' w = .ok c) ∧
      (∃ r l', Delete fuel l v = .ok (r, l') ∧ Contains fuel l' w = .ok c) := by
  obtain ⟨vs, hr⟩ := hl.rep
  have hb := hr.bound
  refine ⟨decide (w ∈ vs), Contains_total hr w (by omega), ?_, ?_⟩
  · obtain ⟨n, l1, vs1, hn, hr1, hmem, _, _, hh, hI⟩ := Insert_Rep hr v
    refine ⟨decide (v ∉ vs), l1, by rw [hI fuel, if_neg (by omega)], ?_⟩
    rw [Contains_total hr1 w (by omega)]
    have e : w ∈ vs1 ↔ w ∈ vs := by
      rw [hmem w]
      exact ⟨fun h => h.resolve_left hw, Or.inr⟩
    simp only [e]
  · obtain ⟨n, l1, vs1, hn, hr1, hmem, _, _, hh, hD⟩ := Delete_Rep hr v
    refine ⟨decide (v ∈ vs), l1, by rw [hD fuel, if_neg (by omega)], ?_⟩
    rw [Contains_total hr1 w (by omega)]
    have e : w ∈ vs1 ↔ w ∈ vs := by
      rw [hmem w]
      exact ⟨fun h => h.2, fun h => ⟨hw, h⟩⟩
    simp only [e]

theorem C11_other_values_untouched_witness :
    Reachable listWith59 ∧ (9 : Int) ≠ 5 ∧ listWith59.heap.length + 1 ≤ 4 ∧
      ∃ c, Contains 4 listWith59 9 = .ok c ∧
        (∃ r l', Insert 4 listWith59 5 = .ok (r, l') ∧ Contains 4 l' 9 = .ok c) ∧
        (∃ r l', Delete 4 listWith59 5 = .ok (r, l') ∧ Contains 4 l' 9 = .ok c) := by
  have hR : Reachable listWith59 :=
    ⟨1, [.insert 5, .insert 9], [.bool true, .bool true], rfl⟩
  exact ⟨hR, by decide, by decide,
    C11_other_values_untouched listWith59 hR 5 9 (by decide) 4 (by decide)⟩

/-- C12: two threads call `Insert(7)` concurrently on the new (empty) list, each taking
one atomic step at a time, in any order (`ws` names the thread that moves at each
step).  Whatever the interleaving `ws`: it has at most 20 steps; when it arrives at
a state in which neither thread can move, both calls have returned (no thread is
left waiting for a mutex or at a bad pointer); it can be continued to a state in
which both calls have returned; and when both calls have returned, exactly one
returned true and the other false, the list is the one a single `Insert(7)`
leaves: the chain after the head is exactly one unmarked node with value 7, no
mutex is held, and `Len()` is 1. -/
theorem C12_two_inserts_race (ws : List Bool) (s : Sys)
    (h : exec ws (twoInserts NewInt 7 7) = some s) :
    ws.length ≤ 20 ∧
    (s.step false = none → s.step true = none →
      ∃ r1 r2, s.t1.pc = .returned r1 ∧ s.t2.pc = .returned r2) ∧
    (∃ ws' s' r1 r2, exec ws' s = some s' ∧
      s'.t1.pc = .returned r1 ∧ s'.t2.pc = .returned r2) ∧
    (∀ r1 r2, s.t1.pc = .returned r1 → s.t2.pc = .returned r2 →
      r1 = !r2 ∧ s.list = listWith7 ∧ Len s.list = 1 ∧
      Chain s.list { value := 0, marked := 0, mu := false, next := some 1 }
        [(1, { value := 7, marked := 0, mu := false, next := none })]) := by
  have hv := twoInserts_settled h
  refine ⟨Nat.le_of_lt_succ hv.1, settled_stuck hv.2, ?_, ?_⟩
  · obtain ⟨ws', s', h1, h2, h3⟩ := twoInserts_complete 21 ws s h (Nat.le_add_left _ _)
    have e : exec (ws ++ ws') (twoInserts NewInt 7 7) = some s' := by
      rw [exec_append, h]
      exact h1
    obtain ⟨r1, r2, h4, h5⟩ := settled_stuck (twoInserts_settled e).2 h2 h3
    exact ⟨ws', s', r1, r2, h1, h4, h5⟩
  · intro r1 r2 h1 h2
    have hs := hv.2
    unfold settled at hs
    rw [result_of_pc h1, result_of_pc h2] at hs
    simp only [Bool.and_eq_true, bne_iff_ne, ne_eq, decide_eq_true_eq] at hs
    have hl := hs.2
    refine ⟨?_, hl, ?_, ?_⟩
    · have hne := hs.1
      cases r1 <;> cases r2 <;> simp at hne ⊢
    · rw [hl]
      rfl
    · rw [hl]
      decide

theorem C12_two_inserts_race_witness :
    Insert 0 NewInt 7 = .ok (true, listWith7) ∧
      exec firstThenSecond (twoInserts NewInt 7 7) =
        some { list := listWith7
               t1 := { pc := .returned true, value := 7, a := 0, b := none, x := 1 }
               t2 := { pc := .returned false, value := 7, a := 0, b := some 1, x := 0 } } ∧
      exec bothSeeEmpty (twoInserts NewInt 7 7) =
        some { list := listWith7
               t1 := { pc := .returned false, value := 7, a := 0, b := some 1, x := 0 }
               t2 := { pc := .returned true, value := 7, a := 0, b := none, x := 1 } } ∧
      firstThenSecond.length ≤ 20 ∧ bothSeeEmpty.length ≤ 20 ∧
      true = !false ∧ false = !true ∧ Len listWith7 = 1 := by
  have e1 : exec firstThenSecond (twoInserts NewInt 7 7) =
      some { list := listWith7
             t1 := { pc := .returned true, value := 7, a := 0, b := none, x := 1 }
             t2 := { pc := .returned false, value := 7, a := 0, b := some 1, x := 0 } } := by
    decide
  have e2 : exec bothSeeEmpty (twoInserts NewInt 7 7) =
      some { list := listWith7
             t1 := { pc := .returned false, value := 7, a := 0, b := some 1, x := 0 }
             t2 := { pc := .returned true, value := 7, a := 0, b := none, x := 1 } } := by
    decide
  have h1 := C12_two_inserts_race firstThenSecond _ e1
  have h2 := C12_two_inserts_race bothSeeEmpty _ e2
  have h3 := h1.2.2.2 true false rfl rfl
  have h4 := h2.2.2.2 false true rfl rfl
  exact ⟨rfl, e1, e2, h1.1, h2.1, h3.1, h4.1, h3.2.2.1⟩

/-- C13: for every list whose chain after the head is `cells` (ending in `nil`) with
strictly ascending values, and every target `v`, the search loop of `Insert` and
`Delete` (started at the head, given fuel for a walk over the chain) ends with a
pair `(a, b)` where the chain splits as `pre ++ post`: `a` is the head when `pre`
is empty and the last cell of `pre` otherwise, `b` is `nil` when `post` is empty
and the first cell of `post` otherwise, `b = a.next`, every cell of `pre` (the
cells before `b`) has a value below `v`, and every cell of `post` has a value of
at least `v`. -/
theorem C13_search_window (l : IntList) (h : intNode) (cells : List Cell)
    (hc : Chain l h cells) (hs : (vals cells).Pairwise (fun x y => x < y)) (v : Int)
    (fuel : Nat) (hf : cells.length ≤ fuel) :
    ∃ pre post a, cells = pre ++ post ∧
      searchLoop l v fuel l.head h.next = .ok (a.1, post.head?.map Prod.fst) ∧
      ((pre = [] ∧ a = (l.head, h)) ∨ ∃ ys, pre = ys ++ [a]) ∧
      l.heap[a.1]? = some a.2 ∧ a.2.next = post.head?.map Prod.fst ∧
      (∀ c ∈ pre, c.2.value < v) ∧ (∀ c ∈ post, v ≤ c.2.value) := by
  refine ⟨before v cells, fromOn v cells, window l h v cells,
    (before_append_fromOn v cells).symm, ?_, lastCell_cases _ _, window_get v hc,
    seg_head (window_next v hc), before_lt v cells, fromOn_ge v hs⟩
  have hle := before_length_le v cells
  have e := searchLoop_eq l v cells fuel (l.head, h) h.next hc.2
  rw [if_neg (by show ¬ fuel < (before v cells).length; omega)] at e
  exact e

theorem C13_search_window_witness :
    Chain listWith579 { value := 0, marked := 0, mu := false, next := some 1 }
        [(1, { value := 5, marked := 0, mu := false, next := some 3 }),
         (3, { value := 7, marked := 0, mu := false, next := some 2 }),
         (2, { value := 9, marked := 0, mu := false, next := none })] ∧
      searchLoop listWith579 7 3 0 (some 1) = .ok (1, some 3) ∧
      ∃ pre post a,
        [(1, ({ value := 5, marked := 0, mu := false, next := some 3 } : intNode)),
         (3, { value := 7, marked := 0, mu := false, next := some 2 }),
         (2, { value := 9, marked := 0, mu := false, next := none })] = pre ++ post ∧
        searchLoop listWith579 7 3 listWith579.head (some 1) =
          .ok (a.1, post.head?.map Prod.fst) ∧
        ((pre = [] ∧ a = (listWith579.head,
            { value := 0, marked := 0, mu := false, next := some 1 })) ∨
          ∃ ys, pre = ys ++ [a]) ∧
        listWith579.heap[a.1]? = some a.2 ∧ a.2.next = post.head?.map Prod.fst ∧
        (∀ c ∈ pre, c.2.value < 7) ∧ (∀ c ∈ post, 7 ≤ c.2.value) := by
  have hc : Chain listWith579 { value := 0, marked := 0, mu := false, next := some 1 }
      [(1, { value := 5, marked := 0, mu := false, next := some 3 }),
       (3, { value := 7, marked := 0, mu := false, next := some 2 }),
       (2, { value := 9, marked := 0, mu := false, next := none })] := by decide
  exact ⟨hc, rfl, C13_search_window listWith579 _ _ hc (by simp [vals]) 7 3 (by decide)⟩

/-- C16: for every list whose chain after the head is `cells` (ending in `nil`; marked
nodes still linked and any order of values allowed) and every integer `v`,
`Contains(v)`, given fuel for a walk over the chain, returns, and it returns true
exactly when the first cell whose value is not less than `v` exists, has value
`v` and is unmarked.  The head's own value and mark play no part: the result is
the same whatever they are.  `Contains` only reads: the list after the call is
the list before it. -/
theorem C16_contains_any_chain (l : IntList) (h : intNode) (cells : List Cell)
    (hc : Chain l h cells) (v : Int) (fuel : Nat) (hf : cells.length ≤ fuel) :
    ∃ r, Contains fuel l v = .ok r ∧
      (r = true ↔ ∃ pre c post, cells = pre ++ c :: post ∧ (∀ d ∈ pre, d.2.value < v) ∧
        ¬ c.2.value < v ∧ c.2.value = v ∧ c.2.marked ≠ 1) ∧
      (∀ (x : Int) (m : Nat),
        Contains fuel (store l l.head { h with value := x, marked := m }) v = .ok r) ∧
      (∀ ret l', Op.run fuel l (.contains v) = .ok (ret, l') → l' = l ∧ ret = .bool r) := by
  have hle := before_length_le v cells
  have hC : ∀ (k : IntList) (g : intNode), Chain k g cells →
      Contains fuel k v = .ok (match fromOn v cells with
        | [] => false
        | c :: _ => (c.2.value == v && !(c.2.marked == 1))) := by
    intro k g hk
    rw [Contains_eq hk, if_neg (by omega)]
    cases fromOn v cells <;> rfl
  refine ⟨_, hC l h hc, ?_, fun x m => hC _ _ (Chain_head_fields hc x m), ?_⟩
  · constructor
    · intro hr
      cases hpost : fromOn v cells with
      | nil =>
        rw [hpost] at hr
        exact absurd hr (by simp)
      | cons c post =>
        rw [hpost] at hr
        simp only [Bool.and_eq_true, beq_iff_eq, Bool.not_eq_true', beq_eq_false_iff_ne,
          ne_eq] at hr
        refine ⟨before v cells, c, post, ?_, before_lt v cells,
          fromOn_head_not_below v cells hpost, hr.1, hr.2⟩
        rw [← hpost, before_append_fromOn]
    · rintro ⟨pre, c, post, e, hpre, hnb, hv, hm⟩
      rw [e, fromOn_of_split v pre c post hpre hnb]
      simp [hv, hm]
  · intro ret l' hrun
    simp only [Op.run] at hrun
    rw [hC l h hc, ok_bind, pure_eq_ok] at hrun
    have e := Except.ok.inj hrun
    simp only [Prod.mk.injEq] at e
    exact ⟨e.2.symm, e.1.symm⟩

theorem C16_contains_any_chain_witness :
    Chain listMarked { value := 0, marked := 0, mu := false, next := some 1 }
        [(1, { value := 5, marked := 1, mu := false, next := some 2 }),
         (2, { value := 3, marked := 0, mu := false, next := none })] ∧
      Contains 2 listMarked 5 = .ok false ∧ Contains 2 listMarked 3 = .ok false ∧
      Contains 2 listMarked 0 = .ok false ∧
      ∃ r, Contains 2 listMarked 5 = .ok r ∧
        (r = true ↔ ∃ pre c post,
          [(1, ({ value := 5, marked := 1, mu := false, next := some 2 } : intNode)),
           (2, { value := 3, marked := 0, mu := false, next := none })] = pre ++ c :: post ∧
          (∀ d ∈ pre, d.2.value < 5) ∧ ¬ c.2.value < 5 ∧ c.2.value = 5 ∧ c.2.marked ≠ 1) := by
  have hc : Chain listMarked { value := 0, marked := 0, mu := false, next := some 1 }
      [(1, { value := 5, marked := 1, mu := false, next := some 2 }),
       (2, { value := 3, marked := 0, mu := false, next := none })] := by decide
  obtain ⟨r, h1, h2, _⟩ := C16_contains_any_chain listMarked _ _ hc 5 2 (by decide)
  exact ⟨hc, rfl, rfl, rfl, r, h1, h2⟩

/-- C17: for every list whose chain after the head is `cells` (ending in `nil`), `Range`
with the always-true visitor, given fuel for a walk over the chain, visits the
value of every linked cell in chain order, marked or not.  So in the state that
`tryDeleteNode(head, node of 5)` passes through on the list holding 5 and 9, after
it has marked the node of 5 and before it has unlinked it, `Range` visits 5
while `Contains(5)` returns false. -/
theorem C17_range_keeps_marked (l : IntList) (h : intNode) (cells : List Cell)
    (hc : Chain l h cells) (fuel : Nat) (hf : cells.length ≤ fuel) :
    (∃ t, Range fuel l always () = .ok (t, ()) ∧ t = cells.map (fun c => c.2.value) ∧
      ∀ c ∈ cells, c.2.value ∈ t) ∧
    ((do
        let l1 ← lock listWith59 1
        let l2 ← lock l1 0
        setMarked l2 1) = .ok listMidDelete ∧
      Range 2 listMidDelete always () = .ok ([5, 9], ()) ∧
      Contains 2 listMidDelete 5 = .ok false) := by
  refine ⟨⟨vals cells, ?_, rfl, fun c hcm => List.mem_map_of_mem (fun c => c.2.value) hcm⟩,
    rfl, rfl, rfl⟩
  have hle := visitSteps_le always (vals cells) ()
  have hlen : (vals cells).length = cells.length := by simp [vals]
  rw [Range_eq hc, if_neg (by omega), visit_always]

theorem C17_range_keeps_marked_witness :
    Chain listMidDelete { value := 0, marked := 0, mu := true, next := some 1 }
        [(1, { value := 5, marked := 1, mu := true, next := some 2 }),
         (2, { value := 9, marked := 0, mu := false, next := none })] ∧
      ∃ t, Range 2 listMidDelete always () = .ok (t, ()) ∧
        t = [(1, ({ value := 5, marked := 1, mu := true, next := some 2 } : intNode)),
             (2, { value := 9, marked := 0, mu := false, next := none })].map
              (fun c => c.2.value) ∧
        ∀ c ∈ [(1, ({ value := 5, marked := 1, mu := true, next := some 2 } : intNode)),
               (2, { value := 9, marked := 0, mu := false, next := none })],
          c.2.value ∈ t := by
  have hc : Chain listMidDelete { value := 0, marked := 0, mu := true, next := some 1 }
      [(1, { value := 5, marked := 1, mu := true, next := some 2 }),
       (2, { value := 9, marked := 0, mu := false, next := none })] := by decide
  exact ⟨hc, (C17_range_keeps_marked listMidDelete _ _ hc 2 (by decide)).1⟩

/-- C18: whatever the state `l` (any memory, any pointers), no step changes the value of
an allocated node or resets a marked flag.  The steps `setNext`, `Lock`, `Unlock`,
`newIntNode`, `incrLength`, `decrLength` leave the value and the marked flag of
every allocated node as they are; `setMarked` on the node `i` leaves every value
and every other marked flag as they are and stores 1 in the flag of `i`.  Hence:
`tryInsertNode` and `Insert`, when they return, leave all values and marked flags
of allocated nodes as they are; `tryDeleteNode(a, b)` changes nothing when it
returns false and, when it returns true, has stored 1 in the marked flag of `b`
and changed no other marked flag and no value; `Delete`, when it returns, has
changed nothing or made one such successful attempt; `Contains`, `Range` and `Len`
leave the list as it is. -/
theorem C18_marks_only_set_values_fixed (l : IntList) :
    (∀ i x l', setNext l i x = .ok l' → Untouched l l') ∧
    (∀ i l', lock l i = .ok l' → Untouched l l') ∧
    (∀ i l', unlock l i = .ok l' → Untouched l l') ∧
    (∀ v, Untouched l (newIntNode l v).1) ∧
    Untouched l (incrLength l) ∧ Untouched l (decrLength l) ∧
    (∀ i l', setMarked l i = .ok l' → MarkedAt i l l') ∧
    (∀ v a b r l', tryInsertNode l v a b = .ok (r, l') → Untouched l l') ∧
    (∀ fuel v r l', Insert fuel l v = .ok (r, l') → Untouched l l') ∧
    (∀ a b r l', tryDeleteNode l a b = .ok (r, l') →
      (r = false → l' = l) ∧ (r = true → MarkedAt b l l')) ∧
    (∀ fuel v r l', Delete fuel l v = .ok (r, l') →
      l' = l ∨ ∃ a b, tryDeleteNode l a b = .ok (true, l') ∧ MarkedAt b l l') ∧
    (∀ fuel v ret l', Op.run fuel l (.contains v) = .ok (ret, l') → l' = l) ∧
    (∀ fuel σ f s ret l', Op.run fuel l (.range σ f s) = .ok (ret, l') → l' = l) ∧
    (∀ fuel ret l', Op.run fuel l .len = .ok (ret, l') → l' = l) := by
  have hdel : ∀ a b r l', tryDeleteNode l a b = .ok (r, l') →
      (r = false → l' = l) ∧ (r = true → MarkedAt b l l') := by
    intro a b r l' h
    rcases tryDeleteNode_ok_inv h with ⟨h1, h2⟩ | ⟨h1, hab, na, nb, ha, hb, _, _, _, e⟩
    · exact ⟨fun _ => h2, fun h3 => absurd (h1 ▸ h3) (by simp)⟩
    · refine ⟨fun h3 => absurd (h1 ▸ h3) (by simp), fun _ => ?_⟩
      rw [e]
      exact deleted_markedAt ha hb hab
  refine ⟨fun _ _ _ h => setNext_untouched h, fun _ _ h => lock_untouched h,
    fun _ _ h => unlock_untouched h, newIntNode_untouched l, Untouched.refl l,
    Untouched.refl l, fun _ _ h => setMarked_markedAt h,
    fun _ _ _ _ _ h => tryInsertNode_untouched h, ?_, hdel, ?_,
    fun fuel v ret l' h =>
      @run_reader l l' fuel (Op.contains v) ret (fun _ => rfl) (fun _ => rfl) h,
    fun fuel σ f s ret l' h =>
      @run_reader l l' fuel (Op.range σ f s) ret (fun _ => rfl) (fun _ => rfl) h,
    fun fuel ret l' h => @run_reader l l' fuel Op.len ret (fun _ => rfl) (fun _ => rfl) h⟩
  · intro fuel v r l' h
    rcases Insert_ok_inv fuel h with ⟨_, e⟩ | ⟨_, a, b, ht⟩
    · rw [e]
      exact Untouched.refl l
    · exact tryInsertNode_untouched ht
  · intro fuel v r l' h
    rcases Delete_ok_inv fuel h with ⟨_, e⟩ | ⟨_, a, b, ht⟩
    · exact Or.inl e
    · exact Or.inr ⟨a, b, ht, (hdel a b true l' ht).2 rfl⟩

/-- C19: in every list state a single thread can reach from `NewInt()`, the head is still
the node allocated by `NewInt()` and is not marked, the nodes linked after it form
a chain `cells` that ends in `nil`, none of them is marked, and `Len()` is the
number of these cells; hence (given fuel for a walk over the chain) `Range` with
the always-true visitor and `Contains` return, and `Contains(v)` is true exactly
for the values `Range` visits. -/
theorem C19_reachable_states_clean (l : IntList) (hl : Reachable l) :
    ∃ h cells, Chain l h cells ∧ l.head = NewInt.head ∧ h.marked ≠ 1 ∧
      (∀ c ∈ cells, c.2.marked ≠ 1) ∧ Len l = cells.length ∧
      ∀ fuel, cells.length ≤ fuel →
        ∃ t, Range fuel l always () = .ok (t, ()) ∧
          ∀ v, ∃ c, Contains fuel l v = .ok c ∧ (c = true ↔ v ∈ t) := by
  obtain ⟨f0, ops, rets, hrun⟩ := hl
  obtain ⟨vs, ⟨h, cells, hi, e⟩, _⟩ := runOps_Rep Rep_NewInt hrun
  refine ⟨h, cells, hi.chain, runOps_head hrun, hi.head_live, hi.live, ?_, ?_⟩
  · simpa [Len, getLength] using hi.len
  · intro fuel hf
    have hle := visitSteps_le always (vals cells) ()
    have hlen : (vals cells).length = cells.length := by simp [vals]
    refine ⟨vals cells, ?_, ?_⟩
    · rw [Range_eq hi.chain, if_neg (by omega), visit_always]
    · intro v
      have hb := before_length_le v cells
      refine ⟨decide (v ∈ vals cells), ?_, by simp⟩
      rw [Contains_Inv hi, if_neg (by omega)]

theorem C19_reachable_states_clean_witness :
    Reachable listWith59 ∧
      ∃ h cells, Chain listWith59 h cells ∧ listWith59.head = NewInt.head ∧ h.marked ≠ 1 ∧
        (∀ c ∈ cells, c.2.marked ≠ 1) ∧ Len listWith59 = cells.length ∧
        ∀ fuel, cells.length ≤ fuel →
          ∃ t, Range fuel listWith59 always () = .ok (t, ()) ∧
            ∀ v, ∃ c, Contains fuel listWith59 v = .ok c ∧ (c = true ↔ v ∈ t) := by
  have hR : Reachable listWith59 :=
    ⟨1, [.insert 5, .insert 9], [.bool true, .bool true], rfl⟩
  exact ⟨hR, C19_reachable_states_clean listWith59 hR⟩

/-- C20 (as amended): on every list whose chain after the head is `cells` (ending in `nil`,
ascending or not), with no mutex held and neither the head nor a linked node marked, and for
every integer `v`, given fuel for a walk over the chain: the search loop returns a
window `w` (the one traversal); `Insert(v)` either returns false without an attempt
or its first attempt `tryInsertNode(v, w)` returns true and `Insert(v)` returns true
with that state; `Delete(v)` either returns false without an attempt or its first
attempt `tryDeleteNode(w)` returns true and `Delete(v)` returns true with that state.
Without the precondition: on every such chain where the first cell whose value is
not below `v` has value `v`, a free mutex and is marked, `Delete(v)` does not
return whatever the fuel (every attempt returns false and changes nothing), as on
the list where the marked node of 5 is still linked. -/
theorem C20_one_attempt_or_forever (l : IntList) (h : intNode) (cells : List Cell)
    (hc : Chain l h cells) (hfree : h.mu = false ∧ ∀ c ∈ cells, c.2.mu = false)
    (hlive : h.marked ≠ 1 ∧ ∀ c ∈ cells, c.2.marked ≠ 1) (v : Int) (fuel : Nat)
    (hf : cells.length ≤ fuel) :
    (∃ w, searchLoop l v fuel l.head h.next = .ok w ∧
      (Insert fuel l v = .ok (false, l) ∨
        ∃ l', tryInsertNode l v w.1 w.2 = .ok (true, l') ∧ Insert fuel l v = .ok (true, l')) ∧
      (Delete fuel l v = .ok (false, l) ∨
        ∃ b l', w.2 = some b ∧ tryDeleteNode l w.1 b = .ok (true, l') ∧
          Delete fuel l v = .ok (true, l'))) ∧
    (∀ (k : IntList) (g : intNode) (ks : List Cell) (c : Cell) (post : List Cell),
      Chain k g ks → fromOn v ks = c :: post → c.2.value = v → c.2.mu = false →
      c.2.marked = 1 →
      tryDeleteNode k (window k g v ks).1 c.1 = .ok (false, k) ∧
      ∀ n, Delete n k v = .error .outOfFuel) ∧
    (tryDeleteNode listStale5 0 1 = .ok (false, listStale5) ∧
      ∀ n, Delete n listStale5 5 = .error .outOfFuel) := by
  have hstale : ∀ (k : IntList) (g : intNode) (ks : List Cell) (c : Cell) (post : List Cell),
      Chain k g ks → fromOn v ks = c :: post → c.2.value = v → c.2.mu = false →
      c.2.marked = 1 →
      tryDeleteNode k (window k g v ks).1 c.1 = .ok (false, k) ∧
      ∀ n, Delete n k v = .error .outOfFuel := by
    intro k g ks c post hk hpost hv hmu hm
    have hw := window_get v hk
    have hn := window_next v hk
    rw [hpost] at hn
    have hcg := seg_get hn c (List.mem_cons_self _ _)
    have hne : (window k g v ks).1 ≠ c.1 :=
      fun e => seg_not_mem hw hn c (List.mem_cons_self _ _) e.symm
    constructor
    · rw [tryDeleteNode_eq hw hcg hne]
      simp [hmu, hm]
    · intro n
      rw [Delete_eq v hk, hpost]
      simp [hv, hmu, hm]
  refine ⟨?_, hstale, ?_⟩
  · have hle := before_length_le v cells
    have hnf : ¬ fuel < (before v cells).length := by omega
    have hs := searchLoop_eq l v cells fuel (l.head, h) h.next hc.2
    rw [if_neg (by show ¬ fuel < (before v cells).length; exact hnf)] at hs
    have hw := window_get v hc
    have hn := window_next v hc
    have hwin : (window l h v cells).2.mu = false ∧ (window l h v cells).2.marked ≠ 1 := by
      have hm := lastCell_mem (l.head, h) (before v cells)
      rcases List.mem_cons.1 hm with e | e
      · unfold window
        rw [e]
        exact ⟨hfree.1, hlive.1⟩
      · exact ⟨hfree.2 _ (before_mem e), hlive.2 _ (before_mem e)⟩
    refine ⟨((window l h v cells).1, (fromOn v cells).head?.map Prod.fst), hs, ?_, ?_⟩
    · by_cases hd : (vals (fromOn v cells)).head? = some v
      · left
        rw [Insert_eq v hc, if_neg hnf, if_pos hd]
      · right
        refine ⟨inserted l v (window l h v cells).1 (window l h v cells).2
          ((fromOn v cells).head?.map Prod.fst), ?_, ?_⟩
        · show tryInsertNode l v (window l h v cells).1
            ((fromOn v cells).head?.map Prod.fst) = _
          rw [tryInsertNode_eq v _ hw, if_neg (by simp [hwin.1]),
            if_neg (by simp [hwin.2, seg_head hn])]
        · rw [Insert_eq v hc, if_neg hnf, if_neg hd, if_neg (by simp [hwin.1]),
            if_neg hwin.2]
    · cases hpost : fromOn v cells with
      | nil =>
        left
        rw [Delete_eq v hc, if_neg hnf, hpost]
      | cons c post =>
        have hcm : c ∈ cells := fromOn_mem (by rw [hpost]; exact List.mem_cons_self _ _)
        by_cases hv : c.2.value = v
        · right
          rw [hpost] at hn
          have hcg := seg_get hn c (List.mem_cons_self _ _)
          have hne : (window l h v cells).1 ≠ c.1 :=
            fun e => seg_not_mem hw hn c (List.mem_cons_self _ _) e.symm
          have hnext : (window l h v cells).2.next = some c.1 := by
            simp only [seg] at hn
            exact hn.1
          refine ⟨c.1, removed l (window l h v cells) c, ?_, ?_, ?_⟩
          · rfl
          · show tryDeleteNode l (window l h v cells).1 c.1 = _
            rw [tryDeleteNode_eq hw hcg hne]
            simp [hfree.2 c hcm, hlive.2 c hcm, hwin.1, hwin.2, hnext, removed]
          · rw [Delete_eq v hc, if_neg hnf, hpost]
            simp [hv, hfree.2 c hcm, hlive.2 c hcm, hwin.1, hwin.2]
        · left
          rw [Delete_eq v hc, if_neg hnf, hpost]
          simp [hv]
  · have hk : Chain listStale5 { value := 0, marked := 0, mu := false, next := some 1 }
        [(1, { value := 5, marked := 1, mu := false, next := some 2 }),
         (2, { value := 9, marked := 0, mu := false, next := none })] := by decide
    refine ⟨rfl, ?_⟩
    intro n
    rw [Delete_eq 5 hk]
    have e1 : before 5 [(1, ({ value := 5, marked := 1, mu := false, next := some 2 } : intNode)),
        (2, { value := 9, marked := 0, mu := false, next := none })] = [] := by
      simp [before, below]
    have e2 : fromOn 5 [(1, ({ value := 5, marked := 1, mu := false, next := some 2 } : intNode)),
        (2, { value := 9, marked := 0, mu := false, next := none })] =
        [(1, { value := 5, marked := 1, mu := false, next := some 2 }),
         (2, { value := 9, marked := 0, mu := false, next := none })] := by
      simp [fromOn, below]
    rw [e1, e2]
    simp

theorem C20_one_attempt_or_forever_witness :
    Chain listWith59 { value := 0, marked := 0, mu := false, next := some 1 }
        [(1, { value := 5, marked := 0, mu := false, next := some 2 }),
         (2, { value := 9, marked := 0, mu := false, next := none })] ∧
      Insert 2 listWith59 5 = .ok (false, listWith59) ∧
      Insert 2 listWith59 7 = .ok (true, listWith579) ∧
      (∃ w, searchLoop listWith59 5 2 listWith59.head (some 1) = .ok w ∧
        (Insert 2 listWith59 5 = .ok (false, listWith59) ∨
          ∃ l', tryInsertNode listWith59 5 w.1 w.2 = .ok (true, l') ∧
            Insert 2 listWith59 5 = .ok (true, l')) ∧
        (Delete 2 listWith59 5 = .ok (false, listWith59) ∨
          ∃ b l', w.2 = some b ∧ tryDeleteNode listWith59 w.1 b = .ok (true, l') ∧
            Delete 2 listWith59 5 = .ok (true, l'))) ∧
      Delete 7 listStale5 5 = .error .outOfFuel := by
  have hc : Chain listWith59 { value := 0, marked := 0, mu := false, next := some 1 }
      [(1, { value := 5, marked := 0, mu := false, next := some 2 }),
       (2, { value := 9, marked := 0, mu := false, next := none })] := by decide
  have h := C20_one_attempt_or_forever listWith59 _ _ hc ⟨rfl, by simp⟩
    ⟨by decide, by simp⟩ 5 2 (by decide)
  exact ⟨hc, rfl, rfl, h.1, h.2.2.2 7⟩

/-- C20 (as stated) fails while a mutex is held: the list with 5 and 9, with the head's
mutex held by another thread (the state right after its `head.mu.Lock()`), has a
finite strictly ascending chain and no marked node, and `Insert(3)` and
`Delete(5)` do not terminate with no other thread running, whatever the fuel:
their one attempt waits in `Lock` for the head's mutex. -/
theorem C20_held_mutex_counterexample :
    lock listWith59 0 = .ok listHeadHeld ∧
      Chain listHeadHeld { value := 0, marked := 0, mu := true, next := some 1 }
        [(1, { value := 5, marked := 0, mu := false, next := some 2 }),
         (2, { value := 9, marked := 0, mu := false, next := none })] ∧
      ([5, 9] : List Int).Pairwise (fun x y => x < y) ∧
      (∀ n ∈ listHeadHeld.heap, n.marked ≠ 1) ∧
      (∀ fuel, Insert fuel listHeadHeld 3 = .error .deadlock) ∧
      (∀ fuel, Delete fuel listHeadHeld 5 = .error .deadlock) := by
  have hc : Chain listHeadHeld { value := 0, marked := 0, mu := true, next := some 1 }
      [(1, { value := 5, marked := 0, mu := false, next := some 2 }),
       (2, { value := 9, marked := 0, mu := false, next := none })] := by decide
  refine ⟨rfl, hc, by decide, by decide, ?_, ?_⟩
  · intro fuel
    rw [Insert_eq 3 hc]
    rfl
  · intro fuel
    rw [Delete_eq 5 hc]
    rfl

end simplelist
